import Mathlib

/-! # VectorPool (src/entity/vector_pool.h)

A shallow embedding of the vector-backed pool allocator `fpl::VectorPool<T>`:
a `std::vector` of slots threaded by two doubly linked lists (used / free)
through the `next` / `prev` index fields, with generation-tagged references.

Conventions of the embedding
* `size_t` and `uint32_t` values are natural numbers; arithmetic that can wrap
  is written with an explicit `% 2 ^ 64` or `% 2 ^ 32`.
* An operation returns `none` where the C++ code has no defined result: an
  `assert` that fails, `elements_[i]` with `i` out of range, or a dereference
  of the null pointer returned by `GetElement`.
* A pointer to the pool (`container_`) is a flag saying whether it is non-null;
  the pool it points to is passed explicitly.
* The element type `T` comes with `DefaultInit T`: the value of `T()` and what
  the default-initialisation `new (p) T;` writes, which for `int` is nothing.
-/

namespace fpl

/-! ## Data model -/

/-- `static const size_t kOutOfBounds = static_cast<size_t>(-1)`. -/
def kOutOfBounds : Nat := 2 ^ 64 - 1

/-- `static const UniqueIdType kInvalidId = 0`. -/
def kInvalidId : Nat := 0

def kFirstUsed : Nat := 0
def kLastUsed : Nat := 1
def kFirstFree : Nat := 2
def kLastFree : Nat := 3
def kTotalReserved : Nat := 4

/-- `struct VectorPoolElement`. -/
structure VectorPoolElement (T : Type) where
  data : T
  next : Nat
  prev : Nat
  unique_id : Nat
  deriving DecidableEq

/-- The constructor `VectorPoolElement()`: links out of bounds, invalid id,
default-constructed data (`default` stands for the content of the new `data`
member). -/
def VectorPoolElement.new {T : Type} [Inhabited T] : VectorPoolElement T :=
  ⟨default, kOutOfBounds, kOutOfBounds, kInvalidId⟩

/-- The C++ behaviour of the element type `T` that the pool depends on.
`default` is the value of `T()`. `construct x` is what the default-initialisation
`new (p) T;` leaves in storage whose content was `x`: `x` itself for a scalar
type and for a class whose default constructor writes no member (such as
`ShakeablePropData`, whose constructor in `components/shakeable_prop.h` has an
empty body), the value the constructor writes for a class whose default
constructor initialises its members. -/
class DefaultInit (T : Type) extends Inhabited T where
  construct : T → T

/-- The element type `int`: default-initialisation writes nothing. -/
instance instDefaultInitNat : DefaultInit Nat where
  default := 0
  construct := id

/-- The data members of `VectorPool<T>`. -/
structure VectorPool (T : Type) where
  elements_ : List (VectorPoolElement T)
  active_count_ : Nat
  next_unique_id_ : Nat
  deriving DecidableEq

/-- `class VectorPoolReference`: `container_` records whether the pool pointer
is non-null. -/
structure VectorPoolReference where
  container_ : Bool
  index_ : Nat
  unique_id_ : Nat
  deriving DecidableEq

/-- `class Iterator`: the position in the pool it was made on. -/
structure Iterator where
  index_ : Nat
  deriving DecidableEq

variable {T : Type}

/-! ## Writes to one field of `elements_[i]` -/

/-- `elements_[i].next = v`. -/
def setNext (els : List (VectorPoolElement T)) (i v : Nat) :
    Option (List (VectorPoolElement T)) :=
  match els[i]? with
  | some e => some (els.set i ⟨e.data, v, e.prev, e.unique_id⟩)
  | none => none

/-- `elements_[i].prev = v`. -/
def setPrev (els : List (VectorPoolElement T)) (i v : Nat) :
    Option (List (VectorPoolElement T)) :=
  match els[i]? with
  | some e => some (els.set i ⟨e.data, e.next, v, e.unique_id⟩)
  | none => none

/-- `elements_[i].unique_id = v`. -/
def setUniqueId (els : List (VectorPoolElement T)) (i v : Nat) :
    Option (List (VectorPoolElement T)) :=
  match els[i]? with
  | some e => some (els.set i ⟨e.data, e.next, e.prev, v⟩)
  | none => none

/-- `new (&(elements_[i].data)) T`: default-initialisation of the storage of
`elements_[i].data`, which writes what `DefaultInit.construct` says for `T`. -/
def constructData [DefaultInit T] (els : List (VectorPoolElement T)) (i : Nat) :
    Option (List (VectorPoolElement T)) :=
  match els[i]? with
  | some e => some (els.set i ⟨DefaultInit.construct e.data, e.next, e.prev, e.unique_id⟩)
  | none => none

/-- `std::vector::resize(n)`: truncate, or pad with `VectorPoolElement()`. -/
def resize [Inhabited T] (els : List (VectorPoolElement T)) (n : Nat) :
    List (VectorPoolElement T) :=
  els.take n ++ List.replicate (n - els.length) VectorPoolElement.new

namespace VectorPool

/-! ## Pool operations -/

/-- `Size()`. -/
def Size (p : VectorPool T) : Nat := p.elements_.length

/-- `active_count()`. -/
def active_count (p : VectorPool T) : Nat := p.active_count_

/-- `GetElement(index)`: `none` is the null pointer. -/
def GetElement (p : VectorPool T) (index : Nat) : Option (VectorPoolElement T) :=
  if index < p.elements_.length then p.elements_[index]? else none

/-- `RemoveFromList(index)`. `element` is a C++ reference, so the second
statement reads its fields again after the first write. -/
def RemoveFromList (p : VectorPool T) (index : Nat) : Option (VectorPool T) :=
  if index < p.elements_.length ∧ index ≥ kTotalReserved then do
    let element ← p.elements_[index]?
    let els1 ← setNext p.elements_ element.prev element.next
    let element ← els1[index]?
    let els2 ← setPrev els1 element.next element.prev
    pure ⟨els2, p.active_count_, p.next_unique_id_⟩
  else none

/-- `AddToList(index, start_index)`. `list_start` is a C++ reference, read
again at each use. -/
def AddToList (p : VectorPool T) (index start_index : Nat) : Option (VectorPool T) :=
  if index < p.elements_.length ∧ index ≥ kTotalReserved then do
    let list_start ← p.elements_[start_index]?
    let els1 ← setPrev p.elements_ list_start.next index
    let els2 ← setPrev els1 index start_index
    let list_start ← els2[start_index]?
    let els3 ← setNext els2 index list_start.next
    let els4 ← setNext els3 start_index index
    pure ⟨els4, p.active_count_, p.next_unique_id_⟩
  else none

/-- `AllocateUniqueId()`: the id handed out and the pool with the counter
advanced (a `uint32_t`, skipping `kInvalidId` when it rolls over). -/
def AllocateUniqueId (p : VectorPool T) : Nat × VectorPool T :=
  let result := p.next_unique_id_
  let n1 := (p.next_unique_id_ + 1) % 2 ^ 32
  let n2 := if n1 = kInvalidId then (n1 + 1) % 2 ^ 32 else n1
  (result, ⟨p.elements_, p.active_count_, n2⟩)

/-- The constructor `VectorPoolReference(container, index)`. -/
def makeReference (p : VectorPool T) (index : Nat) : Option VectorPoolReference :=
  match p.GetElement index with
  | some e => some ⟨true, index, e.unique_id⟩
  | none => none

/-- `GetNewElement()`. -/
def GetNewElement [DefaultInit T] (p : VectorPool T) :
    Option (VectorPool T × VectorPoolReference) := do
  let first_free ← p.elements_[kFirstFree]?
  let (p1, index) ←
    (if first_free.next ≠ kLastFree then do
      let p1 ← p.RemoveFromList first_free.next
      pure (p1, first_free.next)
    else
      pure (⟨p.elements_ ++ [VectorPoolElement.new], p.active_count_, p.next_unique_id_⟩,
        p.elements_.length) : Option (VectorPool T × Nat))
  let p2 ← p1.AddToList index kFirstUsed
  let count := (p2.active_count_ + 1) % 2 ^ 64
  let els3 ← constructData p2.elements_ index
  let (id, p4) := AllocateUniqueId ⟨els3, count, p2.next_unique_id_⟩
  let els5 ← setUniqueId p4.elements_ index id
  let p5 : VectorPool T := ⟨els5, p4.active_count_, p4.next_unique_id_⟩
  let r ← p5.makeReference index
  pure (p5, r)

/-- `FreeElement(size_t index)`. -/
def FreeElement (p : VectorPool T) (index : Nat) : Option (VectorPool T) := do
  let p1 ← p.RemoveFromList index
  let p2 ← p1.AddToList index kFirstFree
  let els3 ← setUniqueId p2.elements_ index kInvalidId
  pure ⟨els3, (p2.active_count_ + (2 ^ 64 - 1)) % 2 ^ 64, p2.next_unique_id_⟩

/-- `VectorPoolReference::IsValid()`, on the pool the reference points to.
`none` is the dereference of the null pointer `GetElement` returns for an
index that is out of range. -/
def IsValid (p : VectorPool T) (r : VectorPoolReference) : Option Bool :=
  if r.container_ then
    match p.GetElement r.index_ with
    | some e => some (decide (e.unique_id = r.unique_id_))
    | none => none
  else some false

/-- `FreeElement(VectorPoolReference element)`. -/
def FreeElementRef (p : VectorPool T) (element : VectorPoolReference) :
    Option (VectorPool T) := do
  let valid ← p.IsValid element
  if valid then p.FreeElement element.index_ else pure p

/-- `Iterator::operator++`. -/
def next (p : VectorPool T) (it : Iterator) : Option Iterator :=
  match p.elements_[it.index_]? with
  | some e => some ⟨e.next⟩
  | none => none

/-- `Iterator::operator--`. -/
def prev (p : VectorPool T) (it : Iterator) : Option Iterator :=
  match p.elements_[it.index_]? with
  | some e => some ⟨e.prev⟩
  | none => none

/-- `FreeElement(Iterator iter)`: `temp = iter++`, free `temp`, return `iter`. -/
def FreeElementIter (p : VectorPool T) (iter : Iterator) :
    Option (VectorPool T × Iterator) := do
  let temp := iter
  let iter ← p.next iter
  let p1 ← p.FreeElement temp.index_
  pure (p1, iter)

/-- `Clear()`. -/
def Clear [Inhabited T] (p : VectorPool T) : Option (VectorPool T) := do
  let els0 := resize p.elements_ kTotalReserved
  let els1 ← setNext els0 kFirstUsed kLastUsed
  let els2 ← setPrev els1 kLastUsed kFirstUsed
  let els3 ← setNext els2 kFirstFree kLastFree
  let els4 ← setPrev els3 kLastFree kFirstFree
  pure ⟨els4, 0, p.next_unique_id_⟩

/-- The constructor `VectorPool()`. -/
def new [Inhabited T] : Option (VectorPool T) :=
  Clear ⟨[], 0, kInvalidId + 1⟩

/-- `begin()`. -/
def begin (p : VectorPool T) : Option Iterator :=
  match p.elements_[kFirstUsed]? with
  | some e => some ⟨e.next⟩
  | none => none

/-- `end()`. -/
def end_ (_p : VectorPool T) : Iterator := ⟨kLastUsed⟩

/-- The body of the `for` loop of `Reserve`, run `count` more times starting
at `current_size`. -/
def ReserveLoop (p : VectorPool T) (current_size : Nat) : Nat → Option (VectorPool T)
  | 0 => some p
  | count + 1 => do
    let els ← setUniqueId p.elements_ current_size kInvalidId
    let p1 ← AddToList ⟨els, p.active_count_, p.next_unique_id_⟩ current_size kFirstFree
    ReserveLoop p1 (current_size + 1) count

/-- `Reserve(new_size)`. -/
def Reserve [Inhabited T] (p : VectorPool T) (new_size : Nat) : Option (VectorPool T) :=
  let current_size := p.elements_.length
  if current_size ≥ new_size then some p
  else
    ReserveLoop ⟨resize p.elements_ new_size, p.active_count_, p.next_unique_id_⟩
      current_size (new_size - current_size)

/-- `Iterator::ToReference()`. -/
def ToReference (p : VectorPool T) (it : Iterator) : Option VectorPoolReference :=
  p.makeReference it.index_

/-- The loop `for (it = begin(); it != end(); ++it)` collecting `it.index_`,
cut off after `fuel` steps. -/
def collect (p : VectorPool T) : Nat → Iterator → Option (List Nat)
  | 0, _ => none
  | fuel + 1, it =>
    if it = p.end_ then some []
    else
      match p.next it with
      | some it1 =>
        match collect p fuel it1 with
        | some l => some (it.index_ :: l)
        | none => none
      | none => none

/-- The indices visited by iterating from `begin()` to `end()`. -/
def iterate (p : VectorPool T) : Option (List Nat) :=
  match p.begin with
  | some it => collect p (p.Size + 1) it
  | none => none

end VectorPool

/-- The default constructor `VectorPoolReference()`. -/
def VectorPoolReference.null : VectorPoolReference := ⟨false, 0, 0⟩

/-- `VectorPoolReference::ToIterator()`. -/
def VectorPoolReference.ToIterator (r : VectorPoolReference) : Iterator := ⟨r.index_⟩

/-! ## Sequences of client calls -/

/-- A client call. `free k` frees the reference returned by the `k`-th call of
`GetNewElement` (counted from 0), or a default-constructed reference when there
have been fewer calls. -/
inductive Op where
  | alloc : Op
  | free : Nat → Op
  | reserve : Nat → Op
  | clear : Op
  deriving DecidableEq

/-- A pool together with the references `GetNewElement` has returned so far,
oldest first. -/
structure Client (T : Type) where
  pool : VectorPool T
  issued : List VectorPoolReference
  deriving DecidableEq

/-- One client call. -/
def Client.step [DefaultInit T] (s : Client T) : Op → Option (Client T)
  | .alloc =>
    match s.pool.GetNewElement with
    | some (p, r) => some ⟨p, s.issued ++ [r]⟩
    | none => none
  | .free k =>
    match s.pool.FreeElementRef ((s.issued[k]?).getD VectorPoolReference.null) with
    | some p => some ⟨p, s.issued⟩
    | none => none
  | .reserve n =>
    match s.pool.Reserve n with
    | some p => some ⟨p, s.issued⟩
    | none => none
  | .clear =>
    match s.pool.Clear with
    | some p => some ⟨p, s.issued⟩
    | none => none

/-- A sequence of client calls, from a given state. -/
def Client.runFrom [DefaultInit T] (s : Client T) : List Op → Option (Client T)
  | [] => some s
  | op :: ops =>
    match s.step op with
    | some s1 => s1.runFrom ops
    | none => none

/-- A sequence of client calls on a freshly constructed pool. -/
def Client.run [DefaultInit T] (ops : List Op) : Option (Client T) :=
  match (VectorPool.new : Option (VectorPool T)) with
  | some p => Client.runFrom ⟨p, []⟩ ops
  | none => none

/-! ## Field views of the storage -/

/-- The `next` field of slot `i`, if there is such a slot. -/
def nxt (els : List (VectorPoolElement T)) (i : Nat) : Option Nat :=
  match els[i]? with
  | some e => some e.next
  | none => none

/-- The `prev` field of slot `i`. -/
def prv (els : List (VectorPoolElement T)) (i : Nat) : Option Nat :=
  match els[i]? with
  | some e => some e.prev
  | none => none

/-- The `unique_id` field of slot `i`. -/
def uid (els : List (VectorPoolElement T)) (i : Nat) : Option Nat :=
  match els[i]? with
  | some e => some e.unique_id
  | none => none

/-- The `data` field of slot `i`. -/
def dat (els : List (VectorPoolElement T)) (i : Nat) : Option T :=
  match els[i]? with
  | some e => some e.data
  | none => none

/-- The four field views and the length of a storage. -/
structure Views (els1 : List (VectorPoolElement T)) (len : Nat)
    (nx1 pv1 ud1 : Nat → Option Nat) (dt1 : Nat → Option T) : Prop where
  length_eq : els1.length = len
  nxt_eq : ∀ j, nxt els1 j = nx1 j
  prv_eq : ∀ j, prv els1 j = pv1 j
  uid_eq : ∀ j, uid els1 j = ud1 j
  dat_eq : ∀ j, dat els1 j = dt1 j

/-! ## Chains, effects and invariants -/

/-- `Seg nx pv a l b`: following `nx` from `a` visits the members of `l` in
order and then arrives at `b`, and `pv` leads back the same way. -/
def Seg (nx pv : Nat → Option Nat) : Nat → List Nat → Nat → Prop
  | a, [], b => nx a = some b ∧ pv b = some a
  | a, x :: xs, b => nx a = some x ∧ pv x = some a ∧ Seg nx pv x xs b

instance Seg.decidable (nx pv : Nat → Option Nat) :
    ∀ (a : Nat) (l : List Nat) (b : Nat), Decidable (Seg nx pv a l b)
  | a, [], b => inferInstanceAs (Decidable (nx a = some b ∧ pv b = some a))
  | a, x :: xs, b =>
    haveI := Seg.decidable nx pv x xs b
    inferInstanceAs (Decidable (nx a = some x ∧ pv x = some a ∧ Seg nx pv x xs b))

/-- The used chain and the free chain: two disjoint doubly linked chains
between the sentinels, over slots that are not sentinels. -/
structure Chains (nx pv : Nat → Option Nat) (used free : List Nat) : Prop where
  used_chain : Seg nx pv kFirstUsed used kLastUsed
  free_chain : Seg nx pv kFirstFree free kLastFree
  nodup : (used ++ free).Nodup
  not_reserved : ∀ j ∈ used ++ free, kTotalReserved ≤ j

/-- The effect of an operation on a pool, field view by field view. -/
structure Effect (p1 : VectorPool T) (len count next_id : Nat)
    (nx1 pv1 ud1 : Nat → Option Nat) (dt1 : Nat → Option T) : Prop where
  views : Views p1.elements_ len nx1 pv1 ud1 dt1
  count_eq : p1.active_count_ = count
  next_id_eq : p1.next_unique_id_ = next_id

/-- `Inv p used free m`: the used chain of `p` is `used` and its free chain is
`free`, between them they hold each slot from `kTotalReserved` up to `m`
exactly once, the count of active elements is the length of the used chain (as
a `size_t`), used slots carry a valid id, free slots and sentinels the invalid
one, and the next id is a valid `uint32_t` id. -/
structure Inv (p : VectorPool T) (used free : List Nat) (m : Nat) : Prop where
  chains : Chains (nxt p.elements_) (prv p.elements_) used free
  mem_iff : ∀ i, i ∈ used ++ free ↔ kTotalReserved ≤ i ∧ i < m
  reserved : kTotalReserved ≤ m
  in_range : m ≤ p.elements_.length
  count : p.active_count_ = used.length % 2 ^ 64
  used_id : ∀ i ∈ used, ∃ u, uid p.elements_ i = some u ∧ u ≠ kInvalidId
  free_id : ∀ i ∈ free, uid p.elements_ i = some kInvalidId
  sentinel_id : ∀ i, i < kTotalReserved → uid p.elements_ i = some kInvalidId
  next_id : p.next_unique_id_ ≠ kInvalidId ∧ p.next_unique_id_ < 2 ^ 32

/-- A well-formed pool whose used chain is `used` and whose free chain is
`free`: the two chains partition the slots that are not sentinels. -/
def WellFormed (p : VectorPool T) (used free : List Nat) : Prop :=
  Inv p used free p.Size

/-- The effect of `GetNewElement` on the ids, the data and the counters, where
`i` is the slot it hands out. -/
structure Allocated [DefaultInit T] (p p1 : VectorPool T) (i : Nat) : Prop where
  count_eq : p1.active_count_ = (p.active_count_ + 1) % 2 ^ 64
  next_id_eq : p1.next_unique_id_ = p.AllocateUniqueId.2.next_unique_id_
  uid_eq : ∀ j, uid p1.elements_ j = if j = i then some p.next_unique_id_
    else uid p.elements_ j
  dat_eq : ∀ j, dat p1.elements_ j =
    if j = i then some (DefaultInit.construct ((dat p.elements_ i).getD default))
    else dat p.elements_ j

/-- The effect of `FreeElement(size_t)` on the ids, the data and the counters,
where `i` is the slot freed. -/
structure Freed (p p1 : VectorPool T) (i : Nat) : Prop where
  count_eq : p1.active_count_ = (p.active_count_ + (2 ^ 64 - 1)) % 2 ^ 64
  next_id_eq : p1.next_unique_id_ = p.next_unique_id_
  uid_eq : ∀ j, uid p1.elements_ j = if j = i then some kInvalidId else uid p.elements_ j
  dat_eq : ∀ j, dat p1.elements_ j = dat p.elements_ j

/-- The effect of `Clear`, on any pool. -/
structure Cleared [Inhabited T] (p p1 : VectorPool T) : Prop where
  size_eq : p1.Size = kTotalReserved
  count_eq : p1.active_count_ = 0
  next_id_eq : p1.next_unique_id_ = p.next_unique_id_
  used_next : nxt p1.elements_ kFirstUsed = some kLastUsed
  used_prev : prv p1.elements_ kLastUsed = some kFirstUsed
  free_next : nxt p1.elements_ kFirstFree = some kLastFree
  free_prev : prv p1.elements_ kLastFree = some kFirstFree
  uid_eq : ∀ j, uid p1.elements_ j = uid (resize p.elements_ kTotalReserved) j
  dat_eq : ∀ j, dat p1.elements_ j = dat (resize p.elements_ kTotalReserved) j

/-- The effect of the loop of `Reserve` over the slots from `lo` up to `hi`. -/
structure Grown (p p1 : VectorPool T) (lo hi : Nat) : Prop where
  length_eq : p1.elements_.length = p.elements_.length
  count_eq : p1.active_count_ = p.active_count_
  next_id_eq : p1.next_unique_id_ = p.next_unique_id_
  uid_eq : ∀ j, uid p1.elements_ j = if lo ≤ j ∧ j < hi then some kInvalidId
    else uid p.elements_ j
  dat_eq : ∀ j, dat p1.elements_ j = dat p.elements_ j

/-- The effect of `Reserve(n)` on the ids, the data and the counters. -/
structure Reserved [Inhabited T] (p p1 : VectorPool T) (n : Nat) : Prop where
  size_eq : p1.Size = max p.Size n
  count_eq : p1.active_count_ = p.active_count_
  next_id_eq : p1.next_unique_id_ = p.next_unique_id_
  uid_eq : ∀ j, uid p1.elements_ j = if p.Size ≤ j ∧ j < n then some kInvalidId
    else uid p.elements_ j
  dat_eq : ∀ j, dat p1.elements_ j = if p.Size ≤ j ∧ j < n then some default
    else dat p.elements_ j

/-! ## Invariants of the client's view -/

/-- The number, counted from 1, of the latest call of `GetNewElement` that
returned slot `i`; 0 when no call did. -/
def lastAlloc : List VectorPoolReference → Nat → Nat
  | [], _ => 0
  | r :: rs, i =>
    if lastAlloc rs i ≠ 0 then lastAlloc rs i + 1
    else if r.index_ = i then 1 else 0

/-- What holds of a pool and the references handed out on it, after any
sequence of client calls. -/
structure ClientInv (s : Client T) (used free : List Nat) : Prop where
  wf : WellFormed s.pool used free
  issued_ok : ∀ r ∈ s.issued, r.container_ = true ∧ r.unique_id_ ≠ kInvalidId
  used_issued : ∀ i ∈ used, ∃ r ∈ s.issued, r.index_ = i ∧
    uid s.pool.elements_ i = some r.unique_id_
  order : used.Pairwise (fun a b => lastAlloc s.issued b < lastAlloc s.issued a)
  next_id_eq : s.pool.next_unique_id_ = s.issued.length % (2 ^ 32 - 1) + 1
  fresh : s.issued.length < 2 ^ 32 - 1 →
    (∀ j u, uid s.pool.elements_ j = some u → u ≤ s.issued.length) ∧
      ∀ r ∈ s.issued, r.unique_id_ ≤ s.issued.length

/-! ## Example states -/

/-- A freshly constructed pool, with no reference handed out. -/
def exampleFresh : Client Nat :=
  ⟨⟨[⟨0, 1, kOutOfBounds, 0⟩, ⟨0, kOutOfBounds, 0, 0⟩, ⟨0, 3, kOutOfBounds, 0⟩,
      ⟨0, kOutOfBounds, 2, 0⟩], 0, 1⟩, []⟩

/-- The state after three calls of `GetNewElement` and freeing the second
reference. -/
def exampleFreed : Client Nat :=
  ⟨⟨[⟨0, 6, kOutOfBounds, 0⟩, ⟨0, kOutOfBounds, 4, 0⟩, ⟨0, 5, kOutOfBounds, 0⟩,
      ⟨0, kOutOfBounds, 5, 0⟩, ⟨0, 1, 6, 1⟩, ⟨0, 3, 2, 0⟩, ⟨0, 4, 0, 3⟩], 2, 4⟩,
    [⟨true, 4, 1⟩, ⟨true, 5, 2⟩, ⟨true, 6, 3⟩]⟩

/-- The state `exampleFreed` after one more call of `GetNewElement`, which
uses slot 5 again. -/
def exampleReused : Client Nat :=
  ⟨⟨[⟨0, 5, kOutOfBounds, 0⟩, ⟨0, kOutOfBounds, 4, 0⟩, ⟨0, 3, kOutOfBounds, 0⟩,
      ⟨0, kOutOfBounds, 2, 0⟩, ⟨0, 1, 6, 1⟩, ⟨0, 6, 0, 4⟩, ⟨0, 4, 5, 3⟩], 3, 5⟩,
    [⟨true, 4, 1⟩, ⟨true, 5, 2⟩, ⟨true, 6, 3⟩, ⟨true, 5, 4⟩]⟩

/-- The state after one call of `GetNewElement` and a call of `Clear`. -/
def exampleCleared : Client Nat :=
  ⟨⟨[⟨0, 1, kOutOfBounds, 0⟩, ⟨0, kOutOfBounds, 0, 0⟩, ⟨0, 3, kOutOfBounds, 0⟩,
      ⟨0, kOutOfBounds, 2, 0⟩], 0, 2⟩, [⟨true, 4, 1⟩]⟩

/-- The state `exampleFreed` after `Reserve(9)` and one more call of
`GetNewElement`, which uses the new slot 8. -/
def exampleReserved : Client Nat :=
  ⟨⟨[⟨0, 8, kOutOfBounds, 0⟩, ⟨0, kOutOfBounds, 4, 0⟩, ⟨0, 7, kOutOfBounds, 0⟩,
      ⟨0, kOutOfBounds, 5, 0⟩, ⟨0, 1, 6, 1⟩, ⟨0, 3, 7, 0⟩, ⟨0, 4, 8, 3⟩, ⟨0, 5, 2, 0⟩,
      ⟨0, 6, 0, 4⟩], 3, 5⟩, [⟨true, 4, 1⟩, ⟨true, 5, 2⟩, ⟨true, 6, 3⟩, ⟨true, 8, 4⟩]⟩

/-- The state after one call of `GetNewElement` and freeing the reference it
returned: nothing is in use and slot 4 is free. -/
def exampleEmptied : Client Nat :=
  ⟨⟨[⟨0, 1, kOutOfBounds, 0⟩, ⟨0, kOutOfBounds, 0, 0⟩, ⟨0, 4, kOutOfBounds, 0⟩,
      ⟨0, kOutOfBounds, 4, 0⟩, ⟨0, 3, 2, 0⟩], 0, 2⟩, [⟨true, 4, 1⟩]⟩

/-! ## Client loops -/

/-- A client that calls `GetNewElement` `n` times and drops the references. -/
def allocMany [DefaultInit T] : Nat → VectorPool T → Option (VectorPool T)
  | 0, p => some p
  | n + 1, p =>
    match p.GetNewElement with
    | some (p1, _) => allocMany n p1
    | none => none

/-- The loop `c = begin(); while (c != end()) c = FreeElement(c);`, cut off
after `fuel` tests of the condition: the pool at the end and the indices of the
cursors that were freed, in order. -/
def freeLoop (p : VectorPool T) : Nat → Iterator → Option (VectorPool T × List Nat)
  | 0, _ => none
  | fuel + 1, c =>
    if c = p.end_ then some (p, [])
    else
      match p.FreeElementIter c with
      | some (p1, c1) =>
        match freeLoop p1 fuel c1 with
        | some (p2, l) => some (p2, c.index_ :: l)
        | none => none
      | none => none

/-- The loop `freeLoop` started at `begin()`. -/
def freeAll (p : VectorPool T) : Option (VectorPool T × List Nat) :=
  match p.begin with
  | some c => freeLoop p (p.Size + 1) c
  | none => none

/-! ## Access to the data through a reference -/

/-- `elements_[i].data = v`: a store through the pointer that `operator->`
or `ToPointer` returned for slot `i`. -/
def setData (els : List (VectorPoolElement T)) (i : Nat) (v : T) :
    Option (List (VectorPoolElement T)) :=
  match els[i]? with
  | some e => some (els.set i ⟨v, e.next, e.prev, e.unique_id⟩)
  | none => none

/-- `VectorPoolReference::operator->`: the slot whose `data` the pointer
returned points to; `none` when the `assert` fails or a null pointer is
dereferenced. -/
def VectorPool.memberAccess (p : VectorPool T) (r : VectorPoolReference) : Option Nat :=
  match p.IsValid r with
  | some true =>
    match p.GetElement r.index_ with
    | some _ => some r.index_
    | none => none
  | some false => none
  | none => none

/-- `VectorPoolReference::ToPointer()`: `some (some i)` is the pointer to the
`data` of slot `i`, `some none` is `nullptr`, and `none` says that the call
dereferenced a null pointer. -/
def VectorPool.ToPointer (p : VectorPool T) (r : VectorPoolReference) :
    Option (Option Nat) :=
  match p.IsValid r with
  | some true =>
    match p.GetElement r.index_ with
    | some _ => some (some r.index_)
    | none => none
  | some false => some none
  | none => none

/-- The client statement `*(r.operator->()) = v`. -/
def VectorPool.store (p : VectorPool T) (r : VectorPoolReference) (v : T) :
    Option (VectorPool T) :=
  match p.memberAccess r with
  | some i =>
    match setData p.elements_ i v with
    | some els => some ⟨els, p.active_count_, p.next_unique_id_⟩
    | none => none
  | none => none

/-! ## Backward iteration and repeated allocation -/

/-- The loop `while (it != begin()) { --it; visit(it.index_); }`, cut off after
`fuel` tests of the condition. -/
def VectorPool.collectBack (p : VectorPool T) : Nat → Iterator → Option (List Nat)
  | 0, _ => none
  | fuel + 1, it =>
    if p.begin = some it then some []
    else
      match p.prev it with
      | some it1 =>
        match collectBack p fuel it1 with
        | some l => some (it1.index_ :: l)
        | none => none
      | none => none

/-- The indices visited by iterating backwards from `end()` to `begin()`. -/
def VectorPool.iterateBack (p : VectorPool T) : Option (List Nat) :=
  p.collectBack (p.Size + 1) p.end_

/-- A client that calls `GetNewElement` `n` times: the pool at the end and the
indices of the references returned, in order. -/
def allocList [DefaultInit T] : Nat → VectorPool T → Option (VectorPool T × List Nat)
  | 0, p => some (p, [])
  | n + 1, p =>
    match p.GetNewElement with
    | some (p1, r) =>
      match allocList n p1 with
      | some (p2, l) => some (p2, r.index_ :: l)
      | none => none
    | none => none

/-- The client sequence `h = GetNewElement(); *(h.operator->()) = v;
FreeElement(h); h2 = GetNewElement();`: the two references and the data of the
slot of `h2` at the end. -/
def storeFreeAllocate [DefaultInit T] (p : VectorPool T) (v : T) :
    Option (VectorPoolReference × VectorPoolReference × Option T) := do
  let (p1, h) ← p.GetNewElement
  let p2 ← p1.store h v
  let p3 ← p2.FreeElementRef h
  let (p4, h2) ← p3.GetNewElement
  pure (h, h2, dat p4.elements_ h2.index_)

/-! # Theorems -/

theorem nxt_isSome_iff (els : List (VectorPoolElement T)) (i : Nat) :
    (∃ v, nxt els i = some v) ↔ i < els.length := by
  unfold nxt
  constructor
  · rintro ⟨v, hv⟩
    by_contra hlt
    rw [List.getElem?_eq_none (by omega)] at hv
    simp at hv
  · intro hlt
    rw [List.getElem?_eq_getElem hlt]
    exact ⟨_, rfl⟩

theorem prv_isSome_iff (els : List (VectorPoolElement T)) (i : Nat) :
    (∃ v, prv els i = some v) ↔ i < els.length := by
  unfold prv
  constructor
  · rintro ⟨v, hv⟩
    by_contra hlt
    rw [List.getElem?_eq_none (by omega)] at hv
    simp at hv
  · intro hlt
    rw [List.getElem?_eq_getElem hlt]
    exact ⟨_, rfl⟩

theorem uid_isSome_iff (els : List (VectorPoolElement T)) (i : Nat) :
    (∃ v, uid els i = some v) ↔ i < els.length := by
  unfold uid
  constructor
  · rintro ⟨v, hv⟩
    by_contra hlt
    rw [List.getElem?_eq_none (by omega)] at hv
    simp at hv
  · intro hlt
    rw [List.getElem?_eq_getElem hlt]
    exact ⟨_, rfl⟩

theorem getElem?_set_cases (els : List (VectorPoolElement T)) (i : Nat) (hi : i < els.length)
    (e1 : VectorPoolElement T) (j : Nat) :
    (els.set i e1)[j]? = if j = i then some e1 else els[j]? := by
  by_cases hj : j = i
  · subst hj
    rw [if_pos rfl, List.getElem?_set_self hi]
  · rw [if_neg hj, List.getElem?_set_ne (Ne.symm hj)]

theorem setNext_written (els : List (VectorPoolElement T)) (i v : Nat) (hi : i < els.length) :
    ∃ els1, setNext els i v = some els1 ∧
      Views els1 els.length (fun j => if j = i then some v else nxt els j)
        (prv els) (uid els) (dat els) := by
  unfold setNext
  rw [List.getElem?_eq_getElem hi]
  refine ⟨_, rfl, ?_⟩
  constructor
  · simp
  all_goals
    intro j
    simp only [nxt, prv, uid, dat, getElem?_set_cases els i hi]
    by_cases hj : j = i
    · subst hj
      simp [List.getElem?_eq_getElem hi]
    · simp [hj]

theorem setPrev_written (els : List (VectorPoolElement T)) (i v : Nat) (hi : i < els.length) :
    ∃ els1, setPrev els i v = some els1 ∧
      Views els1 els.length (nxt els) (fun j => if j = i then some v else prv els j)
        (uid els) (dat els) := by
  unfold setPrev
  rw [List.getElem?_eq_getElem hi]
  refine ⟨_, rfl, ?_⟩
  constructor
  · simp
  all_goals
    intro j
    simp only [nxt, prv, uid, dat, getElem?_set_cases els i hi]
    by_cases hj : j = i
    · subst hj
      simp [List.getElem?_eq_getElem hi]
    · simp [hj]

theorem setUniqueId_written (els : List (VectorPoolElement T)) (i v : Nat)
    (hi : i < els.length) :
    ∃ els1, setUniqueId els i v = some els1 ∧
      Views els1 els.length (nxt els) (prv els)
        (fun j => if j = i then some v else uid els j) (dat els) := by
  unfold setUniqueId
  rw [List.getElem?_eq_getElem hi]
  refine ⟨_, rfl, ?_⟩
  constructor
  · simp
  all_goals
    intro j
    simp only [nxt, prv, uid, dat, getElem?_set_cases els i hi]
    by_cases hj : j = i
    · subst hj
      simp [List.getElem?_eq_getElem hi]
    · simp [hj]

theorem constructData_written [DefaultInit T] (els : List (VectorPoolElement T)) (i : Nat)
    (hi : i < els.length) :
    ∃ els1, constructData els i = some els1 ∧
      Views els1 els.length (nxt els) (prv els) (uid els)
        (fun j => if j = i then some (DefaultInit.construct ((dat els i).getD default))
          else dat els j) := by
  unfold constructData
  rw [List.getElem?_eq_getElem hi]
  refine ⟨_, rfl, ?_⟩
  constructor
  · simp
  all_goals
    intro j
    simp only [nxt, prv, uid, dat, getElem?_set_cases els i hi]
    by_cases hj : j = i
    · subst hj
      simp [List.getElem?_eq_getElem hi]
    · simp [hj]

/-! ## Doubly linked chains -/

theorem seg_frame {nx pv nx1 pv1 : Nat → Option Nat} {l : List Nat} {a b : Nat}
    (h : Seg nx pv a l b) (hn : ∀ j ∈ a :: l, nx1 j = nx j)
    (hp : ∀ j ∈ l ++ [b], pv1 j = pv j) : Seg nx1 pv1 a l b := by
  induction l generalizing a with
  | nil =>
    obtain ⟨h1, h2⟩ := h
    exact ⟨by rw [hn a (by simp), h1], by rw [hp b (by simp), h2]⟩
  | cons x xs ih =>
    obtain ⟨h1, h2, h3⟩ := h
    refine ⟨by rw [hn a (by simp), h1], by rw [hp x (by simp), h2], ?_⟩
    apply ih h3
    · intro j hj
      exact hn j (List.mem_cons_of_mem _ hj)
    · intro j hj
      exact hp j (by simp at hj ⊢; tauto)

theorem seg_next_mem {nx pv : Nat → Option Nat} {l : List Nat} {a b i : Nat}
    (h : Seg nx pv a l b) (hi : i ∈ l) : ∃ n, nx i = some n ∧ n ∈ l ++ [b] := by
  induction l generalizing a with
  | nil => simp at hi
  | cons x xs ih =>
    obtain ⟨_, _, h3⟩ := h
    rcases List.mem_cons.mp hi with rfl | hi1
    · cases xs with
      | nil => exact ⟨b, h3.1, by simp⟩
      | cons y ys => exact ⟨y, h3.1, by simp⟩
    · obtain ⟨n, hn, hmem⟩ := ih h3 hi1
      exact ⟨n, hn, List.mem_cons_of_mem _ hmem⟩

theorem seg_prev_mem {nx pv : Nat → Option Nat} {l : List Nat} {a b i : Nat}
    (h : Seg nx pv a l b) (hi : i ∈ l) : ∃ q, pv i = some q ∧ q ∈ a :: l := by
  induction l generalizing a with
  | nil => simp at hi
  | cons x xs ih =>
    obtain ⟨_, h2, h3⟩ := h
    rcases List.mem_cons.mp hi with rfl | hi1
    · exact ⟨a, h2, by simp⟩
    · obtain ⟨q, hq, hmem⟩ := ih h3 hi1
      exact ⟨q, hq, List.mem_cons_of_mem _ hmem⟩

/-- The first node after the head of a chain. -/
theorem seg_head {nx pv : Nat → Option Nat} {l : List Nat} {a b : Nat}
    (h : Seg nx pv a l b) : nx a = some ((l ++ [b]).headD b) := by
  cases l with
  | nil => exact h.1
  | cons x xs => exact h.1

/-- The last node before the tail of a chain. -/
theorem seg_last {nx pv : Nat → Option Nat} {l : List Nat} {a b : Nat}
    (h : Seg nx pv a l b) : pv b = some ((a :: l).getLastD a) := by
  induction l generalizing a with
  | nil => exact h.2
  | cons x xs ih =>
    have := ih h.2.2
    simpa using this

/-- Unlinking a node of a chain. -/
theorem seg_remove {nx pv nx1 pv1 : Nat → Option Nat} {l : List Nat} {a b i q n : Nat}
    (h : Seg nx pv a l b) (hnd : (a :: (l ++ [b])).Nodup) (hi : i ∈ l)
    (hq : pv i = some q) (hn : nx i = some n)
    (hnx1 : ∀ j, nx1 j = if j = q then some n else nx j)
    (hpv1 : ∀ j, pv1 j = if j = n then some q else pv j) :
    Seg nx1 pv1 a (l.erase i) b := by
  induction l generalizing a with
  | nil => simp at hi
  | cons x xs ih =>
    obtain ⟨h1, h2, h3⟩ := h
    by_cases hx : x = i
    · subst hx
      rw [List.erase_cons_head]
      have hqa : q = a := by rw [h2] at hq; exact (Option.some.inj hq).symm
      subst hqa
      cases xs with
      | nil =>
        obtain ⟨h4, h5⟩ := h3
        have hnb : n = b := by rw [h4] at hn; exact (Option.some.inj hn).symm
        subst hnb
        exact ⟨by simp [hnx1], by simp [hpv1]⟩
      | cons y ys =>
        obtain ⟨h4, h5, h6⟩ := h3
        have hny : n = y := by rw [h4] at hn; exact (Option.some.inj hn).symm
        subst hny
        refine ⟨by simp [hnx1], by simp [hpv1], ?_⟩
        apply seg_frame h6
        · intro j hj
          have : j ≠ q := by
            rintro rfl
            simp only [List.nodup_cons, List.mem_cons, List.mem_append] at hnd hj
            tauto
          simp [hnx1, this]
        · intro j hj
          have : j ≠ n := by
            rintro rfl
            simp only [List.nodup_cons, List.mem_cons, List.mem_append, List.cons_append] at hnd hj
            tauto
          simp [hpv1, this]
    · have hi1 : i ∈ xs := by
        rcases List.mem_cons.mp hi with rfl | h0
        · exact absurd rfl hx
        · exact h0
      have herase : (x :: xs).erase i = x :: xs.erase i := by
        rw [List.erase_cons_tail]
        simpa using hx
      rw [herase]
      obtain ⟨q1, hq1, hq1mem⟩ := seg_prev_mem h3 hi1
      obtain ⟨n1, hn1, hn1mem⟩ := seg_next_mem h3 hi1
      have hqq : q1 = q := by rw [hq] at hq1; exact (Option.some.inj hq1).symm
      have hnn : n1 = n := by rw [hn] at hn1; exact (Option.some.inj hn1).symm
      subst hqq hnn
      have haq : a ≠ q1 := by
        rintro rfl
        simp only [List.nodup_cons, List.mem_cons, List.mem_append, List.cons_append] at hnd hq1mem
        tauto
      have hxn : x ≠ n1 := by
        rintro rfl
        simp only [List.nodup_cons, List.mem_cons, List.mem_append, List.cons_append] at hnd hn1mem
        tauto
      refine ⟨by simp [hnx1, haq, h1], by simp [hpv1, hxn, h2], ?_⟩
      apply ih h3
      · simp only [List.nodup_cons, List.cons_append] at hnd
        exact List.nodup_cons.mpr ⟨hnd.2.1, hnd.2.2⟩
      · exact hi1

/-- Linking a new node right after the head of a chain. -/
theorem seg_insert {nx pv nx1 pv1 : Nat → Option Nat} {l : List Nat} {a b i y : Nat}
    (h : Seg nx pv a l b) (hnd : (a :: (l ++ [b])).Nodup) (hi : i ∉ a :: (l ++ [b]))
    (hy : nx a = some y)
    (hnx1 : ∀ j, nx1 j = if j = a then some i else if j = i then some y else nx j)
    (hpv1 : ∀ j, pv1 j = if j = i then some a else if j = y then some i else pv j) :
    Seg nx1 pv1 a (i :: l) b := by
  have hia : i ≠ a := by
    rintro rfl
    simp at hi
  refine ⟨by simp [hnx1], by simp [hpv1], ?_⟩
  cases l with
  | nil =>
    obtain ⟨h1, h2⟩ := h
    have hyb : y = b := by rw [h1] at hy; exact (Option.some.inj hy).symm
    subst hyb
    have hyi : y ≠ i := by
      rintro rfl
      simp at hi
    exact ⟨by simp [hnx1, hia], by simp [hpv1, hyi]⟩
  | cons x xs =>
    obtain ⟨h1, h2, h3⟩ := h
    have hyx : y = x := by rw [h1] at hy; exact (Option.some.inj hy).symm
    subst hyx
    have hyi : y ≠ i := by
      rintro rfl
      simp at hi
    refine ⟨by simp [hnx1, hia], by simp [hpv1, hyi], ?_⟩
    apply seg_frame h3
    · intro j hj
      have hja : j ≠ a := by
        rintro rfl
        simp only [List.nodup_cons, List.mem_cons, List.mem_append, List.cons_append] at hnd hj
        tauto
      have hji : j ≠ i := by
        rintro rfl
        simp only [List.mem_cons, List.mem_append, List.cons_append] at hi hj
        tauto
      simp [hnx1, hja, hji]
    · intro j hj
      have hjy : j ≠ y := by
        rintro rfl
        simp only [List.nodup_cons, List.mem_cons, List.mem_append, List.cons_append] at hnd hj
        tauto
      have hji : j ≠ i := by
        rintro rfl
        simp only [List.mem_cons, List.mem_append, List.cons_append] at hi hj
        tauto
      simp [hpv1, hjy, hji]

theorem seg_nx_some {nx pv : Nat → Option Nat} {l : List Nat} {a b j : Nat}
    (h : Seg nx pv a l b) (hj : j ∈ a :: l) : ∃ v, nx j = some v := by
  induction l generalizing a with
  | nil =>
    simp only [List.mem_singleton] at hj
    subst hj
    exact ⟨_, h.1⟩
  | cons x xs ih =>
    rcases List.mem_cons.mp hj with rfl | hj1
    · exact ⟨_, h.1⟩
    · exact ih h.2.2 hj1

theorem seg_pv_some {nx pv : Nat → Option Nat} {l : List Nat} {a b j : Nat}
    (h : Seg nx pv a l b) (hj : j ∈ l ++ [b]) : ∃ v, pv j = some v := by
  induction l generalizing a with
  | nil =>
    simp only [List.nil_append, List.mem_singleton] at hj
    subst hj
    exact ⟨_, h.2⟩
  | cons x xs ih =>
    rcases List.mem_cons.mp hj with rfl | hj1
    · exact ⟨_, h.2.1⟩
    · exact ih h.2.2 hj1

/-- Unlinking a node of one of two disjoint chains. -/
theorem two_seg_remove {nx pv : Nat → Option Nat} {l1 l2 : List Nat}
    {a1 b1 a2 b2 i q n : Nat}
    (h1 : Seg nx pv a1 l1 b1) (h2 : Seg nx pv a2 l2 b2)
    (hnd : (a1 :: (l1 ++ [b1]) ++ a2 :: (l2 ++ [b2])).Nodup) (hi : i ∈ l1)
    (hq : pv i = some q) (hn : nx i = some n) :
    Seg (fun j => if j = q then some n else nx j) (fun j => if j = n then some q else pv j)
        a1 (l1.erase i) b1 ∧
      Seg (fun j => if j = q then some n else nx j) (fun j => if j = n then some q else pv j)
        a2 l2 b2 := by
  have hnd1 : (a1 :: (l1 ++ [b1])).Nodup := (List.nodup_append.mp hnd).1
  have hdis := (List.nodup_append.mp hnd).2.2
  obtain ⟨q1, hq1, hq1mem⟩ := seg_prev_mem h1 hi
  obtain ⟨n1, hn1, hn1mem⟩ := seg_next_mem h1 hi
  have hqq : q1 = q := by rw [hq] at hq1; exact (Option.some.inj hq1).symm
  have hnn : n1 = n := by rw [hn] at hn1; exact (Option.some.inj hn1).symm
  subst hqq hnn
  refine ⟨seg_remove h1 hnd1 hi hq hn (fun _ => rfl) (fun _ => rfl), ?_⟩
  apply seg_frame h2
  · intro j hj
    have : j ≠ q1 := by
      rintro rfl
      exact hdis (a := j) (by simp only [List.mem_cons, List.mem_append] at hq1mem ⊢; tauto)
        (by simp only [List.mem_cons, List.mem_append] at hj ⊢; tauto)
    simp [this]
  · intro j hj
    have : j ≠ n1 := by
      rintro rfl
      exact hdis (a := j) (by simp only [List.mem_cons, List.mem_append] at hn1mem ⊢; tauto)
        (by simp only [List.mem_cons, List.mem_append] at hj ⊢; tauto)
    simp [this]

/-- Linking a new node after the head of one of two disjoint chains. -/
theorem two_seg_insert {nx pv : Nat → Option Nat} {l1 l2 : List Nat}
    {a1 b1 a2 b2 i y : Nat}
    (h1 : Seg nx pv a1 l1 b1) (h2 : Seg nx pv a2 l2 b2)
    (hnd : (a1 :: (l1 ++ [b1]) ++ a2 :: (l2 ++ [b2])).Nodup)
    (hi : i ∉ a1 :: (l1 ++ [b1]) ++ a2 :: (l2 ++ [b2]))
    (hy : nx a1 = some y) :
    Seg (fun j => if j = a1 then some i else if j = i then some y else nx j)
        (fun j => if j = i then some a1 else if j = y then some i else pv j)
        a1 (i :: l1) b1 ∧
      Seg (fun j => if j = a1 then some i else if j = i then some y else nx j)
        (fun j => if j = i then some a1 else if j = y then some i else pv j)
        a2 l2 b2 := by
  have hnd1 : (a1 :: (l1 ++ [b1])).Nodup := (List.nodup_append.mp hnd).1
  have hdis := (List.nodup_append.mp hnd).2.2
  have hymem : y ∈ l1 ++ [b1] := by
    have := seg_head h1
    rw [hy] at this
    have hy2 := Option.some.inj this
    rw [hy2]
    cases l1 <;> simp
  refine ⟨seg_insert h1 hnd1 (fun hc => hi (List.mem_append_left _ hc)) hy
    (fun _ => rfl) (fun _ => rfl), ?_⟩
  apply seg_frame h2
  · intro j hj
    have hja : j ≠ a1 := by
      rintro rfl
      exact hdis (a := j) (by simp) (by simp only [List.mem_cons, List.mem_append] at hj ⊢; tauto)
    have hji : j ≠ i := by
      rintro rfl
      exact hi (List.mem_append_right _
        (by simp only [List.mem_cons, List.mem_append] at hj ⊢; tauto))
    simp [hja, hji]
  · intro j hj
    have hjy : j ≠ y := by
      rintro rfl
      exact hdis (a := j) (List.mem_cons_of_mem _ hymem)
        (by simp only [List.mem_cons, List.mem_append] at hj ⊢; tauto)
    have hji : j ≠ i := by
      rintro rfl
      exact hi (List.mem_append_right _
        (by simp only [List.mem_cons, List.mem_append] at hj ⊢; tauto))
    simp [hjy, hji]

theorem Chains.nodup_used_free {nx pv : Nat → Option Nat} {used free : List Nat}
    (h : Chains nx pv used free) :
    (kFirstUsed :: (used ++ [kLastUsed]) ++ kFirstFree :: (free ++ [kLastFree])).Nodup := by
  have h4 := h.not_reserved
  have hnd := h.nodup
  simp only [kFirstUsed, kLastUsed, kFirstFree, kLastFree, kTotalReserved] at *
  rw [List.nodup_append] at hnd
  obtain ⟨hu, hf, hd⟩ := hnd
  have e0 : ∀ k, k < 4 → k ∉ used := fun k hk hc => by
    have := h4 k (List.mem_append_left _ hc); omega
  have f0 : ∀ k, k < 4 → k ∉ free := fun k hk hc => by
    have := h4 k (List.mem_append_right _ hc); omega
  have a0 := e0 0 (by omega)
  have a1 := e0 1 (by omega)
  have a2 := e0 2 (by omega)
  have a3 := e0 3 (by omega)
  have b0 := f0 0 (by omega)
  have b1 := f0 1 (by omega)
  have b2 := f0 2 (by omega)
  have b3 := f0 3 (by omega)
  simp only [List.nodup_append, List.nodup_cons, List.mem_append, List.mem_cons,
    List.mem_singleton, List.nodup_nil, List.not_mem_nil, List.Disjoint, List.cons_append]
  simp [*]
  refine ⟨?_, ?_, ?_⟩
  · rintro a ha rfl
    exact a1 ha
  · rintro a ha rfl
    exact b3 ha
  · rintro a (ha | rfl)
    · refine ⟨?_, fun hc => hd ha hc, ?_⟩
      · rintro rfl
        exact a2 ha
      · rintro rfl
        exact a3 ha
    · exact ⟨by omega, b1, by omega⟩

theorem Chains.nodup_free_used {nx pv : Nat → Option Nat} {used free : List Nat}
    (h : Chains nx pv used free) :
    (kFirstFree :: (free ++ [kLastFree]) ++ kFirstUsed :: (used ++ [kLastUsed])).Nodup := by
  have := h.nodup_used_free
  rw [List.nodup_append] at this ⊢
  exact ⟨this.2.1, this.1, fun a ha hb => this.2.2 hb ha⟩

theorem Chains.not_mem_of_not {nx pv : Nat → Option Nat} {used free : List Nat} {i : Nat}
    (_h : Chains nx pv used free) (hi4 : kTotalReserved ≤ i) (hi : i ∉ used ++ free) :
    i ∉ kFirstUsed :: (used ++ [kLastUsed]) ++ kFirstFree :: (free ++ [kLastFree]) := by
  simp only [kFirstUsed, kLastUsed, kFirstFree, kLastFree, kTotalReserved] at *
  simp only [List.mem_append, List.mem_cons, List.mem_singleton, List.not_mem_nil] at hi ⊢
  intro hc
  have : i = 0 ∨ i = 1 ∨ i = 2 ∨ i = 3 := by tauto
  omega

theorem Chains.not_mem_of_not_swap {nx pv : Nat → Option Nat} {used free : List Nat} {i : Nat}
    (h : Chains nx pv used free) (hi4 : kTotalReserved ≤ i) (hi : i ∉ used ++ free) :
    i ∉ kFirstFree :: (free ++ [kLastFree]) ++ kFirstUsed :: (used ++ [kLastUsed]) := by
  have := h.not_mem_of_not hi4 hi
  simp only [List.mem_append] at this ⊢
  tauto

/-- Unlinking a used slot. -/
theorem Chains.detach_used {nx pv : Nat → Option Nat} {used free : List Nat} {i q n : Nat}
    (h : Chains nx pv used free) (hi : i ∈ used) (hq : pv i = some q) (hn : nx i = some n) :
    Chains (fun j => if j = q then some n else nx j) (fun j => if j = n then some q else pv j)
      (used.erase i) free := by
  obtain ⟨s1, s2⟩ := two_seg_remove h.used_chain h.free_chain h.nodup_used_free hi hq hn
  refine ⟨s1, s2, ?_, ?_⟩
  · exact h.nodup.sublist ((List.erase_sublist i used).append_right free)
  · intro j hj
    apply h.not_reserved
    rcases List.mem_append.mp hj with hj | hj
    · exact List.mem_append_left _ (List.mem_of_mem_erase hj)
    · exact List.mem_append_right _ hj

/-- Unlinking a free slot. -/
theorem Chains.detach_free {nx pv : Nat → Option Nat} {used free : List Nat} {i q n : Nat}
    (h : Chains nx pv used free) (hi : i ∈ free) (hq : pv i = some q) (hn : nx i = some n) :
    Chains (fun j => if j = q then some n else nx j) (fun j => if j = n then some q else pv j)
      used (free.erase i) := by
  obtain ⟨s1, s2⟩ := two_seg_remove h.free_chain h.used_chain h.nodup_free_used hi hq hn
  refine ⟨s2, s1, ?_, ?_⟩
  · exact h.nodup.sublist ((List.erase_sublist i free).append_left used)
  · intro j hj
    apply h.not_reserved
    rcases List.mem_append.mp hj with hj | hj
    · exact List.mem_append_left _ hj
    · exact List.mem_append_right _ (List.mem_of_mem_erase hj)

/-- Linking a slot that is on neither chain at the head of the used chain. -/
theorem Chains.attach_used {nx pv : Nat → Option Nat} {used free : List Nat} {i y : Nat}
    (h : Chains nx pv used free) (hi4 : kTotalReserved ≤ i) (hi : i ∉ used ++ free)
    (hy : nx kFirstUsed = some y) :
    Chains (fun j => if j = kFirstUsed then some i else if j = i then some y else nx j)
      (fun j => if j = i then some kFirstUsed else if j = y then some i else pv j)
      (i :: used) free := by
  obtain ⟨s1, s2⟩ := two_seg_insert h.used_chain h.free_chain h.nodup_used_free
    (h.not_mem_of_not hi4 hi) hy
  refine ⟨s1, s2, ?_, ?_⟩
  · rw [List.cons_append]
    exact List.nodup_cons.mpr ⟨hi, h.nodup⟩
  · intro j hj
    rw [List.cons_append] at hj
    rcases List.mem_cons.mp hj with rfl | hj
    · exact hi4
    · exact h.not_reserved j hj

/-- Linking a slot that is on neither chain at the head of the free chain. -/
theorem Chains.attach_free {nx pv : Nat → Option Nat} {used free : List Nat} {i y : Nat}
    (h : Chains nx pv used free) (hi4 : kTotalReserved ≤ i) (hi : i ∉ used ++ free)
    (hy : nx kFirstFree = some y) :
    Chains (fun j => if j = kFirstFree then some i else if j = i then some y else nx j)
      (fun j => if j = i then some kFirstFree else if j = y then some i else pv j)
      used (i :: free) := by
  obtain ⟨s1, s2⟩ := two_seg_insert h.free_chain h.used_chain h.nodup_free_used
    (h.not_mem_of_not_swap hi4 hi) hy
  refine ⟨s2, s1, ?_, ?_⟩
  · have hperm : (used ++ i :: free).Perm (i :: (used ++ free)) := List.perm_middle
    exact hperm.nodup_iff.mpr (List.nodup_cons.mpr ⟨hi, h.nodup⟩)
  · intro j hj
    simp only [List.mem_append, List.mem_cons] at hj
    rcases hj with hj | rfl | hj
    · exact h.not_reserved j (List.mem_append_left _ hj)
    · exact hi4
    · exact h.not_reserved j (List.mem_append_right _ hj)

theorem Chains.congr {nx pv nx1 pv1 : Nat → Option Nat} {used free : List Nat}
    (h : Chains nx pv used free) (hn : ∀ j, nx1 j = nx j) (hp : ∀ j, pv1 j = pv j) :
    Chains nx1 pv1 used free :=
  ⟨seg_frame h.used_chain (fun j _ => hn j) (fun j _ => hp j),
   seg_frame h.free_chain (fun j _ => hn j) (fun j _ => hp j), h.nodup, h.not_reserved⟩

/-! ## The two list primitives, in terms of the field views -/

theorem getElem?_of_nxt {els : List (VectorPoolElement T)} {i v : Nat}
    (h : nxt els i = some v) : ∃ e, els[i]? = some e ∧ e.next = v := by
  unfold nxt at h
  cases he : els[i]? with
  | none => rw [he] at h; simp at h
  | some e => rw [he] at h; exact ⟨e, rfl, Option.some.inj h⟩

theorem prv_of_getElem? {els : List (VectorPoolElement T)} {i : Nat} {e : VectorPoolElement T}
    (h : els[i]? = some e) : prv els i = some e.prev := by
  unfold prv; rw [h]

theorem nxt_of_getElem? {els : List (VectorPoolElement T)} {i : Nat} {e : VectorPoolElement T}
    (h : els[i]? = some e) : nxt els i = some e.next := by
  unfold nxt; rw [h]

theorem uid_of_getElem? {els : List (VectorPoolElement T)} {i : Nat} {e : VectorPoolElement T}
    (h : els[i]? = some e) : uid els i = some e.unique_id := by
  unfold uid; rw [h]

theorem dat_of_getElem? {els : List (VectorPoolElement T)} {i : Nat} {e : VectorPoolElement T}
    (h : els[i]? = some e) : dat els i = some e.data := by
  unfold dat; rw [h]

theorem RemoveFromList_spec (p : VectorPool T) (i q n : Nat) (hi4 : kTotalReserved ≤ i)
    (hq : prv p.elements_ i = some q) (hn : nxt p.elements_ i = some n)
    (hql : q < p.elements_.length) (hnl : n < p.elements_.length) (hqi : q ≠ i) :
    ∃ p1, p.RemoveFromList i = some p1 ∧
      Effect p1 p.elements_.length p.active_count_ p.next_unique_id_
        (fun j => if j = q then some n else nxt p.elements_ j)
        (fun j => if j = n then some q else prv p.elements_ j)
        (uid p.elements_) (dat p.elements_) := by
  have hil : i < p.elements_.length := (prv_isSome_iff _ _).mp ⟨q, hq⟩
  obtain ⟨e, he, hen⟩ := getElem?_of_nxt hn
  have heq : e.prev = q := by
    have := prv_of_getElem? he
    rw [hq] at this
    exact (Option.some.inj this).symm
  obtain ⟨els1, h1, w1⟩ := setNext_written p.elements_ q n hql
  have hn1 : nxt els1 i = some n := by rw [w1.nxt_eq, if_neg (Ne.symm hqi), hn]
  have hq1 : prv els1 i = some q := by rw [w1.prv_eq, hq]
  obtain ⟨e1, he1, he1n⟩ := getElem?_of_nxt hn1
  have he1q : e1.prev = q := by
    have := prv_of_getElem? he1
    rw [hq1] at this
    exact (Option.some.inj this).symm
  obtain ⟨els2, h2, w2⟩ := setPrev_written els1 n q (by rw [w1.length_eq]; exact hnl)
  refine ⟨⟨els2, p.active_count_, p.next_unique_id_⟩, ?_, ?_⟩
  · unfold VectorPool.RemoveFromList
    rw [if_pos ⟨hil, hi4⟩]
    simp only [he, Option.bind_eq_bind, Option.some_bind, hen, heq, h1, he1, he1n, he1q, h2]
    rfl
  · refine ⟨⟨?_, ?_, ?_, ?_, ?_⟩, rfl, rfl⟩
    · show els2.length = _
      rw [w2.length_eq, w1.length_eq]
    · intro j
      show nxt els2 j = _
      rw [w2.nxt_eq, w1.nxt_eq]
    · intro j
      show prv els2 j = _
      rw [w2.prv_eq]
      simp only [w1.prv_eq]
    · intro j
      show uid els2 j = _
      rw [w2.uid_eq, w1.uid_eq]
    · intro j
      show dat els2 j = _
      rw [w2.dat_eq, w1.dat_eq]

theorem AddToList_spec (p : VectorPool T) (i s y : Nat) (hi4 : kTotalReserved ≤ i)
    (hil : i < p.elements_.length) (hy : nxt p.elements_ s = some y)
    (hyl : y < p.elements_.length) :
    ∃ p1, p.AddToList i s = some p1 ∧
      Effect p1 p.elements_.length p.active_count_ p.next_unique_id_
        (fun j => if j = s then some i else if j = i then some y else nxt p.elements_ j)
        (fun j => if j = i then some s else if j = y then some i else prv p.elements_ j)
        (uid p.elements_) (dat p.elements_) := by
  have hsl : s < p.elements_.length := (nxt_isSome_iff _ _).mp ⟨y, hy⟩
  obtain ⟨e, he, hen⟩ := getElem?_of_nxt hy
  obtain ⟨els1, h1, w1⟩ := setPrev_written p.elements_ y i hyl
  obtain ⟨els2, h2, w2⟩ := setPrev_written els1 i s (by rw [w1.length_eq]; exact hil)
  have hy2 : nxt els2 s = some y := by rw [w2.nxt_eq, w1.nxt_eq, hy]
  obtain ⟨e2, he2, he2n⟩ := getElem?_of_nxt hy2
  obtain ⟨els3, h3, w3⟩ := setNext_written els2 i y
    (by rw [w2.length_eq, w1.length_eq]; exact hil)
  obtain ⟨els4, h4, w4⟩ := setNext_written els3 s i
    (by rw [w3.length_eq, w2.length_eq, w1.length_eq]; exact hsl)
  refine ⟨⟨els4, p.active_count_, p.next_unique_id_⟩, ?_, ?_⟩
  · unfold VectorPool.AddToList
    rw [if_pos ⟨hil, hi4⟩]
    simp only [he, Option.bind_eq_bind, Option.some_bind, hen, h1, h2, he2, he2n, h3, h4]
    rfl
  · refine ⟨⟨?_, ?_, ?_, ?_, ?_⟩, rfl, rfl⟩
    · show els4.length = _
      rw [w4.length_eq, w3.length_eq, w2.length_eq, w1.length_eq]
    · intro j
      show nxt els4 j = _
      simp only [w4.nxt_eq, w3.nxt_eq, w2.nxt_eq, w1.nxt_eq]
    · intro j
      show prv els4 j = _
      simp only [w4.prv_eq, w3.prv_eq, w2.prv_eq, w1.prv_eq]
    · intro j
      show uid els4 j = _
      rw [w4.uid_eq, w3.uid_eq, w2.uid_eq, w1.uid_eq]
    · intro j
      show dat els4 j = _
      rw [w4.dat_eq, w3.dat_eq, w2.dat_eq, w1.dat_eq]

theorem seg_mono {nx pv nx1 pv1 : Nat → Option Nat} {l : List Nat} {a b : Nat}
    (h : Seg nx pv a l b) (hn : ∀ j v, nx j = some v → nx1 j = some v)
    (hp : ∀ j v, pv j = some v → pv1 j = some v) : Seg nx1 pv1 a l b := by
  induction l generalizing a with
  | nil => exact ⟨hn _ _ h.1, hp _ _ h.2⟩
  | cons x xs ih => exact ⟨hn _ _ h.1, hp _ _ h.2.1, ih h.2.2⟩

theorem Chains.mono {nx pv nx1 pv1 : Nat → Option Nat} {used free : List Nat}
    (h : Chains nx pv used free) (hn : ∀ j v, nx j = some v → nx1 j = some v)
    (hp : ∀ j v, pv j = some v → pv1 j = some v) : Chains nx1 pv1 used free :=
  ⟨seg_mono h.used_chain hn hp, seg_mono h.free_chain hn hp, h.nodup, h.not_reserved⟩

/-! ## Well-formed pools -/

theorem Chains.first_used {nx pv : Nat → Option Nat} {used free : List Nat}
    (h : Chains nx pv used free) :
    nx kFirstUsed = some ((used ++ [kLastUsed]).headD kLastUsed) ∧
      ∃ v, pv ((used ++ [kLastUsed]).headD kLastUsed) = some v := by
  refine ⟨seg_head h.used_chain, seg_pv_some h.used_chain ?_⟩
  cases used <;> simp

theorem Chains.first_free {nx pv : Nat → Option Nat} {used free : List Nat}
    (h : Chains nx pv used free) :
    nx kFirstFree = some ((free ++ [kLastFree]).headD kLastFree) ∧
      ∃ v, pv ((free ++ [kLastFree]).headD kLastFree) = some v := by
  refine ⟨seg_head h.free_chain, seg_pv_some h.free_chain ?_⟩
  cases free <;> simp

/-- The part of `GetNewElement` after the slot `i` has been chosen, on a pool
where `i` is on neither chain. -/
theorem GetNewElement_tail [DefaultInit T] (p1 : VectorPool T) (used free : List Nat) (i : Nat)
    (hch : Chains (nxt p1.elements_) (prv p1.elements_) used free)
    (hi4 : kTotalReserved ≤ i) (hil : i < p1.elements_.length) (hi : i ∉ used ++ free) :
    ∃ p5 : VectorPool T,
      (do
        let p2 ← p1.AddToList i kFirstUsed
        let count := (p2.active_count_ + 1) % 2 ^ 64
        let els3 ← constructData p2.elements_ i
        let (id, p4) := VectorPool.AllocateUniqueId ⟨els3, count, p2.next_unique_id_⟩
        let els5 ← setUniqueId p4.elements_ i id
        let p5 : VectorPool T := ⟨els5, p4.active_count_, p4.next_unique_id_⟩
        let r ← p5.makeReference i
        pure (p5, r)) = some (p5, ⟨true, i, p1.next_unique_id_⟩) ∧
      Chains (nxt p5.elements_) (prv p5.elements_) (i :: used) free ∧
      p5.elements_.length = p1.elements_.length ∧
      Allocated p1 p5 i := by
  obtain ⟨hy, v, hv⟩ := hch.first_used
  have hyl := (prv_isSome_iff _ _).mp ⟨v, hv⟩
  obtain ⟨p2, h2, e2⟩ := AddToList_spec p1 i kFirstUsed _ hi4 hil hy hyl
  have hch2 : Chains (nxt p2.elements_) (prv p2.elements_) (i :: used) free :=
    (hch.attach_used hi4 hi hy).congr e2.views.nxt_eq e2.views.prv_eq
  have hil2 : i < p2.elements_.length := by rw [e2.views.length_eq]; exact hil
  obtain ⟨els3, h3, w3⟩ := constructData_written p2.elements_ i hil2
  obtain ⟨els5, h5, w5⟩ := setUniqueId_written els3 i p1.next_unique_id_
    (by rw [w3.length_eq]; exact hil2)
  have hil5 : i < els5.length := by rw [w5.length_eq, w3.length_eq]; exact hil2
  have hu5 : uid els5 i = some p1.next_unique_id_ := by rw [w5.uid_eq]; simp
  refine ⟨⟨els5, (p1.active_count_ + 1) % 2 ^ 64,
    (VectorPool.AllocateUniqueId p1).2.next_unique_id_⟩, ?_, ?_, ?_, ?_⟩
  · simp only [h2, Option.bind_eq_bind, Option.some_bind, h3, VectorPool.AllocateUniqueId,
      e2.next_id_eq, h5, e2.count_eq, VectorPool.makeReference, VectorPool.GetElement, hil5,
      if_true]
    unfold uid at hu5
    cases hg : els5[i]? with
    | none => rw [hg] at hu5; simp at hu5
    | some e =>
      rw [hg] at hu5
      simp only [Option.some.injEq] at hu5
      simp [hu5]
  · apply hch2.congr
    · intro j; show nxt els5 j = _; rw [w5.nxt_eq, w3.nxt_eq]
    · intro j; show prv els5 j = _; rw [w5.prv_eq, w3.prv_eq]
  · show els5.length = _
    rw [w5.length_eq, w3.length_eq, e2.views.length_eq]
  · refine ⟨rfl, rfl, ?_, ?_⟩
    · intro j; show uid els5 j = _; rw [w5.uid_eq, w3.uid_eq, e2.views.uid_eq]
    · intro j; show dat els5 j = _; rw [w5.dat_eq, w3.dat_eq]; simp only [e2.views.dat_eq]

theorem views_push_back (els : List (VectorPoolElement T)) (e : VectorPoolElement T) :
    Views (els ++ [e]) (els.length + 1)
      (fun j => if j = els.length then some e.next else nxt els j)
      (fun j => if j = els.length then some e.prev else prv els j)
      (fun j => if j = els.length then some e.unique_id else uid els j)
      (fun j => if j = els.length then some e.data else dat els j) := by
  have key : ∀ j, (els ++ [e])[j]? = if j = els.length then some e else els[j]? := by
    intro j
    by_cases hj : j = els.length
    · subst hj
      simp
    · rw [if_neg hj]
      by_cases hlt : j < els.length
      · rw [List.getElem?_append_left hlt]
      · rw [List.getElem?_eq_none (by simp; omega), List.getElem?_eq_none (by omega)]
  constructor
  · simp
  all_goals
    intro j
    simp only [nxt, prv, uid, dat, key]
    by_cases hj : j = els.length
    · simp [hj]
    · simp [hj]

theorem AllocateUniqueId_next_id (p : VectorPool T) :
    p.AllocateUniqueId.2.next_unique_id_ ≠ kInvalidId ∧
      p.AllocateUniqueId.2.next_unique_id_ < 2 ^ 32 := by
  simp only [VectorPool.AllocateUniqueId, kInvalidId]
  split <;> omega

/-- The invariant after a slot `i` that was free, or is new, has been handed
out. -/
theorem Inv.of_allocated [DefaultInit T] {p p1 : VectorPool T} {used free free1 : List Nat}
    {m m1 i : Nat} (h : Inv p used free m)
    (hch : Chains (nxt p1.elements_) (prv p1.elements_) (i :: used) free1)
    (hal : Allocated p p1 i)
    (hfree1 : ∀ j ∈ free1, j ∈ free ∧ j ≠ i)
    (hmem : ∀ j, j ∈ (i :: used) ++ free1 ↔ kTotalReserved ≤ j ∧ j < m1)
    (hm1 : m1 ≤ p1.elements_.length) :
    Inv p1 (i :: used) free1 m1 := by
  have hi4 : kTotalReserved ≤ i := hch.not_reserved i (by simp)
  refine ⟨hch, hmem, ?_, hm1, ?_, ?_, ?_, ?_, ?_⟩
  · have := (hmem i).mp (by simp)
    omega
  · rw [hal.count_eq, h.count, List.length_cons]
    omega
  · intro j hj
    rw [hal.uid_eq]
    by_cases hji : j = i
    · rw [if_pos hji]
      exact ⟨_, rfl, h.next_id.1⟩
    · rw [if_neg hji]
      rcases List.mem_cons.mp hj with hj | hj
      · exact absurd hj hji
      · exact h.used_id j hj
  · intro j hj
    rw [hal.uid_eq, if_neg (hfree1 j hj).2]
    exact h.free_id j (hfree1 j hj).1
  · intro j hj
    rw [hal.uid_eq, if_neg (by omega)]
    exact h.sentinel_id j hj
  · rw [hal.next_id_eq]
    exact AllocateUniqueId_next_id p

/-- `GetNewElement` on a well-formed pool: it succeeds, hands out the first
free slot, or a new slot at the end of the storage when no slot is free, and
puts it at the head of the used chain. -/
theorem GetNewElement_spec [DefaultInit T] (p : VectorPool T) (used free : List Nat)
    (h : WellFormed p used free) :
    ∃ p1, p.GetNewElement = some (p1, ⟨true, free.headD p.Size, p.next_unique_id_⟩) ∧
      WellFormed p1 (free.headD p.Size :: used) free.tail ∧
      p1.Size = (if free = [] then p.Size + 1 else p.Size) ∧
      Allocated p p1 (free.headD p.Size) := by
  unfold WellFormed at h
  obtain ⟨hf, v, hv⟩ := h.chains.first_free
  obtain ⟨e, he, hen⟩ := getElem?_of_nxt hf
  cases free with
  | nil =>
    simp only [List.nil_append, List.headD_cons] at hf hen
    have hi : p.Size ∉ used ++ ([] : List Nat) := by
      intro hc
      have := (h.mem_iff _).mp hc
      omega
    have w := views_push_back p.elements_ (VectorPoolElement.new : VectorPoolElement T)
    have hch1 : Chains
        (nxt (p.elements_ ++ [(VectorPoolElement.new : VectorPoolElement T)]))
        (prv (p.elements_ ++ [(VectorPoolElement.new : VectorPoolElement T)])) used [] := by
      apply h.chains.mono
      · intro j v hv
        have hj := (nxt_isSome_iff _ _).mp ⟨v, hv⟩
        rw [w.nxt_eq, if_neg (by omega), hv]
      · intro j v hv
        have hj := (prv_isSome_iff _ _).mp ⟨v, hv⟩
        rw [w.prv_eq, if_neg (by omega), hv]
    obtain ⟨p5, h5, hch5, hlen5, hal5⟩ := GetNewElement_tail
      (⟨p.elements_ ++ [VectorPoolElement.new], p.active_count_, p.next_unique_id_⟩ :
        VectorPool T) used [] p.Size hch1 h.reserved (by simp [VectorPool.Size]) hi
    have hlen5a : p5.elements_.length = p.elements_.length + 1 := by
      rw [hlen5]; simp
    have hal : Allocated p p5 p.Size := by
      refine ⟨hal5.count_eq, hal5.next_id_eq, ?_, ?_⟩
      · intro j
        rw [hal5.uid_eq]
        simp only [VectorPool.Size]
        by_cases hj : j = p.elements_.length
        · simp [hj]
        · simp only [if_neg hj]
          rw [w.uid_eq, if_neg hj]
      · intro j
        rw [hal5.dat_eq]
        simp only [VectorPool.Size]
        by_cases hj : j = p.elements_.length
        · have hd1 : dat (p.elements_ ++ [(VectorPoolElement.new : VectorPoolElement T)])
              p.elements_.length = some default := by
            rw [w.dat_eq, if_pos rfl]; rfl
          have hd0 : dat p.elements_ p.elements_.length = none := by simp [dat]
          simp [hj, hd1, hd0]
        · simp only [if_neg hj]
          rw [w.dat_eq, if_neg hj]
    refine ⟨p5, ?_, ?_, ?_, hal⟩
    · unfold VectorPool.GetNewElement
      simp only [he, Option.bind_eq_bind, Option.some_bind, hen, kLastFree, ne_eq,
        not_true_eq_false, if_false, Option.pure_def]
      exact h5
    · unfold WellFormed
      apply Inv.of_allocated h hch5 hal
      · intro j hj; simp at hj
      · intro j
        have := h.mem_iff j
        simp only [List.append_nil, List.mem_cons, VectorPool.Size, hlen5a,
          kTotalReserved] at this ⊢
        have h4 := h.reserved
        simp only [kTotalReserved, VectorPool.Size] at h4
        constructor
        · rintro (rfl | hj)
          · omega
          · have := this.mp hj; omega
        · intro hj
          by_cases hjl : j = p.elements_.length
          · exact Or.inl hjl
          · exact Or.inr (this.mpr (by omega))
      · exact le_refl _
    · simp [VectorPool.Size, hlen5a]
  | cons f fs =>
    simp only [List.cons_append, List.headD_cons] at hf hen hv
    have hf4 : kTotalReserved ≤ f := h.chains.not_reserved f (by simp)
    have hfne : ¬ f = kLastFree := by
      simp only [kLastFree, kTotalReserved] at *; omega
    have hq : prv p.elements_ f = some kFirstFree := h.chains.free_chain.2.1
    obtain ⟨n, hn, hnmem⟩ := seg_next_mem h.chains.free_chain (i := f) (by simp)
    obtain ⟨v1, hv1⟩ := seg_pv_some h.chains.free_chain hnmem
    have hnl := (prv_isSome_iff _ _).mp ⟨v1, hv1⟩
    have hql := (nxt_isSome_iff _ _).mp ⟨_, hf⟩
    obtain ⟨p1, h1, e1⟩ := RemoveFromList_spec p f kFirstFree n hf4 hq hn hql hnl
      (by simp only [kFirstFree, kTotalReserved] at *; omega)
    have hch1 : Chains (nxt p1.elements_) (prv p1.elements_) used fs := by
      have := (h.chains.detach_free (i := f) (by simp) hq hn).congr
        e1.views.nxt_eq e1.views.prv_eq
      simpa using this
    have hnd := h.chains.nodup
    have hi : f ∉ used ++ fs := by
      have hperm : (used ++ f :: fs).Perm (f :: (used ++ fs)) := List.perm_middle
      exact (List.nodup_cons.mp (hperm.nodup_iff.mp hnd)).1
    have hfl : f < p.elements_.length := (prv_isSome_iff _ _).mp ⟨_, hq⟩
    obtain ⟨p5, h5, hch5, hlen5, hal5⟩ := GetNewElement_tail p1 used fs f hch1 hf4
      (by rw [e1.views.length_eq]; exact hfl) hi
    have hlen5a : p5.elements_.length = p.elements_.length := by
      rw [hlen5, e1.views.length_eq]
    have hal : Allocated p p5 f := by
      refine ⟨?_, ?_, ?_, ?_⟩
      · rw [hal5.count_eq, e1.count_eq]
      · rw [hal5.next_id_eq]
        simp only [VectorPool.AllocateUniqueId, e1.next_id_eq]
      · intro j
        rw [hal5.uid_eq, e1.views.uid_eq, e1.next_id_eq]
      · intro j
        rw [hal5.dat_eq]
        simp only [e1.views.dat_eq]
    refine ⟨p5, ?_, ?_, ?_, hal⟩
    · unfold VectorPool.GetNewElement
      rw [e1.next_id_eq] at h5
      simp only [he, Option.bind_eq_bind, Option.some_bind, hen, hfne, ne_eq, not_false_eq_true,
        if_true, h1, Option.pure_def, List.headD_cons]
      exact h5
    · unfold WellFormed
      apply Inv.of_allocated h hch5 hal
      · intro j hj
        refine ⟨List.mem_cons_of_mem _ hj, ?_⟩
        rintro rfl
        exact hi (List.mem_append_right _ hj)
      · intro j
        have := h.mem_iff j
        simp only [List.mem_append, List.mem_cons, VectorPool.Size, hlen5a, List.tail_cons,
          List.headD_cons] at this ⊢
        rw [← this]
        tauto
      · exact le_refl _
    · simp [VectorPool.Size, hlen5a]

theorem seg_prev_ne {nx pv : Nat → Option Nat} {l : List Nat} {a b i q : Nat}
    (h : Seg nx pv a l b) (hnd : (a :: l).Nodup) (hi : i ∈ l) (hq : pv i = some q) :
    q ≠ i := by
  induction l generalizing a with
  | nil => simp at hi
  | cons x xs ih =>
    obtain ⟨_, h2, h3⟩ := h
    by_cases hx : i = x
    · subst hx
      rw [h2] at hq
      have := Option.some.inj hq
      subst this
      intro hc
      simp [hc] at hnd
    · rcases List.mem_cons.mp hi with h0 | h0
      · exact absurd h0 hx
      · exact ih h3 (List.nodup_cons.mp hnd).2 h0

/-- `FreeElement(size_t)` on a used slot of a well-formed pool: it succeeds,
takes the slot out of the used chain and puts it at the head of the free
chain. -/
theorem FreeElement_spec (p : VectorPool T) (used free : List Nat)
    (h : WellFormed p used free) (i : Nat) (hi : i ∈ used) :
    ∃ p1, p.FreeElement i = some p1 ∧
      WellFormed p1 (used.erase i) (i :: free) ∧
      p1.Size = p.Size ∧ Freed p p1 i := by
  unfold WellFormed at h
  have hi4 : kTotalReserved ≤ i := h.chains.not_reserved i (List.mem_append_left _ hi)
  obtain ⟨q, hq, hqmem⟩ := seg_prev_mem h.chains.used_chain hi
  obtain ⟨n, hn, hnmem⟩ := seg_next_mem h.chains.used_chain hi
  obtain ⟨v1, hv1⟩ := seg_nx_some h.chains.used_chain hqmem
  obtain ⟨v2, hv2⟩ := seg_pv_some h.chains.used_chain hnmem
  have hql := (nxt_isSome_iff _ _).mp ⟨v1, hv1⟩
  have hnl := (prv_isSome_iff _ _).mp ⟨v2, hv2⟩
  have hil : i < p.elements_.length := (prv_isSome_iff _ _).mp ⟨q, hq⟩
  have hndall := h.chains.nodup_used_free
  have hndu : (kFirstUsed :: used).Nodup := by
    have := (List.nodup_append.mp hndall).1
    rw [← List.cons_append] at this
    exact (List.nodup_append.mp this).1
  have hqi := seg_prev_ne h.chains.used_chain hndu hi hq
  obtain ⟨p1, h1, e1⟩ := RemoveFromList_spec p i q n hi4 hq hn hql hnl hqi
  have hch1 : Chains (nxt p1.elements_) (prv p1.elements_) (used.erase i) free :=
    (h.chains.detach_used hi hq hn).congr e1.views.nxt_eq e1.views.prv_eq
  have hnd := List.nodup_append.mp h.chains.nodup
  have hi1 : i ∉ used.erase i ++ free := by
    intro hc
    rcases List.mem_append.mp hc with hc | hc
    · exact ((hnd.1.mem_erase_iff).mp hc).1 rfl
    · exact hnd.2.2 hi hc
  obtain ⟨hy, v3, hv3⟩ := hch1.first_free
  have hyl := (prv_isSome_iff _ _).mp ⟨v3, hv3⟩
  have hil1 : i < p1.elements_.length := by rw [e1.views.length_eq]; exact hil
  obtain ⟨p2, h2, e2⟩ := AddToList_spec p1 i kFirstFree _ hi4 hil1 hy hyl
  have hch2 : Chains (nxt p2.elements_) (prv p2.elements_) (used.erase i) (i :: free) :=
    (hch1.attach_free hi4 hi1 hy).congr e2.views.nxt_eq e2.views.prv_eq
  have hil2 : i < p2.elements_.length := by rw [e2.views.length_eq]; exact hil1
  obtain ⟨els3, h3, w3⟩ := setUniqueId_written p2.elements_ i kInvalidId hil2
  have hlen3 : els3.length = p.elements_.length := by
    rw [w3.length_eq, e2.views.length_eq, e1.views.length_eq]
  have hfr : Freed p (⟨els3, (p2.active_count_ + (2 ^ 64 - 1)) % 2 ^ 64,
      p2.next_unique_id_⟩ : VectorPool T) i := by
    refine ⟨?_, ?_, ?_, ?_⟩
    · show (p2.active_count_ + (2 ^ 64 - 1)) % 2 ^ 64 = _
      rw [e2.count_eq, e1.count_eq]
    · show p2.next_unique_id_ = _
      rw [e2.next_id_eq, e1.next_id_eq]
    · intro j
      show uid els3 j = _
      rw [w3.uid_eq, e2.views.uid_eq, e1.views.uid_eq]
    · intro j
      show dat els3 j = _
      rw [w3.dat_eq, e2.views.dat_eq, e1.views.dat_eq]
  refine ⟨⟨els3, (p2.active_count_ + (2 ^ 64 - 1)) % 2 ^ 64, p2.next_unique_id_⟩,
    ?_, ?_, hlen3, hfr⟩
  · unfold VectorPool.FreeElement
    simp only [h1, Option.bind_eq_bind, Option.some_bind, h2, h3, Option.pure_def]
  · unfold WellFormed
    refine ⟨?_, ?_, ?_, ?_, ?_, ?_, ?_, ?_, ?_⟩
    · apply hch2.congr
      · intro j; show nxt els3 j = _; rw [w3.nxt_eq]
      · intro j; show prv els3 j = _; rw [w3.prv_eq]
    rotate_left
    · show kTotalReserved ≤ els3.length
      rw [hlen3]
      exact h.reserved
    rotate_right
    · intro j
      have := h.mem_iff j
      show _ ↔ _ ∧ j < els3.length
      rw [hlen3]
      simp only [VectorPool.Size] at this
      rw [← this]
      simp only [List.mem_append, List.mem_cons, hnd.1.mem_erase_iff]
      constructor
      · rintro (⟨_, hj⟩ | rfl | hj)
        · exact Or.inl hj
        · exact Or.inl hi
        · exact Or.inr hj
      · rintro (hj | hj)
        · by_cases hji : j = i
          · exact Or.inr (Or.inl hji)
          · exact Or.inl ⟨hji, hj⟩
        · exact Or.inr (Or.inr hj)
    · exact le_refl _
    · rw [hfr.count_eq, h.count, List.length_erase_of_mem hi]
      have : 0 < used.length := List.length_pos_of_mem hi
      omega
    · intro j hj
      have hj2 := (hnd.1.mem_erase_iff).mp hj
      rw [hfr.uid_eq, if_neg hj2.1]
      exact h.used_id j hj2.2
    · intro j hj
      rw [hfr.uid_eq]
      by_cases hji : j = i
      · rw [if_pos hji]
      · rw [if_neg hji]
        rcases List.mem_cons.mp hj with hj | hj
        · exact absurd hj hji
        · exact h.free_id j hj
    · intro j hj
      rw [hfr.uid_eq, if_neg (by omega)]
      exact h.sentinel_id j hj
    · rw [hfr.next_id_eq]
      exact h.next_id

theorem getElem?_resize [DefaultInit T] (els : List (VectorPoolElement T)) (n j : Nat) :
    (resize els n)[j]? =
      if j < n then (if j < els.length then els[j]? else some VectorPoolElement.new)
      else none := by
  unfold resize
  by_cases hjn : j < n
  · rw [if_pos hjn]
    by_cases hjl : j < els.length
    · rw [if_pos hjl, List.getElem?_append_left (by simp; omega), List.getElem?_take_of_lt hjn]
    · rw [if_neg hjl, List.getElem?_append_right (by simp; omega),
        List.getElem?_replicate, if_pos (by simp; omega)]
  · rw [if_neg hjn]
    apply List.getElem?_eq_none
    simp
    omega

theorem length_resize [DefaultInit T] (els : List (VectorPoolElement T)) (n : Nat) :
    (resize els n).length = n := by
  unfold resize
  simp
  omega

theorem views_resize [DefaultInit T] (els : List (VectorPoolElement T)) (n : Nat) :
    Views (resize els n) n
      (fun j => if j < n then (if j < els.length then nxt els j else some kOutOfBounds)
        else none)
      (fun j => if j < n then (if j < els.length then prv els j else some kOutOfBounds)
        else none)
      (fun j => if j < n then (if j < els.length then uid els j else some kInvalidId)
        else none)
      (fun j => if j < n then (if j < els.length then dat els j else some default)
        else none) := by
  constructor
  · exact length_resize els n
  all_goals
    intro j
    simp only [nxt, prv, uid, dat, getElem?_resize]
    by_cases hjn : j < n
    · by_cases hjl : j < els.length
      · simp [hjn, hjl]
      · simp [hjn, hjl, VectorPoolElement.new]
    · simp [hjn]

/-- `Clear` succeeds on every pool. -/
theorem Clear_spec [DefaultInit T] (p : VectorPool T) :
    ∃ p1, p.Clear = some p1 ∧ Cleared p p1 := by
  have hl0 := length_resize p.elements_ kTotalReserved
  obtain ⟨els1, h1, w1⟩ := setNext_written (resize p.elements_ kTotalReserved)
    kFirstUsed kLastUsed (by rw [hl0]; decide)
  obtain ⟨els2, h2, w2⟩ := setPrev_written els1 kLastUsed kFirstUsed
    (by rw [w1.length_eq, hl0]; decide)
  obtain ⟨els3, h3, w3⟩ := setNext_written els2 kFirstFree kLastFree
    (by rw [w2.length_eq, w1.length_eq, hl0]; decide)
  obtain ⟨els4, h4, w4⟩ := setPrev_written els3 kLastFree kFirstFree
    (by rw [w3.length_eq, w2.length_eq, w1.length_eq, hl0]; decide)
  refine ⟨⟨els4, 0, p.next_unique_id_⟩, ?_, ?_⟩
  · unfold VectorPool.Clear
    simp only [h1, Option.bind_eq_bind, Option.some_bind, h2, h3, h4, Option.pure_def]
  · refine ⟨?_, rfl, rfl, ?_, ?_, ?_, ?_, ?_, ?_⟩
    · show els4.length = _
      rw [w4.length_eq, w3.length_eq, w2.length_eq, w1.length_eq, hl0]
    · show nxt els4 _ = _
      rw [w4.nxt_eq, w3.nxt_eq, if_neg (by decide), w2.nxt_eq, w1.nxt_eq, if_pos rfl]
    · show prv els4 _ = _
      rw [w4.prv_eq, if_neg (by decide), w3.prv_eq, w2.prv_eq, if_pos rfl]
    · show nxt els4 _ = _
      rw [w4.nxt_eq, w3.nxt_eq, if_pos rfl]
    · show prv els4 _ = _
      rw [w4.prv_eq, if_pos rfl]
    · intro j
      show uid els4 j = _
      rw [w4.uid_eq, w3.uid_eq, w2.uid_eq, w1.uid_eq]
    · intro j
      show dat els4 j = _
      rw [w4.dat_eq, w3.dat_eq, w2.dat_eq, w1.dat_eq]

/-- A cleared pool is well formed, with both chains empty, when the sentinels
carried the invalid id before and the next id is a valid one. -/
theorem Cleared.wellFormed [DefaultInit T] {p p1 : VectorPool T} (h : Cleared p p1)
    (hs : ∀ j, j < kTotalReserved → j < p.elements_.length →
      uid p.elements_ j = some kInvalidId)
    (hn : p.next_unique_id_ ≠ kInvalidId ∧ p.next_unique_id_ < 2 ^ 32) :
    WellFormed p1 [] [] := by
  unfold WellFormed
  refine ⟨⟨⟨h.used_next, h.used_prev⟩, ⟨h.free_next, h.free_prev⟩, by simp, by simp⟩,
    ?_, ?_, le_refl _, ?_, ?_, ?_, ?_, ?_⟩
  · intro i
    rw [h.size_eq]
    simp
  · rw [h.size_eq]
  · rw [h.count_eq]; rfl
  · intro i hi; simp at hi
  · intro i hi; simp at hi
  · intro j hj
    rw [h.uid_eq, (views_resize p.elements_ kTotalReserved).uid_eq, if_pos hj]
    by_cases hjl : j < p.elements_.length
    · rw [if_pos hjl]; exact hs j hj hjl
    · rw [if_neg hjl]
  · rw [h.next_id_eq]; exact hn

/-- The constructor yields a well-formed pool with both chains empty. -/
theorem new_spec [DefaultInit T] :
    ∃ p : VectorPool T, VectorPool.new = some p ∧ WellFormed p [] [] ∧
      Cleared ⟨[], 0, kInvalidId + 1⟩ p := by
  obtain ⟨p1, h1, c1⟩ := Clear_spec (⟨[], 0, kInvalidId + 1⟩ : VectorPool T)
  refine ⟨p1, h1, c1.wellFormed ?_ ?_, c1⟩
  · intro j _ hj
    simp at hj
  · simp [kInvalidId]

theorem ReserveLoop_spec (used : List Nat) (k : Nat) :
    ∀ (p : VectorPool T) (free : List Nat) (m : Nat), Inv p used free m →
      m + k ≤ p.elements_.length →
      ∃ p1, VectorPool.ReserveLoop p m k = some p1 ∧
        Inv p1 used ((List.range' m k).reverse ++ free) (m + k) ∧ Grown p p1 m (m + k) := by
  induction k with
  | zero =>
    intro p free m h _
    refine ⟨p, rfl, by simpa using h, rfl, rfl, rfl, ?_, fun _ => rfl⟩
    intro j
    rw [if_neg (by omega)]
  | succ k ih =>
    intro p free m h hk
    have hml : m < p.elements_.length := by omega
    obtain ⟨els1, h1, w1⟩ := setUniqueId_written p.elements_ m kInvalidId hml
    have hch1 : Chains (nxt els1) (prv els1) used free :=
      h.chains.congr w1.nxt_eq w1.prv_eq
    obtain ⟨hy, v, hv⟩ := hch1.first_free
    have hyl := (prv_isSome_iff _ _).mp ⟨v, hv⟩
    have hm : m ∉ used ++ free := by
      intro hc
      have := (h.mem_iff m).mp hc
      omega
    obtain ⟨p2, h2, e2⟩ := AddToList_spec
      (⟨els1, p.active_count_, p.next_unique_id_⟩ : VectorPool T) m kFirstFree _
      h.reserved (by show m < els1.length; rw [w1.length_eq]; exact hml) hy hyl
    have hch2 : Chains (nxt p2.elements_) (prv p2.elements_) used (m :: free) :=
      (hch1.attach_free h.reserved hm hy).congr e2.views.nxt_eq e2.views.prv_eq
    have hlen2 : p2.elements_.length = p.elements_.length := by
      rw [e2.views.length_eq]; exact w1.length_eq
    have hu2 : ∀ j, uid p2.elements_ j = if j = m then some kInvalidId
        else uid p.elements_ j := by
      intro j
      rw [e2.views.uid_eq]
      exact w1.uid_eq j
    have hinv2 : Inv p2 used (m :: free) (m + 1) := by
      refine ⟨hch2, ?_, ?_, ?_, ?_, ?_, ?_, ?_, ?_⟩
      · intro j
        have := h.mem_iff j
        have h4 := h.reserved
        simp only [List.mem_append, List.mem_cons] at this ⊢
        constructor
        · rintro (hj | rfl | hj)
          · have := this.mp (Or.inl hj); omega
          · omega
          · have := this.mp (Or.inr hj); omega
        · intro hj
          by_cases hjm : j = m
          · exact Or.inr (Or.inl hjm)
          · rcases this.mpr (by omega) with hj | hj
            · exact Or.inl hj
            · exact Or.inr (Or.inr hj)
      · have := h.reserved; omega
      · rw [hlen2]; omega
      · rw [e2.count_eq]; exact h.count
      · intro j hj
        have := (h.mem_iff j).mp (List.mem_append_left _ hj)
        rw [hu2, if_neg (by omega)]
        exact h.used_id j hj
      · intro j hj
        rw [hu2]
        by_cases hjm : j = m
        · rw [if_pos hjm]
        · rw [if_neg hjm]
          rcases List.mem_cons.mp hj with hj | hj
          · exact absurd hj hjm
          · exact h.free_id j hj
      · intro j hj
        have := h.reserved
        rw [hu2, if_neg (by omega)]
        exact h.sentinel_id j hj
      · rw [e2.next_id_eq]; exact h.next_id
    obtain ⟨p3, h3, hinv3, g3⟩ := ih p2 (m :: free) (m + 1) hinv2 (by rw [hlen2]; omega)
    refine ⟨p3, ?_, ?_, ?_⟩
    · show VectorPool.ReserveLoop p m (k + 1) = _
      unfold VectorPool.ReserveLoop
      simp only [h1, Option.bind_eq_bind, Option.some_bind, h2]
      exact h3
    · have e : (List.range' m (k + 1)).reverse ++ free =
          (List.range' (m + 1) k).reverse ++ m :: free := by
        rw [List.range'_succ, List.reverse_cons, List.append_assoc]
        rfl
      rw [e, show m + (k + 1) = m + 1 + k by omega]
      exact hinv3
    · refine ⟨?_, ?_, ?_, ?_, ?_⟩
      · rw [g3.length_eq, hlen2]
      · rw [g3.count_eq, e2.count_eq]
      · rw [g3.next_id_eq, e2.next_id_eq]
      · intro j
        rw [g3.uid_eq, hu2]
        by_cases hjm : j = m
        · subst hjm
          rw [if_neg (by omega), if_pos rfl, if_pos (by omega)]
        · rw [if_neg hjm]
          by_cases hj : m + 1 ≤ j ∧ j < m + 1 + k
          · rw [if_pos hj, if_pos (by omega)]
          · rw [if_neg hj, if_neg (by omega)]
      · intro j
        rw [g3.dat_eq, e2.views.dat_eq]
        exact w1.dat_eq j

/-- `Reserve(n)` on a well-formed pool: it succeeds, leaves the used chain
alone and puts the new slots, highest index first, in front of the free
chain. -/
theorem Reserve_spec [DefaultInit T] (p : VectorPool T) (used free : List Nat)
    (h : WellFormed p used free) (n : Nat) :
    ∃ p1, p.Reserve n = some p1 ∧
      WellFormed p1 used ((List.range' p.Size (n - p.Size)).reverse ++ free) ∧
      Reserved p p1 n := by
  unfold WellFormed at h
  by_cases hn : p.elements_.length ≥ n
  · refine ⟨p, ?_, ?_, ?_⟩
    · unfold VectorPool.Reserve
      simp only [hn, if_true]
    · have : n - p.Size = 0 := by simp only [VectorPool.Size]; omega
      rw [this]
      simpa using h
    · refine ⟨?_, rfl, rfl, ?_, ?_⟩
      · simp only [VectorPool.Size]; omega
      · intro j
        rw [if_neg (by simp only [VectorPool.Size]; omega)]
      · intro j
        rw [if_neg (by simp only [VectorPool.Size]; omega)]
  · have w := views_resize p.elements_ n
    have hinv1 : Inv (⟨resize p.elements_ n, p.active_count_, p.next_unique_id_⟩ :
        VectorPool T) used free p.Size := by
      have hu : ∀ j, j < p.elements_.length →
          uid (resize p.elements_ n) j = uid p.elements_ j := by
        intro j hj
        rw [w.uid_eq, if_pos (by omega), if_pos hj]
      refine ⟨?_, h.mem_iff, h.reserved, ?_, h.count, ?_, ?_, ?_, h.next_id⟩
      · apply h.chains.mono
        · intro j v hv
          have hj := (nxt_isSome_iff _ _).mp ⟨v, hv⟩
          show nxt (resize p.elements_ n) j = _
          rw [w.nxt_eq, if_pos (by omega), if_pos hj, hv]
        · intro j v hv
          have hj := (prv_isSome_iff _ _).mp ⟨v, hv⟩
          show prv (resize p.elements_ n) j = _
          rw [w.prv_eq, if_pos (by omega), if_pos hj, hv]
      · show p.Size ≤ (resize p.elements_ n).length
        rw [w.length_eq]; simp only [VectorPool.Size]; omega
      · intro j hj
        obtain ⟨u, hu1, hu2⟩ := h.used_id j hj
        have hjl := (uid_isSome_iff _ _).mp ⟨u, hu1⟩
        exact ⟨u, by show uid (resize p.elements_ n) j = _; rw [hu j hjl, hu1], hu2⟩
      · intro j hj
        have hu1 := h.free_id j hj
        have hjl := (uid_isSome_iff _ _).mp ⟨_, hu1⟩
        show uid (resize p.elements_ n) j = _
        rw [hu j hjl, hu1]
      · intro j hj
        have hu1 := h.sentinel_id j hj
        have hjl := (uid_isSome_iff _ _).mp ⟨_, hu1⟩
        show uid (resize p.elements_ n) j = _
        rw [hu j hjl, hu1]
    obtain ⟨p2, h2, hinv2, g2⟩ := ReserveLoop_spec used (n - p.Size) _ free p.Size hinv1
      (by show _ ≤ (resize p.elements_ n).length
          rw [w.length_eq]; simp only [VectorPool.Size]; omega)
    have hlen2 : p2.elements_.length = n := by
      rw [g2.length_eq]; exact w.length_eq
    have hsum : p.Size + (n - p.Size) = n := by simp only [VectorPool.Size]; omega
    rw [hsum] at hinv2 g2
    refine ⟨p2, ?_, ?_, ?_⟩
    · unfold VectorPool.Reserve
      simp only [hn, if_false]
      exact h2
    · unfold WellFormed
      rw [show p2.Size = n from hlen2]
      exact hinv2
    · refine ⟨?_, g2.count_eq, g2.next_id_eq, ?_, ?_⟩
      · rw [show p2.Size = n from hlen2]
        simp only [VectorPool.Size]; omega
      · intro j
        rw [g2.uid_eq]
        by_cases hj : p.Size ≤ j ∧ j < n
        · rw [if_pos hj, if_pos hj]
        · rw [if_neg hj, if_neg hj]
          show uid (resize p.elements_ n) j = _
          rw [w.uid_eq]
          simp only [VectorPool.Size] at hj
          by_cases hjn : j < n
          · rw [if_pos hjn, if_pos (by omega)]
          · rw [if_neg hjn]
            unfold uid
            rw [List.getElem?_eq_none (by omega)]
      · intro j
        rw [g2.dat_eq]
        show dat (resize p.elements_ n) j = _
        rw [w.dat_eq]
        simp only [VectorPool.Size]
        by_cases hjn : j < n
        · rw [if_pos hjn]
          by_cases hjl : j < p.elements_.length
          · rw [if_pos hjl, if_neg (by omega)]
          · rw [if_neg hjl, if_pos (by omega)]
        · rw [if_neg hjn, if_neg (by omega)]
          unfold dat
          rw [List.getElem?_eq_none (by omega)]

/-! ## References and iteration on a well-formed pool -/

theorem GetElement_eq (p : VectorPool T) (i : Nat) : p.GetElement i = p.elements_[i]? := by
  unfold VectorPool.GetElement
  split
  · rfl
  · rw [List.getElem?_eq_none (by omega)]

/-- `IsValid` in terms of the id stored in the slot. -/
theorem IsValid_eq (p : VectorPool T) (r : VectorPoolReference) :
    p.IsValid r =
      if r.container_ = true then
        (uid p.elements_ r.index_).map (fun u => decide (u = r.unique_id_))
      else some false := by
  unfold VectorPool.IsValid uid
  rw [GetElement_eq]
  cases p.elements_[r.index_]? <;> rfl

theorem IsValid_true_iff (p : VectorPool T) (r : VectorPoolReference) :
    p.IsValid r = some true ↔
      r.container_ = true ∧ uid p.elements_ r.index_ = some r.unique_id_ := by
  rw [IsValid_eq]
  by_cases hc : r.container_ = true
  · rw [if_pos hc]
    cases hu : uid p.elements_ r.index_ with
    | none => simp
    | some u => simp [hc]
  · rw [if_neg hc]
    simp [hc]

theorem IsValid_false_iff (p : VectorPool T) (r : VectorPoolReference) :
    p.IsValid r = some false ↔
      r.container_ = false ∨
        ∃ u, uid p.elements_ r.index_ = some u ∧ u ≠ r.unique_id_ := by
  rw [IsValid_eq]
  by_cases hc : r.container_ = true
  · rw [if_pos hc]
    cases hu : uid p.elements_ r.index_ with
    | none => simp [hc]
    | some u => simp [hc]
  · rw [if_neg hc]
    simp [hc]

theorem IsValid_isSome_iff (p : VectorPool T) (r : VectorPoolReference) :
    (∃ b, p.IsValid r = some b) ↔ r.container_ = false ∨ r.index_ < p.Size := by
  rw [IsValid_eq]
  by_cases hc : r.container_ = true
  · rw [if_pos hc]
    constructor
    · rintro ⟨b, hb⟩
      right
      cases hu : uid p.elements_ r.index_ with
      | none => rw [hu] at hb; simp at hb
      | some u => exact (uid_isSome_iff _ _).mp ⟨u, hu⟩
    · rintro (h | h)
      · rw [hc] at h; cases h
      · obtain ⟨u, hu⟩ := (uid_isSome_iff _ _).mpr h
        rw [hu]
        exact ⟨_, rfl⟩
  · rw [if_neg hc]
    simp at hc
    exact ⟨fun _ => Or.inl hc, fun _ => ⟨false, rfl⟩⟩

/-- On a well-formed pool a reference with a valid captured id is valid only
when its slot is on the used chain. -/
theorem WellFormed.mem_used_of_valid {p : VectorPool T} {used free : List Nat}
    (h : WellFormed p used free) {r : VectorPoolReference}
    (hid : r.unique_id_ ≠ kInvalidId) (hv : p.IsValid r = some true) :
    r.index_ ∈ used := by
  obtain ⟨_, hu⟩ := (IsValid_true_iff p r).mp hv
  have hl := (uid_isSome_iff _ _).mp ⟨_, hu⟩
  by_cases h4 : r.index_ < kTotalReserved
  · have := h.sentinel_id _ h4
    rw [hu] at this
    exact absurd (Option.some.inj this) hid
  · have hmem := (h.mem_iff r.index_).mpr ⟨by omega, hl⟩
    rcases List.mem_append.mp hmem with hm | hm
    · exact hm
    · have := h.free_id _ hm
      rw [hu] at this
      exact absurd (Option.some.inj this) hid

theorem FreeElementRef_of_valid (p : VectorPool T) (r : VectorPoolReference)
    (hv : p.IsValid r = some true) : p.FreeElementRef r = p.FreeElement r.index_ := by
  unfold VectorPool.FreeElementRef
  simp [hv]

theorem FreeElementRef_of_invalid (p : VectorPool T) (r : VectorPoolReference)
    (hv : p.IsValid r = some false) : p.FreeElementRef r = some p := by
  unfold VectorPool.FreeElementRef
  simp [hv]

/-- The used chain has room in the storage. -/
theorem WellFormed.length_used_le {p : VectorPool T} {used free : List Nat}
    (h : WellFormed p used free) : used.length + kTotalReserved ≤ p.Size := by
  have hnd : used.Nodup := (List.nodup_append.mp h.chains.nodup).1
  have hsub : used ⊆ List.range' kTotalReserved (p.Size - kTotalReserved) := by
    intro j hj
    have := (h.mem_iff j).mp (List.mem_append_left _ hj)
    rw [List.mem_range']
    exact ⟨j - kTotalReserved, by omega, by omega⟩
  have := (List.subperm_of_subset hnd hsub).length_le
  rw [List.length_range'] at this
  have h4 := h.reserved
  omega

/-- On a well-formed pool whose size fits a `size_t`, `active_count()` is the
length of the used chain. -/
theorem WellFormed.active_count_eq {p : VectorPool T} {used free : List Nat}
    (h : WellFormed p used free) (hs : p.Size < 2 ^ 64) :
    p.active_count = used.length := by
  have := h.length_used_le
  unfold VectorPool.active_count
  rw [h.count]
  apply Nat.mod_eq_of_lt
  omega

theorem collect_seg (p : VectorPool T) (l : List Nat) :
    ∀ (a fuel : Nat), Seg (nxt p.elements_) (prv p.elements_) a l kLastUsed →
      (∀ j ∈ l, j ≠ kLastUsed) → l.length < fuel →
      p.collect fuel ⟨(l ++ [kLastUsed]).headD kLastUsed⟩ = some l := by
  induction l with
  | nil =>
    intro a fuel _ _ hf
    cases fuel with
    | zero => omega
    | succ fuel => simp [VectorPool.collect, VectorPool.end_]
  | cons x xs ih =>
    intro a fuel hs hne hf
    cases fuel with
    | zero => omega
    | succ fuel =>
      have hx : x ≠ kLastUsed := hne x (by simp)
      have hnext : p.next ⟨x⟩ = some ⟨(xs ++ [kLastUsed]).headD kLastUsed⟩ := by
        obtain ⟨e, he, hen⟩ := getElem?_of_nxt (seg_head hs.2.2)
        unfold VectorPool.next
        simp only [he, hen]
      have := ih x fuel hs.2.2 (fun j hj => hne j (List.mem_cons_of_mem _ hj))
        (by simp at hf; omega)
      simp only [List.cons_append, List.headD_cons]
      unfold VectorPool.collect
      have hne1 : ¬ ((⟨x⟩ : Iterator) = p.end_) := by simp [VectorPool.end_, hx]
      rw [if_neg hne1]
      simp only [hnext, this]

/-- `begin()` on a well-formed pool: the first used slot, or `end()`. -/
theorem WellFormed.begin_eq {p : VectorPool T} {used free : List Nat}
    (h : WellFormed p used free) :
    p.begin = some ⟨(used ++ [kLastUsed]).headD kLastUsed⟩ := by
  obtain ⟨e, he, hen⟩ := getElem?_of_nxt h.chains.first_used.1
  unfold VectorPool.begin
  simp only [he, hen]

/-- Iterating a well-formed pool from `begin()` to `end()` visits the used
chain, in order. -/
theorem WellFormed.iterate_eq {p : VectorPool T} {used free : List Nat}
    (h : WellFormed p used free) : p.iterate = some used := by
  unfold VectorPool.iterate
  rw [h.begin_eq]
  apply collect_seg p used kFirstUsed _ h.chains.used_chain
  · intro j hj
    have := h.chains.not_reserved j (List.mem_append_left _ hj)
    simp only [kTotalReserved, kLastUsed] at *
    omega
  · have := h.length_used_le
    omega

/-! ## The client's invariants are kept -/

theorem lastAlloc_le (rs : List VectorPoolReference) (i : Nat) :
    lastAlloc rs i ≤ rs.length := by
  induction rs with
  | nil => simp [lastAlloc]
  | cons r rs ih =>
    simp only [lastAlloc, List.length_cons]
    split
    · omega
    · split <;> omega

theorem lastAlloc_append (rs : List VectorPoolReference) (r : VectorPoolReference) (i : Nat) :
    lastAlloc (rs ++ [r]) i = if r.index_ = i then rs.length + 1 else lastAlloc rs i := by
  induction rs with
  | nil => simp [lastAlloc]
  | cons r0 rs ih =>
    have e : lastAlloc (r0 :: rs ++ [r]) i =
        if lastAlloc (rs ++ [r]) i ≠ 0 then lastAlloc (rs ++ [r]) i + 1
        else if r0.index_ = i then 1 else 0 := rfl
    rw [e, ih]
    by_cases hr : r.index_ = i
    · simp [hr]
    · simp [hr, lastAlloc]

theorem AllocateUniqueId_formula (p : VectorPool T) (k : Nat)
    (h : p.next_unique_id_ = k % (2 ^ 32 - 1) + 1) :
    p.AllocateUniqueId.2.next_unique_id_ = (k + 1) % (2 ^ 32 - 1) + 1 := by
  simp only [VectorPool.AllocateUniqueId, kInvalidId, h]
  norm_num
  split <;> omega

theorem Client.step_alloc [DefaultInit T] (s : Client T) (used free : List Nat)
    (h : ClientInv s used free) :
    ∃ p1, s.pool.GetNewElement =
        some (p1, ⟨true, free.headD s.pool.Size, s.pool.next_unique_id_⟩) ∧
      s.step .alloc =
        some ⟨p1, s.issued ++ [⟨true, free.headD s.pool.Size, s.pool.next_unique_id_⟩]⟩ ∧
      ClientInv ⟨p1, s.issued ++ [⟨true, free.headD s.pool.Size, s.pool.next_unique_id_⟩]⟩
        (free.headD s.pool.Size :: used) free.tail ∧
      p1.Size = (if free = [] then s.pool.Size + 1 else s.pool.Size) ∧
      Allocated s.pool p1 (free.headD s.pool.Size) := by
  obtain ⟨p1, h1, hwf1, hsz1, hal⟩ := GetNewElement_spec s.pool used free h.wf
  refine ⟨p1, h1, ?_, ?_, hsz1, hal⟩
  · simp only [Client.step, h1]
  have hi : free.headD s.pool.Size ∉ used := by
    have := hwf1.chains.nodup
    rw [List.cons_append] at this
    exact fun hc => (List.nodup_cons.mp this).1 (List.mem_append_left _ hc)
  refine ⟨hwf1, ?_, ?_, ?_, ?_, ?_⟩
  · intro r hr
    rcases List.mem_append.mp hr with hr | hr
    · exact h.issued_ok r hr
    · simp only [List.mem_singleton] at hr
      subst hr
      exact ⟨rfl, h.wf.next_id.1⟩
  · intro j hj
    show ∃ r ∈ s.issued ++ _, r.index_ = j ∧ uid p1.elements_ j = some r.unique_id_
    rw [hal.uid_eq]
    by_cases hji : j = free.headD s.pool.Size
    · exact ⟨_, List.mem_append_right _ (List.mem_singleton.mpr rfl), hji.symm,
        by rw [if_pos hji]⟩
    · rw [if_neg hji]
      rcases List.mem_cons.mp hj with hj | hj
      · exact absurd hj hji
      · obtain ⟨r, hr, hri, hru⟩ := h.used_issued j hj
        exact ⟨r, List.mem_append_left _ hr, hri, hru⟩
  · show List.Pairwise _ _
    rw [List.pairwise_cons]
    constructor
    · intro j hj
      have hji : ¬ free.headD s.pool.Size = j := fun hc => hi (hc ▸ hj)
      simp only [lastAlloc_append, if_neg hji, if_true]
      have := lastAlloc_le s.issued j
      omega
    · apply h.order.imp_of_mem
      intro a b ha hb hab
      have hai : ¬ free.headD s.pool.Size = a := fun hc => hi (hc ▸ ha)
      have hbi : ¬ free.headD s.pool.Size = b := fun hc => hi (hc ▸ hb)
      simp only [lastAlloc_append, if_neg hai, if_neg hbi]
      exact hab
  · show p1.next_unique_id_ = _
    rw [hal.next_id_eq, List.length_append, List.length_singleton]
    exact AllocateUniqueId_formula s.pool _ h.next_id_eq
  · intro hlen
    simp only [List.length_append, List.length_singleton] at hlen ⊢
    have hlt : s.issued.length < 2 ^ 32 - 1 := by omega
    obtain ⟨f1, f2⟩ := h.fresh hlt
    have hnid : s.pool.next_unique_id_ = s.issued.length + 1 := by
      rw [h.next_id_eq, Nat.mod_eq_of_lt hlt]
    constructor
    · intro j u hu
      change uid p1.elements_ j = some u at hu
      rw [hal.uid_eq] at hu
      by_cases hji : j = free.headD s.pool.Size
      · rw [if_pos hji, hnid] at hu
        have := Option.some.inj hu
        omega
      · rw [if_neg hji] at hu
        have := f1 j u hu
        omega
    · intro r hr
      rcases List.mem_append.mp hr with hr | hr
      · have := f2 r hr
        omega
      · simp only [List.mem_singleton] at hr
        subst hr
        show s.pool.next_unique_id_ ≤ _
        omega

/-- Freeing by reference either changes nothing or frees a used slot. -/
theorem Client.step_free [DefaultInit T] (s s1 : Client T) (used free : List Nat)
    (h : ClientInv s used free) (k : Nat) (hs : s.step (.free k) = some s1) :
    (s1 = s ∧
      s.pool.IsValid ((s.issued[k]?).getD VectorPoolReference.null) = some false) ∨
    (∃ r, s.issued[k]? = some r ∧ s.pool.IsValid r = some true ∧ r.index_ ∈ used ∧
      s1.issued = s.issued ∧ Freed s.pool s1.pool r.index_ ∧ s1.pool.Size = s.pool.Size ∧
      ClientInv s1 (used.erase r.index_) (r.index_ :: free)) := by
  simp only [Client.step] at hs
  cases hfr : s.pool.FreeElementRef ((s.issued[k]?).getD VectorPoolReference.null) with
  | none => rw [hfr] at hs; simp at hs
  | some p1 =>
    rw [hfr] at hs
    simp only [Option.some.injEq] at hs
    subst hs
    cases hv : s.pool.IsValid ((s.issued[k]?).getD VectorPoolReference.null) with
    | none =>
      unfold VectorPool.FreeElementRef at hfr
      simp [hv] at hfr
    | some b =>
      cases b with
      | false =>
        left
        rw [FreeElementRef_of_invalid _ _ hv] at hfr
        simp only [Option.some.injEq] at hfr
        subst hfr
        exact ⟨rfl, rfl⟩
      | true =>
        right
        cases hk : s.issued[k]? with
        | none =>
          rw [hk] at hv
          simp [VectorPool.IsValid, VectorPoolReference.null] at hv
        | some r =>
          rw [hk] at hv hfr
          simp only [Option.getD_some] at hv hfr
          have hr : r ∈ s.issued := List.getElem?_mem hk
          have hmem := h.wf.mem_used_of_valid (h.issued_ok r hr).2 hv
          obtain ⟨p2, h2, hwf2, hsz2, hfd⟩ := FreeElement_spec s.pool used free h.wf _ hmem
          rw [FreeElementRef_of_valid _ _ hv, h2] at hfr
          simp only [Option.some.injEq] at hfr
          subst hfr
          have hnd : used.Nodup := (List.nodup_append.mp h.wf.chains.nodup).1
          refine ⟨r, rfl, hv, hmem, rfl, hfd, hsz2, hwf2, h.issued_ok, ?_, ?_, ?_, ?_⟩
          · intro j hj
            have hj2 := (hnd.mem_erase_iff).mp hj
            obtain ⟨r1, hr1, hri, hru⟩ := h.used_issued j hj2.2
            refine ⟨r1, hr1, hri, ?_⟩
            show uid p2.elements_ j = _
            rw [hfd.uid_eq, if_neg hj2.1, hru]
          · exact h.order.sublist (List.erase_sublist _ _)
          · show p2.next_unique_id_ = _
            rw [hfd.next_id_eq]; exact h.next_id_eq
          · intro hlen
            obtain ⟨f1, f2⟩ := h.fresh hlen
            refine ⟨?_, f2⟩
            intro j u hu
            change uid p2.elements_ j = some u at hu
            rw [hfd.uid_eq] at hu
            by_cases hji : j = r.index_
            · rw [if_pos hji] at hu
              have := Option.some.inj hu
              simp only [kInvalidId] at this
              omega
            · rw [if_neg hji] at hu
              exact f1 j u hu

theorem Client.step_reserve [DefaultInit T] (s : Client T) (used free : List Nat)
    (h : ClientInv s used free) (n : Nat) :
    ∃ p1, s.step (.reserve n) = some ⟨p1, s.issued⟩ ∧ Reserved s.pool p1 n ∧
      ClientInv ⟨p1, s.issued⟩ used
        ((List.range' s.pool.Size (n - s.pool.Size)).reverse ++ free) := by
  obtain ⟨p1, h1, hwf1, hres⟩ := Reserve_spec s.pool used free h.wf n
  refine ⟨p1, ?_, hres, hwf1, h.issued_ok, ?_, h.order, ?_, ?_⟩
  · simp only [Client.step, h1]
  · intro j hj
    obtain ⟨r1, hr1, hri, hru⟩ := h.used_issued j hj
    refine ⟨r1, hr1, hri, ?_⟩
    show uid p1.elements_ j = _
    have := (h.wf.mem_iff j).mp (List.mem_append_left _ hj)
    rw [hres.uid_eq, if_neg (by omega), hru]
  · show p1.next_unique_id_ = _
    rw [hres.next_id_eq]; exact h.next_id_eq
  · intro hlen
    obtain ⟨f1, f2⟩ := h.fresh hlen
    refine ⟨?_, f2⟩
    intro j u hu
    change uid p1.elements_ j = some u at hu
    rw [hres.uid_eq] at hu
    by_cases hj : s.pool.Size ≤ j ∧ j < n
    · rw [if_pos hj] at hu
      have := Option.some.inj hu
      simp only [kInvalidId] at this
      omega
    · rw [if_neg hj] at hu
      exact f1 j u hu

theorem uid_resize_le [DefaultInit T] (els : List (VectorPoolElement T)) (n b : Nat)
    (h : ∀ j u, uid els j = some u → u ≤ b) :
    ∀ j u, uid (resize els n) j = some u → u ≤ b := by
  intro j u hu
  rw [(views_resize els n).uid_eq] at hu
  by_cases hjn : j < n
  · rw [if_pos hjn] at hu
    by_cases hjl : j < els.length
    · rw [if_pos hjl] at hu
      exact h j u hu
    · rw [if_neg hjl] at hu
      have := Option.some.inj hu
      simp only [kInvalidId] at this
      omega
  · rw [if_neg hjn] at hu
    simp at hu

theorem Client.step_clear [DefaultInit T] (s : Client T) (used free : List Nat)
    (h : ClientInv s used free) :
    ∃ p1, s.step .clear = some ⟨p1, s.issued⟩ ∧ Cleared s.pool p1 ∧
      ClientInv ⟨p1, s.issued⟩ [] [] := by
  obtain ⟨p1, h1, hc⟩ := Clear_spec s.pool
  have hwf1 : WellFormed p1 [] [] :=
    hc.wellFormed (fun j hj _ => h.wf.sentinel_id j hj) h.wf.next_id
  refine ⟨p1, ?_, hc, hwf1, h.issued_ok, ?_, List.Pairwise.nil, ?_, ?_⟩
  · simp only [Client.step, h1]
  · intro j hj; simp at hj
  · show p1.next_unique_id_ = _
    rw [hc.next_id_eq]; exact h.next_id_eq
  · intro hlen
    obtain ⟨f1, f2⟩ := h.fresh hlen
    refine ⟨?_, f2⟩
    intro j u hu
    change uid p1.elements_ j = some u at hu
    rw [hc.uid_eq] at hu
    exact uid_resize_le _ _ _ f1 j u hu

/-- Each client call keeps the invariant. -/
theorem Client.step_inv [DefaultInit T] (s s1 : Client T) (used free : List Nat)
    (h : ClientInv s used free) (op : Op) (hs : s.step op = some s1) :
    ∃ used1 free1, ClientInv s1 used1 free1 := by
  cases op with
  | alloc =>
    obtain ⟨p1, _, h1, hinv, _⟩ := Client.step_alloc s used free h
    rw [h1] at hs
    cases hs
    exact ⟨_, _, hinv⟩
  | free k =>
    rcases Client.step_free s s1 used free h k hs with ⟨rfl, _⟩ | ⟨r, _, _, _, _, _, _, hinv⟩
    · exact ⟨_, _, h⟩
    · exact ⟨_, _, hinv⟩
  | reserve n =>
    obtain ⟨p1, h1, _, hinv⟩ := Client.step_reserve s used free h n
    rw [h1] at hs
    cases hs
    exact ⟨_, _, hinv⟩
  | clear =>
    obtain ⟨p1, h1, _, hinv⟩ := Client.step_clear s used free h
    rw [h1] at hs
    cases hs
    exact ⟨_, _, hinv⟩

theorem Client.runFrom_inv [DefaultInit T] (ops : List Op) :
    ∀ (s s1 : Client T) (used free : List Nat), ClientInv s used free →
      s.runFrom ops = some s1 → ∃ used1 free1, ClientInv s1 used1 free1 := by
  induction ops with
  | nil =>
    intro s s1 used free h hs
    simp only [Client.runFrom, Option.some.injEq] at hs
    subst hs
    exact ⟨_, _, h⟩
  | cons op ops ih =>
    intro s s1 used free h hs
    simp only [Client.runFrom] at hs
    cases hst : s.step op with
    | none => rw [hst] at hs; simp at hs
    | some s2 =>
      rw [hst] at hs
      obtain ⟨used2, free2, h2⟩ := Client.step_inv s s2 used free h op hst
      exact ih s2 s1 used2 free2 h2 hs

/-- The invariant holds at the start. -/
theorem Client.new_inv [DefaultInit T] :
    ∃ p : VectorPool T, VectorPool.new = some p ∧ ClientInv ⟨p, []⟩ [] [] := by
  obtain ⟨p, hp, hwf, hc⟩ := new_spec (T := T)
  refine ⟨p, hp, hwf, ?_, ?_, List.Pairwise.nil, ?_, ?_⟩
  · intro r hr; simp at hr
  · intro j hj; simp at hj
  · show p.next_unique_id_ = _
    rw [hc.next_id_eq]
    simp [kInvalidId]
  · intro _
    refine ⟨?_, ?_⟩
    · intro j u hu
      change uid p.elements_ j = some u at hu
      rw [hc.uid_eq] at hu
      refine uid_resize_le _ _ _ ?_ j u hu
      intro j u hu
      simp [uid] at hu
    · intro r hr; simp at hr

/-- The invariant holds after every sequence of client calls on a fresh
pool. -/
theorem Client.run_inv [DefaultInit T] (ops : List Op) (s : Client T)
    (h : Client.run ops = some s) : ∃ used free, ClientInv s used free := by
  obtain ⟨p, hp, hinv⟩ := Client.new_inv (T := T)
  unfold Client.run at h
  rw [hp] at h
  exact Client.runFrom_inv ops _ s [] [] hinv h

/-! ## Progress and monotonicity of client calls -/

/-- Freeing by reference succeeds when the reference's index is in range. -/
theorem Client.step_free_total [DefaultInit T] (s : Client T) (used free : List Nat)
    (h : ClientInv s used free) (k : Nat)
    (hk : ∀ r, s.issued[k]? = some r → r.index_ < s.pool.Size) :
    ∃ s1, s.step (.free k) = some s1 := by
  have hv : ∃ b, s.pool.IsValid ((s.issued[k]?).getD VectorPoolReference.null) = some b := by
    rw [IsValid_isSome_iff]
    cases hg : s.issued[k]? with
    | none => left; rfl
    | some r => right; exact hk r hg
  obtain ⟨b, hb⟩ := hv
  cases b with
  | false =>
    exact ⟨⟨s.pool, s.issued⟩, by simp only [Client.step, FreeElementRef_of_invalid _ _ hb]⟩
  | true =>
    cases hg : s.issued[k]? with
    | none =>
      rw [hg] at hb
      simp [VectorPool.IsValid, VectorPoolReference.null] at hb
    | some r =>
      rw [hg] at hb
      simp only [Option.getD_some] at hb
      have hmem := h.wf.mem_used_of_valid (h.issued_ok r (List.getElem?_mem hg)).2 hb
      obtain ⟨p2, h2, _⟩ := FreeElement_spec s.pool used free h.wf _ hmem
      exact ⟨⟨p2, s.issued⟩, by
        simp only [Client.step, hg, Option.getD_some, FreeElementRef_of_valid _ _ hb, h2]⟩

theorem Client.step_issued [DefaultInit T] (s s1 : Client T) (op : Op)
    (hs : s.step op = some s1) : ∃ l, s1.issued = s.issued ++ l := by
  cases op with
  | alloc =>
    simp only [Client.step] at hs
    cases hg : s.pool.GetNewElement with
    | none => rw [hg] at hs; simp at hs
    | some pr =>
      rw [hg] at hs
      simp only [Option.some.injEq] at hs
      subst hs
      exact ⟨[pr.2], rfl⟩
  | free k =>
    simp only [Client.step] at hs
    cases hg : s.pool.FreeElementRef ((s.issued[k]?).getD VectorPoolReference.null) with
    | none => rw [hg] at hs; simp at hs
    | some p =>
      rw [hg] at hs
      simp only [Option.some.injEq] at hs
      subst hs
      exact ⟨[], by simp⟩
  | reserve n =>
    simp only [Client.step] at hs
    cases hg : s.pool.Reserve n with
    | none => rw [hg] at hs; simp at hs
    | some p =>
      rw [hg] at hs
      simp only [Option.some.injEq] at hs
      subst hs
      exact ⟨[], by simp⟩
  | clear =>
    simp only [Client.step] at hs
    cases hg : s.pool.Clear with
    | none => rw [hg] at hs; simp at hs
    | some p =>
      rw [hg] at hs
      simp only [Option.some.injEq] at hs
      subst hs
      exact ⟨[], by simp⟩

theorem Client.runFrom_issued [DefaultInit T] (ops : List Op) :
    ∀ (s s1 : Client T), s.runFrom ops = some s1 → ∃ l, s1.issued = s.issued ++ l := by
  induction ops with
  | nil =>
    intro s s1 hs
    simp only [Client.runFrom, Option.some.injEq] at hs
    subst hs
    exact ⟨[], by simp⟩
  | cons op ops ih =>
    intro s s1 hs
    simp only [Client.runFrom] at hs
    cases hst : s.step op with
    | none => rw [hst] at hs; simp at hs
    | some s2 =>
      rw [hst] at hs
      obtain ⟨l1, hl1⟩ := Client.step_issued s s2 op hst
      obtain ⟨l2, hl2⟩ := ih s2 s1 hs
      exact ⟨l1 ++ l2, by rw [hl2, hl1, List.append_assoc]⟩

/-- A call other than `Clear` keeps every reference handed out in range. -/
theorem Client.step_in_range [DefaultInit T] (s s1 : Client T) (used free : List Nat)
    (h : ClientInv s used free) (hr : ∀ r ∈ s.issued, r.index_ < s.pool.Size)
    (op : Op) (hop : op ≠ .clear) (hs : s.step op = some s1) :
    ∀ r ∈ s1.issued, r.index_ < s1.pool.Size := by
  cases op with
  | alloc =>
    obtain ⟨p1, _, h1, _, hsz, _⟩ := Client.step_alloc s used free h
    rw [h1] at hs
    cases hs
    intro r hmem
    show r.index_ < p1.Size
    rw [hsz]
    rcases List.mem_append.mp hmem with hm | hm
    · have := hr r hm
      split <;> omega
    · simp only [List.mem_singleton] at hm
      subst hm
      cases free with
      | nil => simp
      | cons f fs =>
        have := (h.wf.mem_iff f).mp (by simp)
        simpa using this.2
  | free k =>
    rcases Client.step_free s s1 used free h k hs with ⟨rfl, _⟩ | ⟨_, _, _, _, hiss, _, hsz, _⟩
    · exact hr
    · rw [hiss, hsz]; exact hr
  | reserve n =>
    obtain ⟨p1, h1, hres, _⟩ := Client.step_reserve s used free h n
    rw [h1] at hs
    cases hs
    intro r hmem
    show r.index_ < p1.Size
    rw [hres.size_eq]
    have := hr r hmem
    omega
  | clear => exact absurd rfl hop

/-- On a pool where every reference handed out is in range, a sequence of
calls without `Clear` runs to its end. -/
theorem Client.runFrom_total [DefaultInit T] (ops : List Op) :
    ∀ (s : Client T) (used free : List Nat), ClientInv s used free →
      (∀ r ∈ s.issued, r.index_ < s.pool.Size) → Op.clear ∉ ops →
      ∃ s1, s.runFrom ops = some s1 ∧ ∀ r ∈ s1.issued, r.index_ < s1.pool.Size := by
  induction ops with
  | nil =>
    intro s used free _ hr _
    exact ⟨s, rfl, hr⟩
  | cons op ops ih =>
    intro s used free h hr hnc
    have hop : op ≠ .clear := fun hc => hnc (by simp [hc])
    have hnc1 : Op.clear ∉ ops := fun hc => hnc (List.mem_cons_of_mem _ hc)
    have hst : ∃ s2, s.step op = some s2 := by
      cases op with
      | alloc =>
        obtain ⟨p1, _, h1, _⟩ := Client.step_alloc s used free h
        exact ⟨_, h1⟩
      | free k =>
        exact Client.step_free_total s used free h k
          (fun r hk => hr r (List.getElem?_mem hk))
      | reserve n =>
        obtain ⟨p1, h1, _⟩ := Client.step_reserve s used free h n
        exact ⟨_, h1⟩
      | clear => exact absurd rfl hop
    obtain ⟨s2, hs2⟩ := hst
    obtain ⟨used2, free2, h2⟩ := Client.step_inv s s2 used free h op hs2
    have hr2 := Client.step_in_range s s2 used free h hr op hop hs2
    obtain ⟨s1, hs1, hr1⟩ := ih s2 used2 free2 h2 hr2 hnc1
    exact ⟨s1, by simp only [Client.runFrom, hs2, hs1], hr1⟩

/-- A call other than `Clear` keeps an invalid reference invalid, as long as
no more than `2 ^ 32 - 1` ids have been handed out. -/
theorem Client.step_keeps_invalid [DefaultInit T] (s s1 : Client T) (used free : List Nat)
    (h : ClientInv s used free) (r : VectorPoolReference) (hr : r ∈ s.issued)
    (hstale : s.pool.IsValid r = some false) (op : Op) (hop : op ≠ .clear)
    (hs : s.step op = some s1) (hlen : s1.issued.length ≤ 2 ^ 32 - 1) :
    s1.pool.IsValid r = some false := by
  obtain ⟨hcont, hid⟩ := h.issued_ok r hr
  have hu : ∃ u, uid s.pool.elements_ r.index_ = some u ∧ u ≠ r.unique_id_ := by
    rcases (IsValid_false_iff _ _).mp hstale with hc | hc
    · rw [hcont] at hc; cases hc
    · exact hc
  obtain ⟨u, hu1, hu2⟩ := hu
  rw [IsValid_false_iff]
  right
  cases op with
  | alloc =>
    obtain ⟨p1, _, h1, _, _, hal⟩ := Client.step_alloc s used free h
    rw [h1] at hs
    cases hs
    simp only [List.length_append, List.length_singleton] at hlen
    have hlt : s.issued.length < 2 ^ 32 - 1 := by omega
    have hrid := (h.fresh hlt).2 r hr
    have hnid : s.pool.next_unique_id_ = s.issued.length + 1 := by
      rw [h.next_id_eq, Nat.mod_eq_of_lt hlt]
    show ∃ u, uid p1.elements_ r.index_ = some u ∧ u ≠ r.unique_id_
    rw [hal.uid_eq]
    by_cases hi : r.index_ = free.headD s.pool.Size
    · rw [if_pos hi]
      exact ⟨_, rfl, by omega⟩
    · rw [if_neg hi]
      exact ⟨u, hu1, hu2⟩
  | free k =>
    rcases Client.step_free s s1 used free h k hs with ⟨rfl, _⟩ | ⟨r1, _, _, _, _, hfd, _, _⟩
    · exact ⟨u, hu1, hu2⟩
    · rw [hfd.uid_eq]
      by_cases hi : r.index_ = r1.index_
      · rw [if_pos hi]
        exact ⟨_, rfl, fun hc => hid hc.symm⟩
      · rw [if_neg hi]
        exact ⟨u, hu1, hu2⟩
  | reserve n =>
    obtain ⟨p1, h1, hres, _⟩ := Client.step_reserve s used free h n
    rw [h1] at hs
    cases hs
    show ∃ u, uid p1.elements_ r.index_ = some u ∧ u ≠ r.unique_id_
    have hl := (uid_isSome_iff _ _).mp ⟨u, hu1⟩
    rw [hres.uid_eq, if_neg (by simp only [VectorPool.Size]; omega)]
    exact ⟨u, hu1, hu2⟩
  | clear => exact absurd rfl hop

theorem Client.runFrom_keeps_invalid [DefaultInit T] (r : VectorPoolReference)
    (ops : List Op) :
    ∀ (s s1 : Client T) (used free : List Nat), ClientInv s used free → r ∈ s.issued →
      s.pool.IsValid r = some false → Op.clear ∉ ops → s.runFrom ops = some s1 →
      s1.issued.length ≤ 2 ^ 32 - 1 → s1.pool.IsValid r = some false := by
  induction ops with
  | nil =>
    intro s s1 used free _ _ hstale _ hs _
    simp only [Client.runFrom, Option.some.injEq] at hs
    subst hs
    exact hstale
  | cons op ops ih =>
    intro s s1 used free h hr hstale hnc hs hlen
    have hop : op ≠ .clear := fun hc => hnc (by simp [hc])
    have hnc1 : Op.clear ∉ ops := fun hc => hnc (List.mem_cons_of_mem _ hc)
    simp only [Client.runFrom] at hs
    cases hst : s.step op with
    | none => rw [hst] at hs; simp at hs
    | some s2 =>
      rw [hst] at hs
      obtain ⟨used2, free2, h2⟩ := Client.step_inv s s2 used free h op hst
      obtain ⟨l1, hl1⟩ := Client.step_issued s s2 op hst
      obtain ⟨l2, hl2⟩ := Client.runFrom_issued ops s2 s1 hs
      have hlen2 : s2.issued.length ≤ 2 ^ 32 - 1 := by
        rw [hl2, List.length_append] at hlen
        omega
      have hstale2 := Client.step_keeps_invalid s s2 used free h r hr hstale op hop hst hlen2
      exact ih s2 s1 used2 free2 h2 (by rw [hl1]; exact List.mem_append_left _ hr)
        hstale2 hnc1 hs hlen

theorem exampleFreed_wellFormed : WellFormed exampleFreed.pool [6, 4] [5] := by
  refine ⟨⟨by decide, by decide, by decide, by decide⟩, ?_, by decide, by decide, by decide,
    ?_, by decide, ?_, by decide⟩
  · intro i
    show i ∈ [6, 4] ++ [5] ↔ 4 ≤ i ∧ i < 7
    simp only [List.mem_append, List.mem_cons, List.mem_singleton, List.not_mem_nil,
      or_false]
    constructor
    · intro hi
      omega
    · intro hi
      omega
  · intro i hi
    simp only [List.mem_cons, List.mem_singleton, List.not_mem_nil] at hi
    rcases hi with rfl | rfl | hi
    · exact ⟨3, by decide, by decide⟩
    · exact ⟨1, by decide, by decide⟩
    · cases hi
  · intro i hi
    simp only [kTotalReserved] at hi
    have : i = 0 ∨ i = 1 ∨ i = 2 ∨ i = 3 := by omega
    rcases this with rfl | rfl | rfl | rfl <;> decide

/-! ## The claims -/

/-- C1. After every sequence of `GetNewElement`, `FreeElement(VectorPoolReference)`,
`Reserve` and `Clear` calls on a fresh pool, following `next` from the used
head reaches the used tail along a chain `used`, following `next` from the
free head reaches the free tail along a chain `free`, every index from 4 up to
`Size()` occurs exactly once in the two chains together, nothing else occurs in
them, and `active_count()` is the length of `used` (the size of the storage
being a `size_t`). Moreover each further call succeeds, a free by reference
provided the index of the reference is in range. -/
theorem C1_wellformed_preserved [DefaultInit T] (ops : List Op) (s : Client T)
    (hrun : Client.run ops = some s) :
    ∃ used free : List Nat,
      Seg (nxt s.pool.elements_) (prv s.pool.elements_) kFirstUsed used kLastUsed ∧
      Seg (nxt s.pool.elements_) (prv s.pool.elements_) kFirstFree free kLastFree ∧
      (∀ i, kTotalReserved ≤ i → i < s.pool.Size → (used ++ free).count i = 1) ∧
      (∀ i ∈ used ++ free, kTotalReserved ≤ i ∧ i < s.pool.Size) ∧
      (s.pool.Size < 2 ^ 64 → s.pool.active_count = used.length) ∧
      (∃ s1, s.step .alloc = some s1) ∧
      (∀ n, ∃ s1, s.step (.reserve n) = some s1) ∧
      (∃ s1, s.step .clear = some s1) ∧
      (∀ k, (∀ r, s.issued[k]? = some r → r.index_ < s.pool.Size) →
        ∃ s1, s.step (.free k) = some s1) := by
  obtain ⟨used, free, h⟩ := Client.run_inv ops s hrun
  refine ⟨used, free, h.wf.chains.used_chain, h.wf.chains.free_chain, ?_, ?_, ?_, ?_, ?_, ?_,
    ?_⟩
  · intro i h4 hl
    exact List.count_eq_one_of_mem h.wf.chains.nodup ((h.wf.mem_iff i).mpr ⟨h4, hl⟩)
  · intro i hi
    exact (h.wf.mem_iff i).mp hi
  · exact h.wf.active_count_eq
  · obtain ⟨p1, _, h1, _⟩ := Client.step_alloc s used free h
    exact ⟨_, h1⟩
  · intro n
    obtain ⟨p1, h1, _⟩ := Client.step_reserve s used free h n
    exact ⟨_, h1⟩
  · obtain ⟨p1, h1, _⟩ := Client.step_clear s used free h
    exact ⟨_, h1⟩
  · intro k hk
    exact Client.step_free_total s used free h k hk

theorem C1_wellformed_preserved_witness :
    Client.run [.alloc, .alloc, .alloc, .free 1] = some exampleFreed ∧
    ∃ used free : List Nat,
      Seg (nxt exampleFreed.pool.elements_) (prv exampleFreed.pool.elements_)
        kFirstUsed used kLastUsed ∧
      Seg (nxt exampleFreed.pool.elements_) (prv exampleFreed.pool.elements_)
        kFirstFree free kLastFree ∧
      (∀ i, kTotalReserved ≤ i → i < exampleFreed.pool.Size → (used ++ free).count i = 1) ∧
      (∀ i ∈ used ++ free, kTotalReserved ≤ i ∧ i < exampleFreed.pool.Size) ∧
      (exampleFreed.pool.Size < 2 ^ 64 → exampleFreed.pool.active_count = used.length) ∧
      (∃ s1, exampleFreed.step .alloc = some s1) ∧
      (∀ n, ∃ s1, exampleFreed.step (.reserve n) = some s1) ∧
      (∃ s1, exampleFreed.step .clear = some s1) ∧
      (∀ k, (∀ r, exampleFreed.issued[k]? = some r → r.index_ < exampleFreed.pool.Size) →
        ∃ s1, exampleFreed.step (.free k) = some s1) :=
  ⟨by decide, C1_wellformed_preserved [.alloc, .alloc, .alloc, .free 1] exampleFreed
    (by decide)⟩

/-- C2, as stated, fails: on a fresh pool the reference made by `ToReference`
from the cursor `end()` has an index in range and captured id 0, and `IsValid`
reports it valid. -/
theorem C2_counterexample :
    ¬ ∀ (ops : List Op) (s : Client Nat) (r : VectorPoolReference),
      Client.run ops = some s → r.index_ < s.pool.Size →
      (r ∈ s.issued ∨ ∃ it, s.pool.ToReference it = some r) →
      (s.pool.IsValid r = some true ↔
        (uid s.pool.elements_ r.index_ = some r.unique_id_ ∧
          r.unique_id_ ≠ kInvalidId)) := by
  intro h
  have h1 := h [] exampleFresh ⟨true, 1, 0⟩ (by decide) (by decide)
    (Or.inr ⟨exampleFresh.pool.end_, by decide⟩)
  have hv : exampleFresh.pool.IsValid ⟨true, 1, 0⟩ = some true := by decide
  exact (h1.mp hv).2 rfl

/-- A reference made by `ToReference` captures the id stored in the slot the
cursor is at, and `IsValid` reports it valid in the state where it was made. -/
theorem ToReference_of_uid (p : VectorPool T) (it : Iterator) (u : Nat)
    (hu : uid p.elements_ it.index_ = some u) :
    p.ToReference it = some ⟨true, it.index_, u⟩ ∧
      p.IsValid ⟨true, it.index_, u⟩ = some true := by
  refine ⟨?_, (IsValid_true_iff _ _).mpr ⟨rfl, hu⟩⟩
  unfold VectorPool.ToReference VectorPool.makeReference
  rw [GetElement_eq]
  unfold uid at hu
  cases hg : p.elements_[it.index_]? with
  | none => rw [hg] at hu; simp at hu
  | some e =>
    rw [hg] at hu
    simp only [Option.some.injEq] at hu
    simp [hu]

/-- C2, amended. In every reachable pool state, for every reference to the
pool with an index in range, `IsValid()` returns, and returns true exactly when
the slot's id equals the captured id. A reference returned by `GetNewElement`
has captured a valid (non-zero) id. With `used` the chain of slots that
iteration visits and `free` the chain of free slots: `ToReference` from a cursor
at a used slot yields a reference with a valid (non-zero) captured id, which
`IsValid()` reports valid; `ToReference` from a cursor at a sentinel (such as
`end()`) or at a free slot yields a reference with captured id `kInvalidId`,
and `IsValid()` reports that reference valid too. -/
theorem C2_isValid_iff_id_matches [DefaultInit T] (ops : List Op) (s : Client T)
    (r : VectorPoolReference) (hrun : Client.run ops = some s)
    (hidx : r.index_ < s.pool.Size) (hc : r.container_ = true) :
    s.pool.IsValid r = some (decide (uid s.pool.elements_ r.index_ = some r.unique_id_)) ∧
    (r ∈ s.issued → r.unique_id_ ≠ kInvalidId) ∧
    ∃ used free,
      Seg (nxt s.pool.elements_) (prv s.pool.elements_) kFirstUsed used kLastUsed ∧
      Seg (nxt s.pool.elements_) (prv s.pool.elements_) kFirstFree free kLastFree ∧
      s.pool.iterate = some used ∧
      (∀ it : Iterator, it.index_ ∈ used →
        ∃ u, u ≠ kInvalidId ∧ s.pool.ToReference it = some ⟨true, it.index_, u⟩ ∧
          s.pool.IsValid ⟨true, it.index_, u⟩ = some true) ∧
      (∀ it : Iterator, it.index_ < kTotalReserved ∨ it.index_ ∈ free →
        s.pool.ToReference it = some ⟨true, it.index_, kInvalidId⟩ ∧
          s.pool.IsValid ⟨true, it.index_, kInvalidId⟩ = some true) := by
  obtain ⟨used, free, h⟩ := Client.run_inv ops s hrun
  refine ⟨?_, fun hr => (h.issued_ok r hr).2, used, free, h.wf.chains.used_chain,
    h.wf.chains.free_chain, h.wf.iterate_eq, ?_, ?_⟩
  · rw [IsValid_eq, if_pos hc]
    obtain ⟨u, hu⟩ := (uid_isSome_iff _ _).mpr hidx
    rw [hu]
    simp
  · intro it hit
    obtain ⟨u, hu1, hu2⟩ := h.wf.used_id _ hit
    exact ⟨u, hu2, ToReference_of_uid _ it u hu1⟩
  · intro it hit
    apply ToReference_of_uid
    rcases hit with hit | hit
    · exact h.wf.sentinel_id _ hit
    · exact h.wf.free_id _ hit

theorem C2_isValid_iff_id_matches_witness :
    Client.run [.alloc, .alloc, .alloc, .free 1, .reserve 9, .alloc] = some exampleReserved ∧
    (⟨true, 8, 4⟩ : VectorPoolReference) ∈ exampleReserved.issued ∧
    exampleReserved.pool.IsValid ⟨true, 8, 4⟩ =
      some (decide (uid exampleReserved.pool.elements_ 8 = some 4)) ∧
    ((⟨true, 8, 4⟩ : VectorPoolReference) ∈ exampleReserved.issued →
      (4 : Nat) ≠ kInvalidId) ∧
    ∃ used free,
      Seg (nxt exampleReserved.pool.elements_) (prv exampleReserved.pool.elements_)
        kFirstUsed used kLastUsed ∧
      Seg (nxt exampleReserved.pool.elements_) (prv exampleReserved.pool.elements_)
        kFirstFree free kLastFree ∧
      exampleReserved.pool.iterate = some used ∧
      (∀ it : Iterator, it.index_ ∈ used →
        ∃ u, u ≠ kInvalidId ∧
          exampleReserved.pool.ToReference it = some ⟨true, it.index_, u⟩ ∧
          exampleReserved.pool.IsValid ⟨true, it.index_, u⟩ = some true) ∧
      (∀ it : Iterator, it.index_ < kTotalReserved ∨ it.index_ ∈ free →
        exampleReserved.pool.ToReference it = some ⟨true, it.index_, kInvalidId⟩ ∧
          exampleReserved.pool.IsValid ⟨true, it.index_, kInvalidId⟩ = some true) :=
  ⟨by decide, by decide,
    C2_isValid_iff_id_matches [.alloc, .alloc, .alloc, .free 1, .reserve 9, .alloc]
      exampleReserved ⟨true, 8, 4⟩ (by decide) (by decide) rfl⟩

/-- C3. A reference returned by `GetNewElement` that `IsValid()` reports
invalid stays invalid over every later sequence of `GetNewElement`,
`FreeElement(VectorPoolReference)` and `Reserve` calls, as long as the pool has
handed out at most `2 ^ 32 - 1` elements in total. On a pool that was never
cleared every such sequence runs to its end. -/
theorem C3_stale_stays_stale [DefaultInit T] (ops1 ops2 : List Op) (s1 s2 : Client T)
    (r : VectorPoolReference) (h1 : Client.run ops1 = some s1) (hr : r ∈ s1.issued)
    (hstale : s1.pool.IsValid r = some false) (hnc : Op.clear ∉ ops2)
    (h2 : s1.runFrom ops2 = some s2) (hcount : s2.issued.length ≤ 2 ^ 32 - 1) :
    s2.pool.IsValid r = some false ∧
    (Op.clear ∉ ops1 → ∀ ops, Op.clear ∉ ops → ∃ s3, s1.runFrom ops = some s3) := by
  obtain ⟨used, free, h⟩ := Client.run_inv ops1 s1 h1
  refine ⟨Client.runFrom_keeps_invalid r ops2 s1 s2 used free h hr hstale hnc h2 hcount, ?_⟩
  intro hnc1 ops hnc2
  obtain ⟨p, hp, hinv⟩ := Client.new_inv (T := T)
  unfold Client.run at h1
  rw [hp] at h1
  obtain ⟨s1a, hs1a, hr1⟩ := Client.runFrom_total ops1 ⟨p, []⟩ [] [] hinv
    (by intro r hr; simp at hr) hnc1
  have h1a : Client.runFrom ⟨p, []⟩ ops1 = some s1 := h1
  rw [h1a] at hs1a
  cases hs1a
  obtain ⟨s3, hs3, _⟩ := Client.runFrom_total ops s1 used free h hr1 hnc2
  exact ⟨s3, hs3⟩

theorem C3_stale_stays_stale_witness :
    Client.run [.alloc, .alloc, .alloc, .free 1] = some exampleFreed ∧
    exampleFreed.pool.IsValid ⟨true, 5, 2⟩ = some false ∧
    exampleFreed.runFrom [.alloc] = some exampleReused ∧
    (exampleReused.pool.IsValid ⟨true, 5, 2⟩ = some false ∧
      (Op.clear ∉ [Op.alloc, .alloc, .alloc, .free 1] → ∀ ops, Op.clear ∉ ops →
        ∃ s3, exampleFreed.runFrom ops = some s3)) :=
  ⟨by decide, by decide, by decide,
    C3_stale_stays_stale [.alloc, .alloc, .alloc, .free 1] [.alloc] exampleFreed
      exampleReused ⟨true, 5, 2⟩ (by decide) (by decide) (by decide) (by decide) (by decide)
      (by decide)⟩

/-- C4. `GetNewElement` on a well-formed pool succeeds. When the free chain is
not empty the slot handed out is its first slot and `Size()` is unchanged;
otherwise the slot is the old `Size()` and `Size()` grows by one. In both cases
the slot becomes the first of the used chain, where `begin()` points, its id is
valid, `active_count()` grows by one, and the reference returned has captured
that id and is valid. -/
theorem C4_allocate_postcondition [DefaultInit T] (p : VectorPool T) (used free : List Nat)
    (hwf : WellFormed p used free) (hsz : p.Size < 2 ^ 64) :
    ∃ p1 r, p.GetNewElement = some (p1, r) ∧
      (∀ f fs, free = f :: fs →
        nxt p.elements_ kFirstFree = some f ∧ r.index_ = f ∧ p1.Size = p.Size) ∧
      (free = [] → r.index_ = p.Size ∧ p1.Size = p.Size + 1) ∧
      WellFormed p1 (r.index_ :: used) free.tail ∧
      p1.begin = some ⟨r.index_⟩ ∧
      uid p1.elements_ r.index_ = some r.unique_id_ ∧ r.unique_id_ ≠ kInvalidId ∧
      p1.active_count = p.active_count + 1 ∧
      p1.IsValid r = some true := by
  obtain ⟨p1, h1, hwf1, hsz1, hal⟩ := GetNewElement_spec p used free hwf
  have hu : uid p1.elements_ (free.headD p.Size) = some p.next_unique_id_ := by
    rw [hal.uid_eq, if_pos rfl]
  refine ⟨p1, _, h1, ?_, ?_, hwf1, ?_, hu, hwf.next_id.1, ?_, ?_⟩
  · intro f fs hf
    subst hf
    exact ⟨hwf.chains.free_chain.1, rfl, by simpa using hsz1⟩
  · intro hf
    subst hf
    exact ⟨rfl, by simpa using hsz1⟩
  · rw [hwf1.begin_eq]
    rfl
  · have hlen := hwf.length_used_le
    show p1.active_count_ = p.active_count_ + 1
    rw [hal.count_eq, hwf.count]
    simp only [kTotalReserved] at hlen
    omega
  · rw [IsValid_true_iff]
    exact ⟨rfl, hu⟩

theorem C4_allocate_postcondition_witness :
    ∃ p1 r, exampleFreed.pool.GetNewElement = some (p1, r) ∧
      (∀ f fs, [5] = f :: fs →
        nxt exampleFreed.pool.elements_ kFirstFree = some f ∧ r.index_ = f ∧
          p1.Size = exampleFreed.pool.Size) ∧
      (([5] : List Nat) = [] → r.index_ = exampleFreed.pool.Size ∧
        p1.Size = exampleFreed.pool.Size + 1) ∧
      WellFormed p1 (r.index_ :: [6, 4]) ([5] : List Nat).tail ∧
      p1.begin = some ⟨r.index_⟩ ∧
      uid p1.elements_ r.index_ = some r.unique_id_ ∧ r.unique_id_ ≠ kInvalidId ∧
      p1.active_count = exampleFreed.pool.active_count + 1 ∧
      p1.IsValid r = some true :=
  C4_allocate_postcondition exampleFreed.pool [6, 4] [5] exampleFreed_wellFormed (by decide)

/-- C5. Freeing a valid reference returned by `GetNewElement` (its captured id
is a valid one) on a well-formed pool succeeds: the slot leaves the used chain,
becomes the first slot of the free chain, gets the invalid id; the other slots
keep their order in both chains; `active_count()` drops by one, `Size()` stays,
and the reference is no longer valid. -/
theorem C5_free_postcondition (p : VectorPool T) (used free : List Nat)
    (hwf : WellFormed p used free) (hsz : p.Size < 2 ^ 64) (r : VectorPoolReference)
    (hid : r.unique_id_ ≠ kInvalidId) (hv : p.IsValid r = some true) :
    ∃ p1, p.FreeElementRef r = some p1 ∧
      r.index_ ∈ used ∧
      WellFormed p1 (used.erase r.index_) (r.index_ :: free) ∧
      r.index_ ∉ used.erase r.index_ ∧
      p1.iterate = some (used.erase r.index_) ∧
      nxt p1.elements_ kFirstFree = some r.index_ ∧
      uid p1.elements_ r.index_ = some kInvalidId ∧
      p1.active_count + 1 = p.active_count ∧
      p1.Size = p.Size ∧
      p1.IsValid r = some false := by
  have hmem := hwf.mem_used_of_valid hid hv
  obtain ⟨p1, h1, hwf1, hsz1, hfd⟩ := FreeElement_spec p used free hwf _ hmem
  have hnd : used.Nodup := (List.nodup_append.mp hwf.chains.nodup).1
  have hu : uid p1.elements_ r.index_ = some kInvalidId := by
    rw [hfd.uid_eq, if_pos rfl]
  refine ⟨p1, ?_, hmem, hwf1, ?_, hwf1.iterate_eq, hwf1.chains.free_chain.1, hu, ?_, hsz1, ?_⟩
  · rw [FreeElementRef_of_valid _ _ hv, h1]
  · exact fun hc => ((hnd.mem_erase_iff).mp hc).1 rfl
  · have hlen := hwf.length_used_le
    have hpos : 0 < used.length := List.length_pos_of_mem hmem
    show p1.active_count_ + 1 = p.active_count_
    rw [hfd.count_eq, hwf.count]
    simp only [kTotalReserved] at hlen
    omega
  · rw [IsValid_false_iff]
    exact Or.inr ⟨_, hu, fun hc => hid hc.symm⟩

theorem C5_free_postcondition_witness :
    ∃ p1, exampleFreed.pool.FreeElementRef ⟨true, 6, 3⟩ = some p1 ∧
      6 ∈ [6, 4] ∧
      WellFormed p1 ([6, 4].erase 6) (6 :: [5]) ∧
      6 ∉ [6, 4].erase 6 ∧
      p1.iterate = some ([6, 4].erase 6) ∧
      nxt p1.elements_ kFirstFree = some 6 ∧
      uid p1.elements_ 6 = some kInvalidId ∧
      p1.active_count + 1 = exampleFreed.pool.active_count ∧
      p1.Size = exampleFreed.pool.Size ∧
      p1.IsValid ⟨true, 6, 3⟩ = some false :=
  C5_free_postcondition exampleFreed.pool [6, 4] [5] exampleFreed_wellFormed (by decide)
    ⟨true, 6, 3⟩ (by decide) (by decide)

theorem FreeElement_uid (p p1 : VectorPool T) (i : Nat) (h : p.FreeElement i = some p1) :
    uid p1.elements_ i = some kInvalidId := by
  unfold VectorPool.FreeElement at h
  cases h1 : p.RemoveFromList i with
  | none => rw [h1] at h; simp at h
  | some q1 =>
    rw [h1] at h
    simp only [Option.bind_eq_bind, Option.some_bind] at h
    cases h2 : q1.AddToList i kFirstFree with
    | none => rw [h2] at h; simp at h
    | some q2 =>
      rw [h2] at h
      simp only [Option.some_bind] at h
      cases h3 : setUniqueId q2.elements_ i kInvalidId with
      | none => rw [h3] at h; simp at h
      | some els3 =>
        rw [h3] at h
        simp only [Option.some_bind, Option.pure_def, Option.some.injEq] at h
        subst h
        have hl : i < q2.elements_.length := by
          by_contra hc
          unfold setUniqueId at h3
          rw [List.getElem?_eq_none (by omega)] at h3
          simp at h3
        obtain ⟨els4, h4, w4⟩ := setUniqueId_written q2.elements_ i kInvalidId hl
        rw [h3] at h4
        cases h4
        show uid els3 i = _
        rw [w4.uid_eq, if_pos rfl]

/-- C6. `FreeElement(VectorPoolReference)` on a reference that `IsValid()`
reports invalid returns the pool unchanged, whatever the pool state; so does
freeing a default-constructed reference; and freeing a reference returned by
`GetNewElement` (its captured id is a valid one) a second time changes
nothing. -/
theorem C6_free_invalid_noop (p : VectorPool T) (r : VectorPoolReference) :
    (p.IsValid r = some false → p.FreeElementRef r = some p) ∧
    p.FreeElementRef VectorPoolReference.null = some p ∧
    (∀ p1, r.unique_id_ ≠ kInvalidId → p.FreeElementRef r = some p1 →
      p1.FreeElementRef r = some p1) := by
  refine ⟨FreeElementRef_of_invalid p r, FreeElementRef_of_invalid p _ rfl, ?_⟩
  intro p1 hid h1
  cases hv : p.IsValid r with
  | none =>
    unfold VectorPool.FreeElementRef at h1
    simp [hv] at h1
  | some b =>
    cases b with
    | false =>
      rw [FreeElementRef_of_invalid _ _ hv] at h1
      cases h1
      exact FreeElementRef_of_invalid _ _ hv
    | true =>
      rw [FreeElementRef_of_valid _ _ hv] at h1
      apply FreeElementRef_of_invalid
      rw [IsValid_false_iff]
      exact Or.inr ⟨_, FreeElement_uid p p1 _ h1, fun hc => hid hc.symm⟩

theorem C6_free_invalid_noop_witness :
    (exampleFreed.pool.IsValid ⟨true, 5, 2⟩ = some false →
      exampleFreed.pool.FreeElementRef ⟨true, 5, 2⟩ = some exampleFreed.pool) ∧
    exampleFreed.pool.FreeElementRef VectorPoolReference.null = some exampleFreed.pool ∧
    (∀ p1, (2 : Nat) ≠ kInvalidId → exampleFreed.pool.FreeElementRef ⟨true, 5, 2⟩ = some p1 →
      p1.FreeElementRef ⟨true, 5, 2⟩ = some p1) ∧
    exampleFreed.pool.IsValid ⟨true, 5, 2⟩ = some false ∧
    exampleFreed.pool.FreeElementRef ⟨true, 5, 2⟩ = some exampleFreed.pool :=
  ⟨(C6_free_invalid_noop exampleFreed.pool ⟨true, 5, 2⟩).1,
    (C6_free_invalid_noop exampleFreed.pool ⟨true, 5, 2⟩).2.1,
    (C6_free_invalid_noop exampleFreed.pool ⟨true, 5, 2⟩).2.2,
    by decide,
    (C6_free_invalid_noop exampleFreed.pool ⟨true, 5, 2⟩).1 (by decide)⟩

/-- C7, at the failing input: after `GetNewElement` and then `Clear` on a fresh
pool the storage has 4 slots and the reference returned has index 4, so
`GetElement` returns the null pointer; `IsValid()` dereferences it, and so does
`FreeElement(VectorPoolReference)` through `IsValid()`: neither returns. -/
theorem C7_isValid_after_clear_fails :
    Client.run [.alloc, .clear] = some exampleCleared ∧
    exampleCleared.issued = [⟨true, 4, 1⟩] ∧
    exampleCleared.pool.Size = 4 ∧
    exampleCleared.pool.GetElement 4 = none ∧
    exampleCleared.pool.IsValid ⟨true, 4, 1⟩ = none ∧
    exampleCleared.pool.FreeElementRef ⟨true, 4, 1⟩ = none ∧
    exampleCleared.step (.free 0) = none := by
  decide

/-- One `GetNewElement` keeps a valid reference valid, on unchanged data,
when the reference has captured a valid id or is not at the slot handed out. -/
theorem GetNewElement_keeps_valid [DefaultInit T] {p p1 : VectorPool T} {used free : List Nat}
    (hwf : WellFormed p used free)
    (hwf1 : WellFormed p1 (free.headD p.Size :: used) free.tail)
    (hal : Allocated p p1 (free.headD p.Size)) (r0 : VectorPoolReference)
    (hid : r0.unique_id_ ≠ kInvalidId ∨ r0.index_ ≠ free.headD p.Size)
    (hv : p.IsValid r0 = some true) :
    p1.IsValid r0 = some true ∧ dat p1.elements_ r0.index_ = dat p.elements_ r0.index_ := by
  have hne : r0.index_ ≠ free.headD p.Size := by
    rcases hid with hid | hid
    · have hmem := hwf.mem_used_of_valid hid hv
      intro hc
      have := hwf1.chains.nodup
      rw [List.cons_append] at this
      exact (List.nodup_cons.mp this).1 (List.mem_append_left _ (hc ▸ hmem))
    · exact hid
  obtain ⟨hc, hu⟩ := (IsValid_true_iff _ _).mp hv
  refine ⟨?_, ?_⟩
  · rw [IsValid_true_iff, hal.uid_eq, if_neg hne]
    exact ⟨hc, hu⟩
  · rw [hal.dat_eq, if_neg hne]

theorem allocMany_keeps_valid [DefaultInit T] (n : Nat) :
    ∀ (p : VectorPool T) (used free : List Nat), WellFormed p used free →
      ∃ pn, allocMany n p = some pn ∧
        ∀ r0 : VectorPoolReference, r0.unique_id_ ≠ kInvalidId → p.IsValid r0 = some true →
          pn.IsValid r0 = some true ∧
            dat pn.elements_ r0.index_ = dat p.elements_ r0.index_ := by
  induction n with
  | zero =>
    intro p used free _
    exact ⟨p, rfl, fun r0 _ hv => ⟨hv, rfl⟩⟩
  | succ n ih =>
    intro p used free hwf
    obtain ⟨p1, h1, hwf1, _, hal⟩ := GetNewElement_spec p used free hwf
    obtain ⟨pn, hn, hkeep⟩ := ih p1 _ _ hwf1
    refine ⟨pn, by simp only [allocMany, h1, hn], ?_⟩
    intro r0 hid hv
    obtain ⟨hv1, hd1⟩ := GetNewElement_keeps_valid hwf hwf1 hal r0 (Or.inl hid) hv
    obtain ⟨hv2, hd2⟩ := hkeep r0 hid hv1
    exact ⟨hv2, by rw [hd2, hd1]⟩

/-- C8. `GetNewElement` on a well-formed pool leaves the id and the data of
every slot other than the one it hands out as they were, also when the storage
grows; so every reference that was valid, and has captured a valid id or is at
another slot than the one handed out, stays valid and refers to unchanged data;
and after any number of further calls every reference that was valid with a
valid captured id is still valid on unchanged data. -/
theorem C8_allocate_frame [DefaultInit T] (p : VectorPool T) (used free : List Nat)
    (hwf : WellFormed p used free) :
    (∃ p1 r, p.GetNewElement = some (p1, r) ∧
      (∀ j, j ≠ r.index_ →
        uid p1.elements_ j = uid p.elements_ j ∧ dat p1.elements_ j = dat p.elements_ j) ∧
      (∀ r0 : VectorPoolReference,
        r0.unique_id_ ≠ kInvalidId ∨ r0.index_ ≠ r.index_ → p.IsValid r0 = some true →
        p1.IsValid r0 = some true ∧
          dat p1.elements_ r0.index_ = dat p.elements_ r0.index_)) ∧
    (∀ n, ∃ pn, allocMany n p = some pn ∧
      ∀ r0 : VectorPoolReference, r0.unique_id_ ≠ kInvalidId → p.IsValid r0 = some true →
        pn.IsValid r0 = some true ∧
          dat pn.elements_ r0.index_ = dat p.elements_ r0.index_) := by
  refine ⟨?_, fun n => allocMany_keeps_valid n p used free hwf⟩
  obtain ⟨p1, h1, hwf1, _, hal⟩ := GetNewElement_spec p used free hwf
  refine ⟨p1, _, h1, ?_, GetNewElement_keeps_valid hwf hwf1 hal⟩
  intro j hj
  exact ⟨by rw [hal.uid_eq, if_neg hj], by rw [hal.dat_eq, if_neg hj]⟩

theorem C8_allocate_frame_witness :
    (∃ p1 r, exampleFreed.pool.GetNewElement = some (p1, r) ∧
      (∀ j, j ≠ r.index_ →
        uid p1.elements_ j = uid exampleFreed.pool.elements_ j ∧
          dat p1.elements_ j = dat exampleFreed.pool.elements_ j) ∧
      (∀ r0 : VectorPoolReference,
        r0.unique_id_ ≠ kInvalidId ∨ r0.index_ ≠ r.index_ →
        exampleFreed.pool.IsValid r0 = some true →
        p1.IsValid r0 = some true ∧
          dat p1.elements_ r0.index_ = dat exampleFreed.pool.elements_ r0.index_)) ∧
    (∀ n, ∃ pn, allocMany n exampleFreed.pool = some pn ∧
      ∀ r0 : VectorPoolReference, r0.unique_id_ ≠ kInvalidId →
        exampleFreed.pool.IsValid r0 = some true →
        pn.IsValid r0 = some true ∧
          dat pn.elements_ r0.index_ = dat exampleFreed.pool.elements_ r0.index_) :=
  C8_allocate_frame exampleFreed.pool [6, 4] [5] exampleFreed_wellFormed

/-- C9. A sequence of `GetNewElement`, `FreeElement(VectorPoolReference)` and
`Reserve` calls on a fresh pool runs to its end. After every sequence of client
calls on a fresh pool, iterating from `begin()` with `++` until `end()`
terminates and visits each slot at most once; the slots visited are exactly
those to which some reference handed out is still valid; they come in the order
of their latest allocation, newest first; their number is `active_count()`, and
`begin() == end()` exactly when `active_count()` is 0 (the size of the storage
being a `size_t`). -/
theorem C9_iteration_newest_first [DefaultInit T] (ops : List Op) :
    (Op.clear ∉ ops → ∃ s : Client T, Client.run ops = some s) ∧
    ∀ s : Client T, Client.run ops = some s →
      ∃ l, s.pool.iterate = some l ∧ l.Nodup ∧
        (∀ i, i ∈ l ↔ ∃ r ∈ s.issued, r.index_ = i ∧ s.pool.IsValid r = some true) ∧
        l.Pairwise (fun a b => lastAlloc s.issued b < lastAlloc s.issued a) ∧
        (s.pool.Size < 2 ^ 64 →
          l.length = s.pool.active_count ∧
            (s.pool.begin = some s.pool.end_ ↔ s.pool.active_count = 0)) := by
  constructor
  · intro hnc
    obtain ⟨p, hp, hinv⟩ := Client.new_inv (T := T)
    obtain ⟨s, hs, _⟩ := Client.runFrom_total ops ⟨p, []⟩ [] [] hinv
      (by intro r hr; simp at hr) hnc
    exact ⟨s, by unfold Client.run; rw [hp]; exact hs⟩
  intro s hrun
  obtain ⟨used, free, h⟩ := Client.run_inv ops s hrun
  refine ⟨used, h.wf.iterate_eq, (List.nodup_append.mp h.wf.chains.nodup).1, ?_, h.order, ?_⟩
  · intro i
    constructor
    · intro hi
      obtain ⟨r, hr, hri, hru⟩ := h.used_issued i hi
      refine ⟨r, hr, hri, ?_⟩
      rw [IsValid_true_iff, hri]
      exact ⟨(h.issued_ok r hr).1, hru⟩
    · rintro ⟨r, hr, rfl, hv⟩
      exact h.wf.mem_used_of_valid (h.issued_ok r hr).2 hv
  · intro hsz
    have hcount := h.wf.active_count_eq hsz
    refine ⟨hcount.symm, ?_⟩
    rw [h.wf.begin_eq, hcount]
    cases used with
    | nil => simp [VectorPool.end_]
    | cons x xs =>
      have hx := h.wf.chains.not_reserved x (by simp)
      simp only [List.cons_append, List.headD_cons, VectorPool.end_, Option.some.injEq,
        Iterator.mk.injEq, List.length_cons]
      simp only [kTotalReserved, kLastUsed] at *
      omega

theorem C9_iteration_newest_first_witness :
    Client.run [.alloc, .alloc, .alloc, .free 1, .alloc] = some exampleReused ∧
    exampleReused.pool.iterate = some [5, 6, 4] ∧
    ∃ l, exampleReused.pool.iterate = some l ∧ l.Nodup ∧
      (∀ i, i ∈ l ↔ ∃ r ∈ exampleReused.issued, r.index_ = i ∧
        exampleReused.pool.IsValid r = some true) ∧
      l.Pairwise (fun a b => lastAlloc exampleReused.issued b <
        lastAlloc exampleReused.issued a) ∧
      (exampleReused.pool.Size < 2 ^ 64 →
        l.length = exampleReused.pool.active_count ∧
          (exampleReused.pool.begin = some exampleReused.pool.end_ ↔
            exampleReused.pool.active_count = 0)) :=
  ⟨by decide, by decide,
    (C9_iteration_newest_first [.alloc, .alloc, .alloc, .free 1, .alloc]).2 exampleReused
      (by decide)⟩

theorem seg_next_split {nx pv : Nat → Option Nat} {a b i : Nat} (pre post : List Nat) :
    Seg nx pv a (pre ++ i :: post) b → nx i = some ((post ++ [b]).headD b) := by
  induction pre generalizing a with
  | nil =>
    intro h
    exact seg_head h.2.2
  | cons x xs ih =>
    intro h
    exact ih h.2.2

/-- `FreeElement(Iterator)` at a used slot of a well-formed pool. -/
theorem FreeElementIter_spec (p : VectorPool T) (pre post free : List Nat) (i : Nat)
    (hwf : WellFormed p (pre ++ i :: post) free) :
    ∃ p1, p.FreeElementIter ⟨i⟩ = some (p1, ⟨(post ++ [kLastUsed]).headD kLastUsed⟩) ∧
      WellFormed p1 (pre ++ post) (i :: free) ∧ p1.Size = p.Size ∧ Freed p p1 i := by
  have hmem : i ∈ pre ++ i :: post := by simp
  obtain ⟨p1, h1, hwf1, hsz1, hfd⟩ := FreeElement_spec p _ free hwf i hmem
  have hnd : (pre ++ i :: post).Nodup := (List.nodup_append.mp hwf.chains.nodup).1
  have hipre : i ∉ pre := by
    intro hc
    have := (List.nodup_append.mp hnd).2.2
    exact this hc (by simp)
  have herase : (pre ++ i :: post).erase i = pre ++ post := by
    rw [List.erase_append_right _ hipre, List.erase_cons_head]
  rw [herase] at hwf1
  obtain ⟨e, he, hen⟩ := getElem?_of_nxt (seg_next_split pre post hwf.chains.used_chain)
  refine ⟨p1, ?_, hwf1, hsz1, hfd⟩
  unfold VectorPool.FreeElementIter VectorPool.next
  simp only [he, hen, Option.bind_eq_bind, Option.some_bind, h1, Option.pure_def]

theorem freeLoop_spec (used : List Nat) :
    ∀ (p : VectorPool T) (free : List Nat), WellFormed p used free →
      ∃ p2, (∀ fuel, used.length < fuel →
          freeLoop p fuel ⟨(used ++ [kLastUsed]).headD kLastUsed⟩ = some (p2, used)) ∧
        WellFormed p2 [] (used.reverse ++ free) ∧ p2.Size = p.Size := by
  induction used with
  | nil =>
    intro p free hwf
    refine ⟨p, ?_, by simpa using hwf, rfl⟩
    intro fuel hf
    cases fuel with
    | zero => omega
    | succ fuel => simp [freeLoop, VectorPool.end_]
  | cons i us ih =>
    intro p free hwf
    obtain ⟨p1, h1, hwf1, hsz1, _⟩ := FreeElementIter_spec p [] us free i hwf
    simp only [List.nil_append] at hwf1
    obtain ⟨p2, h2, hwf2, hsz2⟩ := ih p1 (i :: free) hwf1
    have hi4 := hwf.chains.not_reserved i (by simp)
    have hne : ¬ ((⟨i⟩ : Iterator) = p.end_) := by
      simp only [VectorPool.end_, Iterator.mk.injEq, kLastUsed, kTotalReserved] at *
      omega
    refine ⟨p2, ?_, by simpa using hwf2, by rw [hsz2, hsz1]⟩
    intro fuel hf
    cases fuel with
    | zero => omega
    | succ fuel =>
      have h3 := h2 fuel (by simp only [List.length_cons] at hf; omega)
      simp only [List.cons_append, List.headD_cons]
      unfold freeLoop
      rw [if_neg hne]
      simp only [h1, h3]

/-- C10. On a well-formed pool, `FreeElement(Iterator)` at a used slot `i`
frees it and returns the cursor at the slot that followed `i` in the used
chain, or `end()` when `i` was last; the used chain afterwards, which is what
iteration visits, is the old one without `i`. The loop that frees from
`begin()` until `end()` stops after freeing each used slot once, in the order
of the used chain, that is after `active_count()` steps, and leaves
`active_count() == 0` and `begin() == end()`. -/
theorem C10_free_while_iterating (p : VectorPool T) (used free : List Nat)
    (hwf : WellFormed p used free) (hsz : p.Size < 2 ^ 64) :
    (∀ pre i post, used = pre ++ i :: post →
      ∃ p1, p.FreeElementIter ⟨i⟩ =
          some (p1, ⟨(post ++ [kLastUsed]).headD kLastUsed⟩) ∧
        WellFormed p1 (pre ++ post) (i :: free) ∧
        p1.iterate = some (pre ++ post) ∧
        uid p1.elements_ i = some kInvalidId ∧
        p1.active_count + 1 = p.active_count) ∧
    (∃ p2, freeAll p = some (p2, used) ∧
      (∀ fuel, used.length < fuel →
        freeLoop p fuel ⟨(used ++ [kLastUsed]).headD kLastUsed⟩ = some (p2, used)) ∧
      used.Nodup ∧ used.length = p.active_count ∧
      p.iterate = some used ∧
      p2.active_count = 0 ∧ p2.begin = some p2.end_ ∧ p2.iterate = some []) := by
  have hlen := hwf.length_used_le
  have hcount := hwf.active_count_eq hsz
  constructor
  · intro pre i post hu
    subst hu
    obtain ⟨p1, h1, hwf1, hsz1, hfd⟩ := FreeElementIter_spec p pre post free i hwf
    refine ⟨p1, h1, hwf1, hwf1.iterate_eq, by rw [hfd.uid_eq, if_pos rfl], ?_⟩
    rw [hwf1.active_count_eq (by rw [hsz1]; exact hsz), hcount]
    simp only [List.length_append, List.length_cons]
    omega
  · obtain ⟨p2, h2, hwf2, hsz2⟩ := freeLoop_spec used p free hwf
    refine ⟨p2, ?_, h2, (List.nodup_append.mp hwf.chains.nodup).1, hcount.symm,
      hwf.iterate_eq, ?_, ?_, hwf2.iterate_eq⟩
    · unfold freeAll
      rw [hwf.begin_eq]
      exact h2 _ (by omega)
    · rw [hwf2.active_count_eq (by rw [hsz2]; exact hsz)]
      rfl
    · rw [hwf2.begin_eq]
      rfl

theorem C10_free_while_iterating_witness :
    (∀ pre i post, [6, 4] = pre ++ i :: post →
      ∃ p1, exampleFreed.pool.FreeElementIter ⟨i⟩ =
          some (p1, ⟨(post ++ [kLastUsed]).headD kLastUsed⟩) ∧
        WellFormed p1 (pre ++ post) (i :: [5]) ∧
        p1.iterate = some (pre ++ post) ∧
        uid p1.elements_ i = some kInvalidId ∧
        p1.active_count + 1 = exampleFreed.pool.active_count) ∧
    (∃ p2, freeAll exampleFreed.pool = some (p2, [6, 4]) ∧
      (∀ fuel, [6, 4].length < fuel →
        freeLoop exampleFreed.pool fuel ⟨([6, 4] ++ [kLastUsed]).headD kLastUsed⟩ =
          some (p2, [6, 4])) ∧
      [6, 4].Nodup ∧ [6, 4].length = exampleFreed.pool.active_count ∧
      exampleFreed.pool.iterate = some [6, 4] ∧
      p2.active_count = 0 ∧ p2.begin = some p2.end_ ∧ p2.iterate = some []) :=
  C10_free_while_iterating exampleFreed.pool [6, 4] [5] exampleFreed_wellFormed (by decide)

/-- Freeing a valid reference with a valid captured id, on a well-formed
pool. -/
theorem FreeElementRef_spec (p : VectorPool T) (used free : List Nat)
    (hwf : WellFormed p used free) (r : VectorPoolReference)
    (hid : r.unique_id_ ≠ kInvalidId) (hv : p.IsValid r = some true) :
    ∃ p1, p.FreeElementRef r = some p1 ∧ r.index_ ∈ used ∧
      WellFormed p1 (used.erase r.index_) (r.index_ :: free) ∧
      p1.Size = p.Size ∧ Freed p p1 r.index_ := by
  have hmem := hwf.mem_used_of_valid hid hv
  obtain ⟨p1, h1, hwf1, hsz1, hfd⟩ := FreeElement_spec p used free hwf _ hmem
  exact ⟨p1, by rw [FreeElementRef_of_valid _ _ hv, h1], hmem, hwf1, hsz1, hfd⟩

/-- C11. On a well-formed pool, for two distinct valid references `a` and `b`
returned by `GetNewElement` (their captured ids are valid ones), after
`FreeElement(a)` and then `FreeElement(b)` the next `GetNewElement` hands out
the slot of `b` and the one after it the slot of `a`, and `Size()` stays what
it was. -/
theorem C11_free_list_lifo [DefaultInit T] (p : VectorPool T) (used free : List Nat)
    (hwf : WellFormed p used free) (a b : VectorPoolReference)
    (ha : a.unique_id_ ≠ kInvalidId) (hb : b.unique_id_ ≠ kInvalidId)
    (hva : p.IsValid a = some true) (hvb : p.IsValid b = some true) (hab : a ≠ b) :
    a.index_ ≠ b.index_ ∧
    ∃ p1 p2 p3 p4 r3 r4,
      p.FreeElementRef a = some p1 ∧ p1.FreeElementRef b = some p2 ∧
      WellFormed p2 ((used.erase a.index_).erase b.index_)
        (b.index_ :: a.index_ :: free) ∧
      p2.GetNewElement = some (p3, r3) ∧ r3.index_ = b.index_ ∧ p3.Size = p.Size ∧
      p3.GetNewElement = some (p4, r4) ∧ r4.index_ = a.index_ ∧ p4.Size = p.Size ∧
      WellFormed p4 (a.index_ :: b.index_ :: (used.erase a.index_).erase b.index_) free := by
  obtain ⟨hca, hua⟩ := (IsValid_true_iff _ _).mp hva
  obtain ⟨hcb, hub⟩ := (IsValid_true_iff _ _).mp hvb
  have hne : a.index_ ≠ b.index_ := by
    intro hc
    apply hab
    rw [hc, hub] at hua
    have hid := Option.some.inj hua
    cases a
    cases b
    simp only [VectorPoolReference.mk.injEq]
    simp only at hc hid hca hcb
    exact ⟨by rw [hca, hcb], hc, hid.symm⟩
  refine ⟨hne, ?_⟩
  obtain ⟨p1, h1, _, hwf1, hsz1, hfd1⟩ := FreeElementRef_spec p used free hwf a ha hva
  have hvb1 : p1.IsValid b = some true := by
    rw [IsValid_true_iff, hfd1.uid_eq, if_neg (Ne.symm hne)]
    exact ⟨hcb, hub⟩
  obtain ⟨p2, h2, _, hwf2, hsz2, _⟩ := FreeElementRef_spec p1 _ _ hwf1 b hb hvb1
  obtain ⟨p3, h3, hwf3, hsz3, _⟩ := GetNewElement_spec p2 _ _ hwf2
  obtain ⟨p4, h4, hwf4, hsz4, _⟩ := GetNewElement_spec p3 _ _ hwf3
  simp only [List.headD_cons, List.tail_cons] at h3 hwf3 hsz3 h4 hwf4 hsz4
  refine ⟨p1, p2, p3, p4, _, _, h1, h2, hwf2, h3, rfl, ?_, h4, rfl, ?_, hwf4⟩
  · rw [hsz3, if_neg (by simp), hsz2, hsz1]
  · rw [hsz4, if_neg (by simp), hsz3, if_neg (by simp), hsz2, hsz1]

theorem C11_free_list_lifo_witness :
    (⟨true, 4, 1⟩ : VectorPoolReference).index_ ≠ (⟨true, 6, 3⟩ : VectorPoolReference).index_ ∧
    ∃ p1 p2 p3 p4 r3 r4,
      exampleFreed.pool.FreeElementRef ⟨true, 4, 1⟩ = some p1 ∧
      p1.FreeElementRef ⟨true, 6, 3⟩ = some p2 ∧
      WellFormed p2 (([6, 4].erase 4).erase 6) (6 :: 4 :: [5]) ∧
      p2.GetNewElement = some (p3, r3) ∧ r3.index_ = 6 ∧ p3.Size = exampleFreed.pool.Size ∧
      p3.GetNewElement = some (p4, r4) ∧ r4.index_ = 4 ∧ p4.Size = exampleFreed.pool.Size ∧
      WellFormed p4 (4 :: 6 :: ([6, 4].erase 4).erase 6) [5] :=
  C11_free_list_lifo exampleFreed.pool [6, 4] [5] exampleFreed_wellFormed
    ⟨true, 4, 1⟩ ⟨true, 6, 3⟩ (by decide) (by decide) (by decide) (by decide) (by decide)

/-- C12. In every pool state reached from a fresh pool by client calls, with
`used` and `free` the two chains, a slot carries the invalid id exactly when it
is a sentinel or on the free chain, and a valid id exactly when it is on the
used chain. -/
theorem C12_generation_membership [DefaultInit T] (ops : List Op) (s : Client T)
    (hrun : Client.run ops = some s) :
    ∃ used free : List Nat,
      Seg (nxt s.pool.elements_) (prv s.pool.elements_) kFirstUsed used kLastUsed ∧
      Seg (nxt s.pool.elements_) (prv s.pool.elements_) kFirstFree free kLastFree ∧
      ∀ i, i < s.pool.Size →
        (uid s.pool.elements_ i = some kInvalidId ↔ (i < kTotalReserved ∨ i ∈ free)) ∧
        ((∃ u, uid s.pool.elements_ i = some u ∧ u ≠ kInvalidId) ↔ i ∈ used) := by
  obtain ⟨used, free, h⟩ := Client.run_inv ops s hrun
  refine ⟨used, free, h.wf.chains.used_chain, h.wf.chains.free_chain, ?_⟩
  intro i hi
  have hdis := (List.nodup_append.mp h.wf.chains.nodup).2.2
  by_cases h4 : i < kTotalReserved
  · have hs := h.wf.sentinel_id i h4
    have hnu : i ∉ used := fun hc => by
      have := h.wf.chains.not_reserved i (List.mem_append_left _ hc)
      omega
    refine ⟨⟨fun _ => Or.inl h4, fun _ => hs⟩, ⟨?_, fun hc => absurd hc hnu⟩⟩
    rintro ⟨u, hu1, hu2⟩
    rw [hs] at hu1
    exact absurd (Option.some.inj hu1).symm hu2
  · have hmem := (h.wf.mem_iff i).mpr ⟨by omega, hi⟩
    rcases List.mem_append.mp hmem with hm | hm
    · obtain ⟨u, hu1, hu2⟩ := h.wf.used_id i hm
      have hnf : i ∉ free := fun hc => hdis hm hc
      refine ⟨⟨?_, ?_⟩, ⟨fun _ => hm, fun _ => ⟨u, hu1, hu2⟩⟩⟩
      · intro hc
        rw [hu1] at hc
        exact absurd (Option.some.inj hc) hu2
      · rintro (hc | hc)
        · exact absurd hc h4
        · exact absurd hc hnf
    · have hf := h.wf.free_id i hm
      have hnu : i ∉ used := fun hc => hdis hc hm
      refine ⟨⟨fun _ => Or.inr hm, fun _ => hf⟩, ⟨?_, fun hc => absurd hc hnu⟩⟩
      rintro ⟨u, hu1, hu2⟩
      rw [hf] at hu1
      exact absurd (Option.some.inj hu1).symm hu2

theorem C12_generation_membership_witness :
    Client.run [.alloc, .alloc, .alloc, .free 1, .reserve 9, .alloc] = some exampleReserved ∧
    ∃ used free : List Nat,
      Seg (nxt exampleReserved.pool.elements_) (prv exampleReserved.pool.elements_)
        kFirstUsed used kLastUsed ∧
      Seg (nxt exampleReserved.pool.elements_) (prv exampleReserved.pool.elements_)
        kFirstFree free kLastFree ∧
      ∀ i, i < exampleReserved.pool.Size →
        (uid exampleReserved.pool.elements_ i = some kInvalidId ↔
          (i < kTotalReserved ∨ i ∈ free)) ∧
        ((∃ u, uid exampleReserved.pool.elements_ i = some u ∧ u ≠ kInvalidId) ↔
          i ∈ used) :=
  ⟨by decide,
    C12_generation_membership [.alloc, .alloc, .alloc, .free 1, .reserve 9, .alloc]
      exampleReserved (by decide)⟩

theorem AllocateUniqueId_ne (p : VectorPool T) (hlt : p.next_unique_id_ < 2 ^ 32) :
    p.AllocateUniqueId.2.next_unique_id_ ≠ p.next_unique_id_ := by
  simp only [VectorPool.AllocateUniqueId, kInvalidId] at *
  split <;> omega

/-- C13. On a well-formed pool, `GetNewElement` followed by `FreeElement` of
the reference returned brings `active_count()` and the used chain back to what
they were; a second `GetNewElement` then hands out the same slot, its reference
is valid and the first reference is not. -/
theorem C13_allocate_free_round_trip [DefaultInit T] (p : VectorPool T)
    (used free : List Nat) (hwf : WellFormed p used free) :
    ∃ p1 h p2 p3 h2,
      p.GetNewElement = some (p1, h) ∧ p1.FreeElementRef h = some p2 ∧
      p2.active_count = p.active_count ∧
      p.iterate = some used ∧ p2.iterate = some used ∧
      WellFormed p2 used (h.index_ :: free.tail) ∧
      p2.GetNewElement = some (p3, h2) ∧ h2.index_ = h.index_ ∧
      h2.unique_id_ ≠ h.unique_id_ ∧
      p3.IsValid h = some false ∧ p3.IsValid h2 = some true := by
  obtain ⟨p1, h1, hwf1, _, hal1⟩ := GetNewElement_spec p used free hwf
  have hv1 : p1.IsValid ⟨true, free.headD p.Size, p.next_unique_id_⟩ = some true := by
    rw [IsValid_true_iff, hal1.uid_eq, if_pos rfl]
    exact ⟨rfl, rfl⟩
  obtain ⟨p2, h2, _, hwf2, _, hfd2⟩ := FreeElementRef_spec p1 _ _ hwf1 _ hwf.next_id.1 hv1
  simp only [List.erase_cons_head] at hwf2
  obtain ⟨p3, h3, hwf3, _, hal3⟩ := GetNewElement_spec p2 _ _ hwf2
  simp only [List.headD_cons, List.tail_cons] at h3 hwf3 hal3
  have hne : p2.next_unique_id_ ≠ p.next_unique_id_ := by
    rw [hfd2.next_id_eq, hal1.next_id_eq]
    exact AllocateUniqueId_ne p hwf.next_id.2
  have hu3 : uid p3.elements_ (free.headD p.Size) = some p2.next_unique_id_ := by
    rw [hal3.uid_eq, if_pos rfl]
  refine ⟨p1, _, p2, p3, _, h1, h2, ?_, hwf.iterate_eq, hwf2.iterate_eq, hwf2, h3, rfl, hne,
    ?_, ?_⟩
  · show p2.active_count_ = p.active_count_
    rw [hwf2.count, hwf.count]
  · rw [IsValid_false_iff]
    exact Or.inr ⟨_, hu3, hne⟩
  · rw [IsValid_true_iff]
    exact ⟨rfl, hu3⟩

theorem C13_allocate_free_round_trip_witness :
    ∃ p1 h p2 p3 h2,
      exampleFreed.pool.GetNewElement = some (p1, h) ∧ p1.FreeElementRef h = some p2 ∧
      p2.active_count = exampleFreed.pool.active_count ∧
      exampleFreed.pool.iterate = some [6, 4] ∧ p2.iterate = some [6, 4] ∧
      WellFormed p2 [6, 4] (h.index_ :: ([5] : List Nat).tail) ∧
      p2.GetNewElement = some (p3, h2) ∧ h2.index_ = h.index_ ∧
      h2.unique_id_ ≠ h.unique_id_ ∧
      p3.IsValid h = some false ∧ p3.IsValid h2 = some true :=
  C13_allocate_free_round_trip exampleFreed.pool [6, 4] [5] exampleFreed_wellFormed

/-- `GetNewElement` when the free chain is empty, on a pool of which only the
two chains are known to be in order. -/
theorem GetNewElement_of_chains [DefaultInit T] (p : VectorPool T) (used : List Nat)
    (hch : Chains (nxt p.elements_) (prv p.elements_) used [])
    (h4 : kTotalReserved ≤ p.Size) :
    ∃ p1, p.GetNewElement = some (p1, ⟨true, p.Size, p.next_unique_id_⟩) ∧
      Chains (nxt p1.elements_) (prv p1.elements_) (p.Size :: used) [] ∧
      p1.Size = p.Size + 1 ∧ Allocated p p1 p.Size := by
  obtain ⟨hf, _⟩ := hch.first_free
  obtain ⟨e, he, hen⟩ := getElem?_of_nxt hf
  simp only [List.nil_append, List.headD_cons] at hf hen
  have hi : p.Size ∉ used ++ ([] : List Nat) := by
    intro hc
    rw [List.append_nil] at hc
    obtain ⟨v, hv⟩ := seg_nx_some hch.used_chain (List.mem_cons_of_mem _ hc)
    have := (nxt_isSome_iff _ _).mp ⟨v, hv⟩
    simp only [VectorPool.Size] at this
    omega
  have w := views_push_back p.elements_ (VectorPoolElement.new : VectorPoolElement T)
  have hch1 : Chains
      (nxt (p.elements_ ++ [(VectorPoolElement.new : VectorPoolElement T)]))
      (prv (p.elements_ ++ [(VectorPoolElement.new : VectorPoolElement T)])) used [] := by
    apply hch.mono
    · intro j v hv
      have hj := (nxt_isSome_iff _ _).mp ⟨v, hv⟩
      rw [w.nxt_eq, if_neg (by omega), hv]
    · intro j v hv
      have hj := (prv_isSome_iff _ _).mp ⟨v, hv⟩
      rw [w.prv_eq, if_neg (by omega), hv]
  obtain ⟨p5, h5, hch5, hlen5, hal5⟩ := GetNewElement_tail
    (⟨p.elements_ ++ [VectorPoolElement.new], p.active_count_, p.next_unique_id_⟩ :
      VectorPool T) used [] p.Size hch1 h4 (by simp [VectorPool.Size]) hi
  have hlen5a : p5.elements_.length = p.elements_.length + 1 := by
    rw [hlen5]; simp
  refine ⟨p5, ?_, hch5, hlen5a, hal5.count_eq, hal5.next_id_eq, ?_, ?_⟩
  · unfold VectorPool.GetNewElement
    simp only [he, Option.bind_eq_bind, Option.some_bind, hen, kLastFree, ne_eq,
      not_true_eq_false, if_false, Option.pure_def]
    exact h5
  · intro j
    rw [hal5.uid_eq]
    simp only [VectorPool.Size]
    by_cases hj : j = p.elements_.length
    · simp [hj]
    · simp only [if_neg hj]
      rw [w.uid_eq, if_neg hj]
  · intro j
    rw [hal5.dat_eq]
    simp only [VectorPool.Size]
    by_cases hj : j = p.elements_.length
    · have hd1 : dat (p.elements_ ++ [(VectorPoolElement.new : VectorPoolElement T)])
          p.elements_.length = some default := by
        rw [w.dat_eq, if_pos rfl]; rfl
      have hd0 : dat p.elements_ p.elements_.length = none := by simp [dat]
      simp [hj, hd1, hd0]
    · simp only [if_neg hj]
      rw [w.dat_eq, if_neg hj]

/-- C14. On every pool state `Clear()` succeeds and leaves `Size()` at
`kTotalReserved`, `active_count()` at 0, and both chains empty, so that
`begin() == end()`; the next `GetNewElement` succeeds and returns a valid
reference to slot 4, which has captured a valid id when the id counter held
one. The constructor yields the state that `Clear()` yields on the empty
storage with the id counter at 1. -/
theorem C14_clear_resets [DefaultInit T] (p : VectorPool T) :
    ∃ p1, p.Clear = some p1 ∧
      p1.Size = kTotalReserved ∧ p1.active_count = 0 ∧
      nxt p1.elements_ kFirstUsed = some kLastUsed ∧
      prv p1.elements_ kLastUsed = some kFirstUsed ∧
      nxt p1.elements_ kFirstFree = some kLastFree ∧
      prv p1.elements_ kLastFree = some kFirstFree ∧
      p1.begin = some p1.end_ ∧ p1.iterate = some [] ∧
      (∃ p2 r, p1.GetNewElement = some (p2, r) ∧ r.index_ = 4 ∧
        p2.IsValid r = some true ∧ p2.Size = 5 ∧ p2.active_count = 1 ∧
        p2.iterate = some [4] ∧
        (p.next_unique_id_ ≠ kInvalidId → r.unique_id_ ≠ kInvalidId)) ∧
      (VectorPool.new : Option (VectorPool T)) =
        VectorPool.Clear ⟨[], 0, 1⟩ ∧
      (VectorPool.new : Option (VectorPool T)) =
        some ⟨[⟨default, 1, kOutOfBounds, 0⟩, ⟨default, kOutOfBounds, 0, 0⟩,
          ⟨default, 3, kOutOfBounds, 0⟩, ⟨default, kOutOfBounds, 2, 0⟩], 0, 1⟩ := by
  obtain ⟨p1, h1, hc⟩ := Clear_spec p
  have hch : Chains (nxt p1.elements_) (prv p1.elements_) [] [] :=
    ⟨⟨hc.used_next, hc.used_prev⟩, ⟨hc.free_next, hc.free_prev⟩, by simp, by simp⟩
  have hbegin : p1.begin = some p1.end_ := by
    obtain ⟨e, he, hen⟩ := getElem?_of_nxt hc.used_next
    unfold VectorPool.begin VectorPool.end_
    simp only [he, hen]
  have hiter : p1.iterate = some [] := by
    unfold VectorPool.iterate
    rw [hbegin]
    simp [VectorPool.collect]
  obtain ⟨p2, h2, hch2, hsz2, hal2⟩ := GetNewElement_of_chains p1 [] hch (by rw [hc.size_eq])
  rw [hc.size_eq] at h2 hch2 hsz2 hal2
  have hu2 : uid p2.elements_ kTotalReserved = some p1.next_unique_id_ := by
    rw [hal2.uid_eq, if_pos rfl]
  have hbegin2 : p2.begin = some ⟨kTotalReserved⟩ := by
    obtain ⟨e, he, hen⟩ := getElem?_of_nxt hch2.used_chain.1
    unfold VectorPool.begin
    simp only [he, hen]
  have hiter2 : p2.iterate = some [kTotalReserved] := by
    unfold VectorPool.iterate
    rw [hbegin2]
    have := collect_seg p2 [kTotalReserved] kFirstUsed (p2.Size + 1) hch2.used_chain
      (by intro j hj; simp only [List.mem_singleton] at hj; subst hj; decide)
      (by rw [hsz2]; simp [kTotalReserved])
    simpa using this
  refine ⟨p1, h1, hc.size_eq, hc.count_eq, hc.used_next, hc.used_prev, hc.free_next,
    hc.free_prev, hbegin, hiter, ⟨p2, _, h2, rfl, ?_, hsz2, ?_, hiter2, ?_⟩, rfl, rfl⟩
  · rw [IsValid_true_iff]
    exact ⟨rfl, hu2⟩
  · show p2.active_count_ = 1
    rw [hal2.count_eq, hc.count_eq]
    rfl
  · intro hne
    show p1.next_unique_id_ ≠ _
    rw [hc.next_id_eq]
    exact hne

theorem setNext_length {els els1 : List (VectorPoolElement T)} {i v : Nat}
    (h : setNext els i v = some els1) : els1.length = els.length := by
  unfold setNext at h
  cases hg : els[i]? with
  | none => rw [hg] at h; simp at h
  | some e =>
    rw [hg] at h
    simp only [Option.some.injEq] at h
    subst h
    simp

theorem setPrev_length {els els1 : List (VectorPoolElement T)} {i v : Nat}
    (h : setPrev els i v = some els1) : els1.length = els.length := by
  unfold setPrev at h
  cases hg : els[i]? with
  | none => rw [hg] at h; simp at h
  | some e =>
    rw [hg] at h
    simp only [Option.some.injEq] at h
    subst h
    simp

theorem setUniqueId_length {els els1 : List (VectorPoolElement T)} {i v : Nat}
    (h : setUniqueId els i v = some els1) : els1.length = els.length := by
  unfold setUniqueId at h
  cases hg : els[i]? with
  | none => rw [hg] at h; simp at h
  | some e =>
    rw [hg] at h
    simp only [Option.some.injEq] at h
    subst h
    simp

theorem AddToList_length {p p1 : VectorPool T} {i s : Nat}
    (h : p.AddToList i s = some p1) : p1.elements_.length = p.elements_.length := by
  unfold VectorPool.AddToList at h
  split at h
  · simp only [Option.bind_eq_bind, Option.bind_eq_some, Option.pure_def,
      Option.some.injEq] at h
    obtain ⟨_, _, els1, h1, els2, h2, _, _, els3, h3, els4, h4, rfl⟩ := h
    show els4.length = _
    rw [setNext_length h4, setNext_length h3, setPrev_length h2, setPrev_length h1]
  · simp at h

theorem ReserveLoop_length (k : Nat) :
    ∀ (p p1 : VectorPool T) (m : Nat), VectorPool.ReserveLoop p m k = some p1 →
      p1.elements_.length = p.elements_.length := by
  induction k with
  | zero =>
    intro p p1 m h
    simp only [VectorPool.ReserveLoop, Option.some.injEq] at h
    rw [h]
  | succ k ih =>
    intro p p1 m h
    unfold VectorPool.ReserveLoop at h
    simp only [Option.bind_eq_bind, Option.bind_eq_some] at h
    obtain ⟨els, h1, p2, h2, h3⟩ := h
    rw [ih p2 p1 (m + 1) h3, AddToList_length h2]
    exact setUniqueId_length h1

/-- C15. On every pool state, `Reserve(n)` with `Size() >= n` returns the pool
as it is; and for every `n`, when `Reserve(n)` returns, a second `Reserve(n)`
returns the same pool. On a well-formed pool `Reserve(n)` always returns. -/
theorem C15_reserve_noop_idempotent [DefaultInit T] (p : VectorPool T) (n : Nat) :
    (p.Size ≥ n → p.Reserve n = some p) ∧
    (∀ p1, p.Reserve n = some p1 → p1.Reserve n = some p1) ∧
    (∀ used free, WellFormed p used free → ∃ p1, p.Reserve n = some p1) := by
  have hnoop : ∀ q : VectorPool T, q.Size ≥ n → q.Reserve n = some q := by
    intro q hq
    unfold VectorPool.Reserve
    simp only [VectorPool.Size] at hq
    simp only [hq, if_true]
  refine ⟨hnoop p, ?_, ?_⟩
  · intro p1 h1
    apply hnoop
    by_cases hn : p.elements_.length ≥ n
    · rw [hnoop p hn] at h1
      cases h1
      exact hn
    · unfold VectorPool.Reserve at h1
      simp only [hn, if_false] at h1
      have := ReserveLoop_length _ _ _ _ h1
      simp only [VectorPool.Size, this, length_resize]
      exact le_refl _
  · intro used free hwf
    obtain ⟨p1, h1, _⟩ := Reserve_spec p used free hwf n
    exact ⟨p1, h1⟩

theorem C15_reserve_noop_idempotent_witness :
    exampleFreed.pool.Size ≥ 5 ∧
    exampleFreed.pool.Reserve 5 = some exampleFreed.pool ∧
    (exampleFreed.pool.Size ≥ 9 → exampleFreed.pool.Reserve 9 = some exampleFreed.pool) ∧
    (∀ p1, exampleFreed.pool.Reserve 9 = some p1 → p1.Reserve 9 = some p1) ∧
    (∀ used free, WellFormed exampleFreed.pool used free →
      ∃ p1, exampleFreed.pool.Reserve 9 = some p1) :=
  ⟨by decide, (C15_reserve_noop_idempotent exampleFreed.pool 5).1 (by decide),
    C15_reserve_noop_idempotent exampleFreed.pool 9⟩

/-- C16. On a well-formed pool, `Reserve(n)` with `n > Size()` succeeds and
leaves `Size() == n`; every new slot carries the invalid id and is on the free
chain, in front of the slots that were free, which stay free; the used chain,
`active_count()`, and the id and data of every slot that existed are unchanged,
so every reference that was valid stays valid. -/
theorem C16_reserve_growth [DefaultInit T] (p : VectorPool T) (used free : List Nat)
    (hwf : WellFormed p used free) (n : Nat) (hn : p.Size < n) :
    ∃ p1, p.Reserve n = some p1 ∧ p1.Size = n ∧
      WellFormed p1 used ((List.range' p.Size (n - p.Size)).reverse ++ free) ∧
      (∀ i, p.Size ≤ i → i < n →
        uid p1.elements_ i = some kInvalidId ∧
          i ∈ (List.range' p.Size (n - p.Size)).reverse ++ free) ∧
      (∀ i ∈ free, i ∈ (List.range' p.Size (n - p.Size)).reverse ++ free) ∧
      p.iterate = some used ∧ p1.iterate = some used ∧
      p1.active_count = p.active_count ∧
      (∀ j, j < p.Size →
        uid p1.elements_ j = uid p.elements_ j ∧ dat p1.elements_ j = dat p.elements_ j) ∧
      (∀ r : VectorPoolReference, p.IsValid r = some true → p1.IsValid r = some true) := by
  obtain ⟨p1, h1, hwf1, hres⟩ := Reserve_spec p used free hwf n
  have hframe : ∀ j, j < p.Size →
      uid p1.elements_ j = uid p.elements_ j ∧ dat p1.elements_ j = dat p.elements_ j := by
    intro j hj
    exact ⟨by rw [hres.uid_eq, if_neg (by omega)], by rw [hres.dat_eq, if_neg (by omega)]⟩
  refine ⟨p1, h1, ?_, hwf1, ?_, ?_, hwf.iterate_eq, hwf1.iterate_eq, hres.count_eq, hframe, ?_⟩
  · rw [hres.size_eq]
    omega
  · intro i hlo hhi
    refine ⟨by rw [hres.uid_eq, if_pos ⟨hlo, hhi⟩], ?_⟩
    apply List.mem_append_left
    rw [List.mem_reverse, List.mem_range']
    exact ⟨i - p.Size, by omega, by omega⟩
  · intro i hi
    exact List.mem_append_right _ hi
  · intro r hv
    obtain ⟨hc, hu⟩ := (IsValid_true_iff _ _).mp hv
    have hl := (uid_isSome_iff _ _).mp ⟨_, hu⟩
    rw [IsValid_true_iff, (hframe r.index_ hl).1]
    exact ⟨hc, hu⟩

theorem C16_reserve_growth_witness :
    ∃ p1, exampleFreed.pool.Reserve 9 = some p1 ∧ p1.Size = 9 ∧
      WellFormed p1 [6, 4]
        ((List.range' exampleFreed.pool.Size (9 - exampleFreed.pool.Size)).reverse ++ [5]) ∧
      (∀ i, exampleFreed.pool.Size ≤ i → i < 9 →
        uid p1.elements_ i = some kInvalidId ∧
          i ∈ (List.range' exampleFreed.pool.Size
            (9 - exampleFreed.pool.Size)).reverse ++ [5]) ∧
      (∀ i ∈ [5], i ∈ (List.range' exampleFreed.pool.Size
        (9 - exampleFreed.pool.Size)).reverse ++ [5]) ∧
      exampleFreed.pool.iterate = some [6, 4] ∧ p1.iterate = some [6, 4] ∧
      p1.active_count = exampleFreed.pool.active_count ∧
      (∀ j, j < exampleFreed.pool.Size →
        uid p1.elements_ j = uid exampleFreed.pool.elements_ j ∧
          dat p1.elements_ j = dat exampleFreed.pool.elements_ j) ∧
      (∀ r : VectorPoolReference, exampleFreed.pool.IsValid r = some true →
        p1.IsValid r = some true) :=
  C16_reserve_growth exampleFreed.pool [6, 4] [5] exampleFreed_wellFormed 9 (by decide)

/-- The ids handed out, in the order of the calls. -/
theorem Client.step_ids [DefaultInit T] (s s1 : Client T) (used free : List Nat)
    (h : ClientInv s used free)
    (hids : ∀ k r, s.issued[k]? = some r → r.unique_id_ = k % (2 ^ 32 - 1) + 1)
    (op : Op) (hs : s.step op = some s1) :
    ∀ k r, s1.issued[k]? = some r → r.unique_id_ = k % (2 ^ 32 - 1) + 1 := by
  cases op with
  | alloc =>
    obtain ⟨p1, _, h1, _⟩ := Client.step_alloc s used free h
    rw [h1] at hs
    cases hs
    intro k r hk
    change (s.issued ++ [_])[k]? = some r at hk
    by_cases hlt : k < s.issued.length
    · rw [List.getElem?_append_left hlt] at hk
      exact hids k r hk
    · rw [List.getElem?_append_right (by omega)] at hk
      have hk0 : k - s.issued.length = 0 := by
        by_contra hc
        rw [List.getElem?_eq_none (by simp; omega)] at hk
        cases hk
      rw [hk0] at hk
      simp only [List.getElem?_cons_zero, Option.some.injEq] at hk
      subst hk
      show s.pool.next_unique_id_ = _
      rw [h.next_id_eq]
      have : k = s.issued.length := by omega
      rw [this]
  | free k0 =>
    obtain ⟨l, hl⟩ := Client.step_issued s s1 _ hs
    rcases Client.step_free s s1 used free h k0 hs with ⟨rfl, _⟩ | ⟨_, _, _, _, hiss, _⟩
    · exact hids
    · rw [hiss]; exact hids
  | reserve n =>
    obtain ⟨p1, h1, _⟩ := Client.step_reserve s used free h n
    rw [h1] at hs
    cases hs
    exact hids
  | clear =>
    obtain ⟨p1, h1, _⟩ := Client.step_clear s used free h
    rw [h1] at hs
    cases hs
    exact hids

theorem Client.runFrom_ids [DefaultInit T] (ops : List Op) :
    ∀ (s s1 : Client T) (used free : List Nat), ClientInv s used free →
      (∀ k r, s.issued[k]? = some r → r.unique_id_ = k % (2 ^ 32 - 1) + 1) →
      s.runFrom ops = some s1 →
      ∀ k r, s1.issued[k]? = some r → r.unique_id_ = k % (2 ^ 32 - 1) + 1 := by
  induction ops with
  | nil =>
    intro s s1 used free _ hids hs
    simp only [Client.runFrom, Option.some.injEq] at hs
    subst hs
    exact hids
  | cons op ops ih =>
    intro s s1 used free h hids hs
    simp only [Client.runFrom] at hs
    cases hst : s.step op with
    | none => rw [hst] at hs; simp at hs
    | some s2 =>
      rw [hst] at hs
      obtain ⟨used2, free2, h2⟩ := Client.step_inv s s2 used free h op hst
      exact ih s2 s1 used2 free2 h2 (Client.step_ids s s2 used free h hids op hst) hs

/-- C17. On a pool constructed with the id counter at 1, whatever `Free`,
`Reserve` and `Clear` calls come in between, the `k`-th call of `GetNewElement`
(counted from 1) hands out the id `((k - 1) mod (2 ^ 32 - 1)) + 1`; the counter
holds the id of the next call, which is never the reserved value 0; ids grow by
one from one call to the next until `2 ^ 32 - 1` is reached, after which
`AllocateUniqueId` sets the counter back to 1. -/
theorem C17_generation_counter [DefaultInit T] (ops : List Op) (s : Client T)
    (hrun : Client.run ops = some s) :
    (∀ k r, 1 ≤ k → s.issued[k - 1]? = some r →
      r.unique_id_ = ((k - 1) % (2 ^ 32 - 1)) + 1) ∧
    s.pool.next_unique_id_ = s.issued.length % (2 ^ 32 - 1) + 1 ∧
    s.pool.AllocateUniqueId.1 = s.issued.length % (2 ^ 32 - 1) + 1 ∧
    s.pool.AllocateUniqueId.1 ≠ kInvalidId ∧
    s.pool.AllocateUniqueId.2.next_unique_id_ ≠ kInvalidId ∧
    (∀ k r1 r2, k + 1 < 2 ^ 32 - 1 → s.issued[k]? = some r1 → s.issued[k + 1]? = some r2 →
      r2.unique_id_ = r1.unique_id_ + 1) ∧
    (∀ q : VectorPool T, q.next_unique_id_ = 2 ^ 32 - 1 →
      q.AllocateUniqueId.1 = 2 ^ 32 - 1 ∧ q.AllocateUniqueId.2.next_unique_id_ = 1) := by
  obtain ⟨used, free, h⟩ := Client.run_inv ops s hrun
  obtain ⟨p, hp, hinv⟩ := Client.new_inv (T := T)
  have hrun1 : Client.runFrom ⟨p, []⟩ ops = some s := by
    unfold Client.run at hrun
    rw [hp] at hrun
    exact hrun
  have hids := Client.runFrom_ids ops ⟨p, []⟩ s [] [] hinv
    (by intro k r hk; simp at hk) hrun1
  refine ⟨fun k r _ hk => hids (k - 1) r hk, h.next_id_eq, h.next_id_eq, ?_,
    (AllocateUniqueId_next_id s.pool).1, ?_, ?_⟩
  · show s.pool.next_unique_id_ ≠ _
    exact h.wf.next_id.1
  · intro k r1 r2 hk h1 h2
    rw [hids k r1 h1, hids (k + 1) r2 h2, Nat.mod_eq_of_lt hk, Nat.mod_eq_of_lt (by omega)]
  · intro q hq
    simp only [VectorPool.AllocateUniqueId, hq, kInvalidId]
    norm_num

theorem C17_generation_counter_witness :
    (∀ k r, 1 ≤ k → exampleReused.issued[k - 1]? = some r →
      r.unique_id_ = ((k - 1) % (2 ^ 32 - 1)) + 1) ∧
    exampleReused.pool.next_unique_id_ = exampleReused.issued.length % (2 ^ 32 - 1) + 1 ∧
    exampleReused.pool.AllocateUniqueId.1 =
      exampleReused.issued.length % (2 ^ 32 - 1) + 1 ∧
    exampleReused.pool.AllocateUniqueId.1 ≠ kInvalidId ∧
    exampleReused.pool.AllocateUniqueId.2.next_unique_id_ ≠ kInvalidId ∧
    (∀ k r1 r2, k + 1 < 2 ^ 32 - 1 → exampleReused.issued[k]? = some r1 →
      exampleReused.issued[k + 1]? = some r2 → r2.unique_id_ = r1.unique_id_ + 1) ∧
    (∀ q : VectorPool Nat, q.next_unique_id_ = 2 ^ 32 - 1 →
      q.AllocateUniqueId.1 = 2 ^ 32 - 1 ∧ q.AllocateUniqueId.2.next_unique_id_ = 1) :=
  C17_generation_counter [.alloc, .alloc, .alloc, .free 1, .alloc] exampleReused (by decide)

/-- What `operator->` and `ToPointer()` do in terms of what `IsValid()`
returns: on a valid reference both give the pointer to the data of its slot,
which exists; on an invalid one the `assert` of `operator->` fails and
`ToPointer()` gives `nullptr`; where `IsValid()` does not return, neither
does. -/
theorem memberAccess_ToPointer_of_isValid (p : VectorPool T) (r : VectorPoolReference) :
    (p.IsValid r = some true →
      p.memberAccess r = some r.index_ ∧ p.ToPointer r = some (some r.index_) ∧
        ∃ d, dat p.elements_ r.index_ = some d) ∧
    (p.IsValid r = some false → p.memberAccess r = none ∧ p.ToPointer r = some none) ∧
    (p.IsValid r = none → p.memberAccess r = none ∧ p.ToPointer r = none) := by
  refine ⟨?_, ?_, ?_⟩
  · intro hv
    obtain ⟨_, hu⟩ := (IsValid_true_iff _ _).mp hv
    have hl := (uid_isSome_iff _ _).mp ⟨_, hu⟩
    have hg : p.GetElement r.index_ = some (p.elements_[r.index_]) := by
      rw [GetElement_eq, List.getElem?_eq_getElem hl]
    refine ⟨?_, ?_, ⟨_, dat_of_getElem? (List.getElem?_eq_getElem hl)⟩⟩
    · simp only [VectorPool.memberAccess, hv, hg]
    · simp only [VectorPool.ToPointer, hv, hg]
  · intro hv
    exact ⟨by simp only [VectorPool.memberAccess, hv], by simp only [VectorPool.ToPointer, hv]⟩
  · intro hv
    exact ⟨by simp only [VectorPool.memberAccess, hv], by simp only [VectorPool.ToPointer, hv]⟩

/-- C18, at the failing input: after `GetNewElement` and then `Clear` on a
fresh pool, the reference returned has index 4 in a storage of 4 slots;
`IsValid()` dereferences the null pointer that `GetElement` returns, so
`ToPointer()` does not return `nullptr`, it does not return at all, and
`operator->` does not reach its `assert`. -/
theorem C18_toPointer_after_clear_fails :
    Client.run [.alloc, .clear] = some exampleCleared ∧
    exampleCleared.issued = [⟨true, 4, 1⟩] ∧
    exampleCleared.pool.GetElement 4 = none ∧
    exampleCleared.pool.IsValid ⟨true, 4, 1⟩ = none ∧
    exampleCleared.pool.ToPointer ⟨true, 4, 1⟩ = none ∧
    exampleCleared.pool.ToPointer ⟨true, 4, 1⟩ ≠ some none ∧
    exampleCleared.pool.memberAccess ⟨true, 4, 1⟩ = none := by
  decide

theorem AllocateUniqueId_small (p : VectorPool T) (n : Nat) (h : p.next_unique_id_ = n)
    (hn : n + 1 < 2 ^ 32) : p.AllocateUniqueId.2.next_unique_id_ = n + 1 := by
  simp only [VectorPool.AllocateUniqueId, kInvalidId, h]
  split <;> omega

/-- C19. On a fresh pool three calls of `GetNewElement` return references
`h1`, `h2`, `h3` and iteration visits the slots of `h3`, `h2`, `h1` in this
order; after `FreeElement(h2)` iteration visits the slots of `h3`, `h1`; one
more `GetNewElement` returns `h4` at the slot of `h2` with another id, so that
`h2` is invalid while `h1`, `h3` and `h4` are valid, and `active_count()` is
3. -/
theorem C19_concrete_scenario [DefaultInit T] :
    ∃ (s3 s4 s5 : Client T) (h1 h2 h3 h4 : VectorPoolReference),
      Client.run [.alloc, .alloc, .alloc] = some s3 ∧ s3.issued = [h1, h2, h3] ∧
      s3.pool.iterate = some [h3.index_, h2.index_, h1.index_] ∧
      s3.pool.FreeElementRef h2 = some s4.pool ∧
      Client.run [.alloc, .alloc, .alloc, .free 1] = some s4 ∧
      s4.pool.iterate = some [h3.index_, h1.index_] ∧
      s4.pool.GetNewElement = some (s5.pool, h4) ∧
      Client.run [.alloc, .alloc, .alloc, .free 1, .alloc] = some s5 ∧
      s5.issued = [h1, h2, h3, h4] ∧
      h4.index_ = h2.index_ ∧ h4.unique_id_ ≠ h2.unique_id_ ∧
      s5.pool.IsValid h2 = some false ∧
      s5.pool.IsValid h1 = some true ∧ s5.pool.IsValid h3 = some true ∧
      s5.pool.IsValid h4 = some true ∧
      s5.pool.active_count = 3 ∧
      s5.pool.iterate = some [h4.index_, h3.index_, h1.index_] := by
  obtain ⟨p0, hp0, hwf0, hc0⟩ := new_spec (T := T)
  have hsz0 : p0.Size = 4 := hc0.size_eq
  have hn0 : p0.next_unique_id_ = 1 := hc0.next_id_eq
  obtain ⟨p1, g1, hwf1, hsz1, hal1⟩ := GetNewElement_spec p0 [] [] hwf0
  simp only [List.headD_nil, List.tail_nil, if_true, hsz0, hn0] at g1 hwf1 hsz1 hal1
  have hn1 : p1.next_unique_id_ = 2 := by
    rw [hal1.next_id_eq]; exact AllocateUniqueId_small p0 1 hn0 (by norm_num)
  obtain ⟨p2, g2, hwf2, hsz2, hal2⟩ := GetNewElement_spec p1 _ [] hwf1
  simp only [List.headD_nil, List.tail_nil, if_true, hsz1, hn1] at g2 hwf2 hsz2 hal2
  have hn2 : p2.next_unique_id_ = 3 := by
    rw [hal2.next_id_eq]; exact AllocateUniqueId_small p1 2 hn1 (by norm_num)
  obtain ⟨p3, g3, hwf3, hsz3, hal3⟩ := GetNewElement_spec p2 _ [] hwf2
  simp only [List.headD_nil, List.tail_nil, if_true, hsz2, hn2] at g3 hwf3 hsz3 hal3
  have hn3 : p3.next_unique_id_ = 4 := by
    rw [hal3.next_id_eq]; exact AllocateUniqueId_small p2 3 hn2 (by norm_num)
  have hu14 : uid p1.elements_ 4 = some 1 := by rw [hal1.uid_eq, if_pos rfl, hn0]
  have hu24 : uid p2.elements_ 4 = some 1 := by rw [hal2.uid_eq, if_neg (by decide), hu14]
  have hu25 : uid p2.elements_ 5 = some 2 := by rw [hal2.uid_eq, if_pos rfl, hn1]
  have hu34 : uid p3.elements_ 4 = some 1 := by rw [hal3.uid_eq, if_neg (by decide), hu24]
  have hu35 : uid p3.elements_ 5 = some 2 := by rw [hal3.uid_eq, if_neg (by decide), hu25]
  have hu36 : uid p3.elements_ 6 = some 3 := by rw [hal3.uid_eq, if_pos rfl, hn2]
  have hv2 : p3.IsValid ⟨true, 5, 2⟩ = some true := by
    rw [IsValid_true_iff]; exact ⟨rfl, hu35⟩
  obtain ⟨p4, g4, _, hwf4, hsz4, hfd4⟩ := FreeElementRef_spec p3 _ _ hwf3 ⟨true, 5, 2⟩
    (by decide) hv2
  have herase : [4 + 1 + 1, 4 + 1, 4].erase 5 = [6, 4] := by decide
  simp only [herase] at hwf4
  have hn4 : p4.next_unique_id_ = 4 := by rw [hfd4.next_id_eq, hn3]
  obtain ⟨p5, g5, hwf5, hsz5, hal5⟩ := GetNewElement_spec p4 _ _ hwf4
  simp only [List.headD_cons, List.tail_cons, hn4] at g5 hwf5 hsz5 hal5
  have hu44 : uid p4.elements_ 4 = some 1 := by rw [hfd4.uid_eq, if_neg (by decide), hu34]
  have hu46 : uid p4.elements_ 6 = some 3 := by rw [hfd4.uid_eq, if_neg (by decide), hu36]
  have hu54 : uid p5.elements_ 4 = some 1 := by rw [hal5.uid_eq, if_neg (by decide), hu44]
  have hu56 : uid p5.elements_ 6 = some 3 := by rw [hal5.uid_eq, if_neg (by decide), hu46]
  have hu55 : uid p5.elements_ 5 = some 4 := by rw [hal5.uid_eq, if_pos rfl, hn4]
  have hsz5a : p5.Size = 7 := by
    rw [hsz5, if_neg (by simp), hsz4, hsz3]
  have hrun3 : Client.run [.alloc, .alloc, .alloc] =
      some (⟨p3, [⟨true, 4, 1⟩, ⟨true, 5, 2⟩, ⟨true, 6, 3⟩]⟩ : Client T) := by
    simp only [Client.run, Client.runFrom, Client.step, hp0, g1, g2, g3]
    rfl
  have hrun4 : Client.run [.alloc, .alloc, .alloc, .free 1] =
      some (⟨p4, [⟨true, 4, 1⟩, ⟨true, 5, 2⟩, ⟨true, 6, 3⟩]⟩ : Client T) := by
    simp only [Client.run, Client.runFrom, Client.step, hp0, g1, g2, g3]
    simp only [List.nil_append, List.cons_append, List.getElem?_cons_succ,
      List.getElem?_cons_zero, Option.getD_some, g4]
  have hrun5 : Client.run [.alloc, .alloc, .alloc, .free 1, .alloc] =
      some (⟨p5, [⟨true, 4, 1⟩, ⟨true, 5, 2⟩, ⟨true, 6, 3⟩, ⟨true, 5, 4⟩]⟩ : Client T) := by
    simp only [Client.run, Client.runFrom, Client.step, hp0, g1, g2, g3]
    simp only [List.nil_append, List.cons_append, List.getElem?_cons_succ,
      List.getElem?_cons_zero, Option.getD_some, g4, g5]
  refine ⟨⟨p3, [⟨true, 4, 1⟩, ⟨true, 5, 2⟩, ⟨true, 6, 3⟩]⟩,
    ⟨p4, [⟨true, 4, 1⟩, ⟨true, 5, 2⟩, ⟨true, 6, 3⟩]⟩,
    ⟨p5, [⟨true, 4, 1⟩, ⟨true, 5, 2⟩, ⟨true, 6, 3⟩, ⟨true, 5, 4⟩]⟩,
    ⟨true, 4, 1⟩, ⟨true, 5, 2⟩, ⟨true, 6, 3⟩, ⟨true, 5, 4⟩,
    hrun3, rfl, hwf3.iterate_eq, g4, hrun4, hwf4.iterate_eq, g5, hrun5, rfl, rfl,
    by decide, ?_, ?_, ?_, ?_, ?_, hwf5.iterate_eq⟩
  · rw [IsValid_false_iff]
    exact Or.inr ⟨4, hu55, by decide⟩
  · rw [IsValid_true_iff]; exact ⟨rfl, hu54⟩
  · rw [IsValid_true_iff]; exact ⟨rfl, hu56⟩
  · rw [IsValid_true_iff]; exact ⟨rfl, hu55⟩
  · rw [hwf5.active_count_eq (by rw [hsz5a]; norm_num)]
    rfl

theorem setData_written (els : List (VectorPoolElement T)) (i : Nat) (v : T)
    (hi : i < els.length) :
    ∃ els1, setData els i v = some els1 ∧
      Views els1 els.length (nxt els) (prv els) (uid els)
        (fun j => if j = i then some v else dat els j) := by
  unfold setData
  rw [List.getElem?_eq_getElem hi]
  refine ⟨_, rfl, ?_⟩
  constructor
  · simp
  all_goals
    intro j
    simp only [nxt, prv, uid, dat, getElem?_set_cases els i hi]
    by_cases hj : j = i
    · subst hj
      simp [List.getElem?_eq_getElem hi]
    · simp [hj]

/-- A store through a valid reference changes the data of its slot and
nothing else, so it keeps a pool well formed. -/
theorem store_spec (p : VectorPool T) (used free : List Nat) (hwf : WellFormed p used free)
    (r : VectorPoolReference) (v : T) (hv : p.IsValid r = some true) :
    ∃ p1, p.store r v = some p1 ∧ WellFormed p1 used free ∧
      (∀ j, uid p1.elements_ j = uid p.elements_ j) ∧
      (∀ j, dat p1.elements_ j = if j = r.index_ then some v else dat p.elements_ j) := by
  obtain ⟨hm, _, _⟩ := (memberAccess_ToPointer_of_isValid p r).1 hv
  obtain ⟨_, hu⟩ := (IsValid_true_iff _ _).mp hv
  have hl := (uid_isSome_iff _ _).mp ⟨_, hu⟩
  obtain ⟨els1, h1, w1⟩ := setData_written p.elements_ r.index_ v hl
  refine ⟨⟨els1, p.active_count_, p.next_unique_id_⟩, ?_, ?_, w1.uid_eq, w1.dat_eq⟩
  · simp only [VectorPool.store, hm, h1]
  · unfold WellFormed at hwf ⊢
    refine ⟨hwf.chains.congr w1.nxt_eq w1.prv_eq, ?_, ?_, ?_, hwf.count, ?_, ?_, ?_,
      hwf.next_id⟩
    · intro i
      show _ ↔ _ ∧ i < els1.length
      rw [w1.length_eq]
      exact hwf.mem_iff i
    · show _ ≤ els1.length
      rw [w1.length_eq]
      exact hwf.reserved
    · exact le_refl _
    · intro i hi
      show ∃ u, uid els1 i = some u ∧ _
      rw [w1.uid_eq]
      exact hwf.used_id i hi
    · intro i hi
      show uid els1 i = _
      rw [w1.uid_eq]
      exact hwf.free_id i hi
    · intro i hi
      show uid els1 i = _
      rw [w1.uid_eq]
      exact hwf.sentinel_id i hi

/-- What `GetNewElement` leaves in the data of the slot it hands out, on a
well-formed pool: the default-initialisation of what the slot held, also when
the slot is one that was handed out before, had a value `v` stored in it, and
was freed with that value still in it. -/
theorem GetNewElement_data [DefaultInit T] (p : VectorPool T)
    (used free : List Nat) (hwf : WellFormed p used free) :
    ∃ p1 r, p.GetNewElement = some (p1, r) ∧
      dat p1.elements_ r.index_ =
        some (DefaultInit.construct ((dat p.elements_ r.index_).getD default)) ∧
      ∀ v : T, ∃ p2 p3 p4 r4,
        p1.store r v = some p2 ∧ dat p2.elements_ r.index_ = some v ∧
        p2.FreeElementRef r = some p3 ∧ dat p3.elements_ r.index_ = some v ∧
        p3.GetNewElement = some (p4, r4) ∧ r4.index_ = r.index_ ∧
        dat p4.elements_ r4.index_ = some (DefaultInit.construct v) := by
  obtain ⟨p1, h1, hwf1, _, hal1⟩ := GetNewElement_spec p used free hwf
  have hv1 : p1.IsValid ⟨true, free.headD p.Size, p.next_unique_id_⟩ = some true := by
    rw [IsValid_true_iff, hal1.uid_eq, if_pos rfl]
    exact ⟨rfl, rfl⟩
  refine ⟨p1, _, h1, by rw [hal1.dat_eq, if_pos rfl], ?_⟩
  intro v
  obtain ⟨p2, h2, hwf2, hu2, hd2⟩ := store_spec p1 _ _ hwf1 _ v hv1
  have hv2 : p2.IsValid ⟨true, free.headD p.Size, p.next_unique_id_⟩ = some true := by
    rw [IsValid_true_iff, hu2]
    exact (IsValid_true_iff _ _).mp hv1
  obtain ⟨p3, h3, _, hwf3, _, hfd3⟩ := FreeElementRef_spec p2 _ _ hwf2 _ hwf.next_id.1 hv2
  obtain ⟨p4, h4, _, _, hal4⟩ := GetNewElement_spec p3 _ _ hwf3
  simp only [List.headD_cons] at h4 hal4
  have hd2a : dat p2.elements_ (free.headD p.Size) = some v := by
    rw [hd2, if_pos rfl]
  have hd3a : dat p3.elements_ (free.headD p.Size) = some v := by
    rw [hfd3.dat_eq]
    exact hd2a
  refine ⟨p2, p3, p4, _, h2, hd2a, h3, hd3a, h4, rfl, ?_⟩
  rw [hal4.dat_eq, if_pos rfl, hd3a]
  rfl

/-- For an element type whose default constructor initialises the object,
the data of the slot that `GetNewElement` hands out is the default-constructed
value, whatever the slot held before. -/
theorem GetNewElement_data_of_initialising [DefaultInit T] (p : VectorPool T)
    (used free : List Nat) (hwf : WellFormed p used free)
    (hinit : ∀ x : T, DefaultInit.construct x = default) :
    ∃ p1 r, p.GetNewElement = some (p1, r) ∧ dat p1.elements_ r.index_ = some default := by
  obtain ⟨p1, r, h1, hd, _⟩ := GetNewElement_data p used free hwf
  exact ⟨p1, r, h1, by rw [hd, hinit]⟩

/-- C20, at the failing input: with element type `int`, on a fresh pool,
`GetNewElement` hands out slot 4; 42 is stored through the reference and the
reference is freed; the next `GetNewElement` hands out slot 4 again, and its
data is still 42, not the value 0 of a default-constructed `int`: the placement
`new` in `GetNewElement` default-initialises, which writes nothing for `int`. -/
theorem C20_reused_slot_keeps_data :
    Client.run [] = some exampleFresh ∧
    storeFreeAllocate exampleFresh.pool 42 =
      some (⟨true, 4, 1⟩, ⟨true, 4, 2⟩, some 42) ∧
    (some 42 : Option Nat) ≠ some default ∧
    storeFreeAllocate exampleFreed.pool 42 =
      some (⟨true, 5, 4⟩, ⟨true, 5, 5⟩, some 42) := by
  decide

theorem seg_next_prev {nx pv : Nat → Option Nat} {l : List Nat} {a b j : Nat}
    (h : Seg nx pv a l b) (hj : j ∈ a :: l) : ∃ n, nx j = some n ∧ pv n = some j := by
  induction l generalizing a with
  | nil =>
    simp only [List.mem_singleton] at hj
    subst hj
    exact ⟨b, h.1, h.2⟩
  | cons x xs ih =>
    rcases List.mem_cons.mp hj with rfl | hj1
    · exact ⟨x, h.1, h.2.1⟩
    · exact ih h.2.2 hj1

theorem seg_prev_next {nx pv : Nat → Option Nat} {l : List Nat} {a b j : Nat}
    (h : Seg nx pv a l b) (hj : j ∈ l ++ [b]) : ∃ q, pv j = some q ∧ nx q = some j := by
  induction l generalizing a with
  | nil =>
    simp only [List.nil_append, List.mem_singleton] at hj
    subst hj
    exact ⟨a, h.2, h.1⟩
  | cons x xs ih =>
    rcases List.mem_cons.mp hj with rfl | hj1
    · exact ⟨a, h.2.1, h.1⟩
    · exact ih h.2.2 hj1

theorem seg_prev_split {nx pv : Nat → Option Nat} {a b x : Nat} (pre post : List Nat) :
    Seg nx pv a (pre ++ x :: post) b → pv ((post ++ [b]).headD b) = some x := by
  induction pre generalizing a with
  | nil =>
    intro h
    have h3 : Seg nx pv x post b := h.2.2
    cases post with
    | nil => exact h3.2
    | cons y ys => exact h3.2.1
  | cons y ys ih =>
    intro h
    exact ih h.2.2

/-- Walking back from the cursor in front of `post` visits `pre` in reverse. -/
theorem collectBack_seg (p : VectorPool T) (free post : List Nat) :
    ∀ (pre : List Nat) (fuel : Nat), WellFormed p (pre ++ post) free → pre.length < fuel →
      p.collectBack fuel ⟨(post ++ [kLastUsed]).headD kLastUsed⟩ = some pre.reverse := by
  intro pre
  induction pre using List.reverseRecOn generalizing post with
  | nil =>
    intro fuel hwf hf
    cases fuel with
    | zero => omega
    | succ fuel =>
      unfold VectorPool.collectBack
      rw [if_pos (by rw [hwf.begin_eq]; rfl)]
      rfl
  | append_singleton pre x ih =>
    intro fuel hwf hf
    cases fuel with
    | zero => omega
    | succ fuel =>
      have hwf1 : WellFormed p (pre ++ x :: post) free := by
        simpa [List.append_assoc] using hwf
      have hnd := (hwf1.chains.nodup_used_free)
      have hnd1 : (pre ++ x :: post ++ [kLastUsed]).Nodup := by
        have := (List.nodup_append.mp hnd).1
        exact (List.nodup_cons.mp this).2
      have hne : ¬ (p.begin = some ⟨(post ++ [kLastUsed]).headD kLastUsed⟩) := by
        rw [hwf1.begin_eq]
        intro hc
        simp only [Option.some.injEq, Iterator.mk.injEq] at hc
        have hmem : (post ++ [kLastUsed]).headD kLastUsed ∈ post ++ [kLastUsed] := by
          cases post <;> simp
        have hfirst : (pre ++ x :: post ++ [kLastUsed]).headD kLastUsed ∈ pre ++ [x] := by
          cases pre <;> simp
        rw [hc] at hfirst
        have hsplit : pre ++ x :: post ++ [kLastUsed] = (pre ++ [x]) ++ (post ++ [kLastUsed]) := by
          simp
        rw [hsplit] at hnd1
        exact (List.nodup_append.mp hnd1).2.2 hfirst hmem
      have hprev : p.prev ⟨(post ++ [kLastUsed]).headD kLastUsed⟩ = some ⟨x⟩ := by
        have hpv := seg_prev_split pre post hwf1.chains.used_chain
        unfold prv at hpv
        unfold VectorPool.prev
        cases hg : p.elements_[(post ++ [kLastUsed]).headD kLastUsed]? with
        | none => rw [hg] at hpv; simp at hpv
        | some e =>
          rw [hg] at hpv
          simp only [Option.some.injEq] at hpv
          simp only [hpv]
      have hrec := ih (x :: post) fuel hwf1 (by simp at hf; omega)
      simp only [List.cons_append, List.headD_cons] at hrec
      unfold VectorPool.collectBack
      rw [if_neg hne]
      simp only [hprev, hrec, List.reverse_append, List.reverse_cons, List.reverse_nil,
        List.nil_append, List.singleton_append]

/-- Iterating a well-formed pool backwards from `end()` visits the used chain
in reverse. -/
theorem WellFormed.iterateBack_eq {p : VectorPool T} {used free : List Nat}
    (h : WellFormed p used free) : p.iterateBack = some used.reverse := by
  unfold VectorPool.iterateBack
  have := collectBack_seg p free [] used (p.Size + 1) (by simpa using h)
    (by have := h.length_used_le; omega)
  simpa [VectorPool.end_] using this

theorem next_of_nxt {p : VectorPool T} {i n : Nat} (h : nxt p.elements_ i = some n) :
    p.next ⟨i⟩ = some ⟨n⟩ := by
  obtain ⟨e, he, hen⟩ := getElem?_of_nxt h
  unfold VectorPool.next
  simp only [he, hen]

theorem prev_of_prv {p : VectorPool T} {i q : Nat} (h : prv p.elements_ i = some q) :
    p.prev ⟨i⟩ = some ⟨q⟩ := by
  unfold prv at h
  unfold VectorPool.prev
  cases hg : p.elements_[i]? with
  | none => rw [hg] at h; simp at h
  | some e =>
    rw [hg] at h
    simp only [Option.some.injEq] at h
    simp only [h]

/-- C21. In every pool state reached from a fresh pool by client calls: for
each head sentinel and each slot that is not a sentinel, the `prev` of its
`next` is the slot itself; for each tail sentinel and each slot that is not a
sentinel, the `next` of its `prev` is the slot itself. So at a cursor on a
slot that iteration visits, `++` then `--`, and `--` then `++`, come back to
the cursor; and iterating backwards from `end()` visits the slots of forward
iteration in reverse order. -/
theorem C21_doubly_linked [DefaultInit T] (ops : List Op) (s : Client T)
    (hrun : Client.run ops = some s) :
    (∀ i, (i = kFirstUsed ∨ i = kFirstFree ∨ (kTotalReserved ≤ i ∧ i < s.pool.Size)) →
      ∃ n, nxt s.pool.elements_ i = some n ∧ prv s.pool.elements_ n = some i) ∧
    (∀ i, (i = kLastUsed ∨ i = kLastFree ∨ (kTotalReserved ≤ i ∧ i < s.pool.Size)) →
      ∃ q, prv s.pool.elements_ i = some q ∧ nxt s.pool.elements_ q = some i) ∧
    ∃ l, s.pool.iterate = some l ∧ s.pool.iterateBack = some l.reverse ∧
      ∀ c : Iterator, c.index_ ∈ l →
        (∃ c1, s.pool.next c = some c1 ∧ s.pool.prev c1 = some c) ∧
        (∃ c0, s.pool.prev c = some c0 ∧ s.pool.next c0 = some c) := by
  obtain ⟨used, free, h⟩ := Client.run_inv ops s hrun
  have hu := h.wf.chains.used_chain
  have hf := h.wf.chains.free_chain
  refine ⟨?_, ?_, used, h.wf.iterate_eq, h.wf.iterateBack_eq, ?_⟩
  · rintro i (rfl | rfl | ⟨h4, hl⟩)
    · exact seg_next_prev hu (by simp)
    · exact seg_next_prev hf (by simp)
    · rcases List.mem_append.mp ((h.wf.mem_iff i).mpr ⟨h4, hl⟩) with hm | hm
      · exact seg_next_prev hu (List.mem_cons_of_mem _ hm)
      · exact seg_next_prev hf (List.mem_cons_of_mem _ hm)
  · rintro i (rfl | rfl | ⟨h4, hl⟩)
    · exact seg_prev_next hu (by simp)
    · exact seg_prev_next hf (by simp)
    · rcases List.mem_append.mp ((h.wf.mem_iff i).mpr ⟨h4, hl⟩) with hm | hm
      · exact seg_prev_next hu (List.mem_append_left _ hm)
      · exact seg_prev_next hf (List.mem_append_left _ hm)
  · intro c hc
    cases c with
    | mk i =>
      simp only at hc
      obtain ⟨n, hn1, hn2⟩ := seg_next_prev hu (List.mem_cons_of_mem _ hc)
      obtain ⟨q, hq1, hq2⟩ := seg_prev_next hu (List.mem_append_left _ hc)
      exact ⟨⟨⟨n⟩, next_of_nxt hn1, prev_of_prv hn2⟩, ⟨⟨q⟩, prev_of_prv hq1, next_of_nxt hq2⟩⟩

theorem C21_doubly_linked_witness :
    exampleReserved.pool.iterate = some [8, 6, 4] ∧
    exampleReserved.pool.iterateBack = some [4, 6, 8] ∧
    ((∀ i, (i = kFirstUsed ∨ i = kFirstFree ∨
        (kTotalReserved ≤ i ∧ i < exampleReserved.pool.Size)) →
      ∃ n, nxt exampleReserved.pool.elements_ i = some n ∧
        prv exampleReserved.pool.elements_ n = some i) ∧
    (∀ i, (i = kLastUsed ∨ i = kLastFree ∨
        (kTotalReserved ≤ i ∧ i < exampleReserved.pool.Size)) →
      ∃ q, prv exampleReserved.pool.elements_ i = some q ∧
        nxt exampleReserved.pool.elements_ q = some i) ∧
    ∃ l, exampleReserved.pool.iterate = some l ∧
      exampleReserved.pool.iterateBack = some l.reverse ∧
      ∀ c : Iterator, c.index_ ∈ l →
        (∃ c1, exampleReserved.pool.next c = some c1 ∧
          exampleReserved.pool.prev c1 = some c) ∧
        (∃ c0, exampleReserved.pool.prev c = some c0 ∧
          exampleReserved.pool.next c0 = some c)) :=
  ⟨by decide, by decide,
    C21_doubly_linked [.alloc, .alloc, .alloc, .free 1, .reserve 9, .alloc] exampleReserved
      (by decide)⟩

theorem range'_reverse_getElem? (s k j : Nat) (hj : j < k) :
    (List.range' s k).reverse[j]? = some (s + k - 1 - j) := by
  rw [List.getElem?_reverse (by simpa using hj)]
  simp only [List.length_range']
  rw [List.getElem?_range' s 1 (by omega)]
  congr 1
  omega

/-- Allocating `k` times on a well-formed pool with at least `k` free slots
hands out the first `k` slots of the free chain, in order, without growing the
storage. -/
theorem allocList_take [DefaultInit T] (k : Nat) :
    ∀ (p : VectorPool T) (used free : List Nat), WellFormed p used free →
      k ≤ free.length →
      ∃ pk, allocList k p = some (pk, free.take k) ∧ pk.Size = p.Size ∧
        WellFormed pk ((free.take k).reverse ++ used) (free.drop k) := by
  induction k with
  | zero =>
    intro p used free hwf _
    exact ⟨p, rfl, rfl, by simpa using hwf⟩
  | succ k ih =>
    intro p used free hwf hk
    cases free with
    | nil => simp at hk
    | cons f fs =>
      obtain ⟨p1, h1, hwf1, hsz1, _⟩ := GetNewElement_spec p used (f :: fs) hwf
      simp only [List.headD_cons, List.tail_cons] at h1 hwf1 hsz1
      rw [if_neg (by simp)] at hsz1
      obtain ⟨pk, hk1, hszk, hwfk⟩ := ih p1 (f :: used) fs hwf1
        (by simp only [List.length_cons] at hk; omega)
      refine ⟨pk, ?_, by rw [hszk, hsz1], ?_⟩
      · simp only [allocList, h1, hk1, List.take_succ_cons]
      · simpa [List.take_succ_cons, List.reverse_cons, List.append_assoc] using hwfk

/-- C22. On a well-formed pool with `Size() == s`, after `Reserve(n)` with
`n > s` the next `n - s` calls of `GetNewElement` return the indices `n - 1`,
`n - 2`, ..., `s` in this order, with `Size()` equal to `n` after each of them;
the calls after these use up the slots that were free before, still without
growing the storage, and only the call after all of them returns the index `n`
and makes `Size()` equal to `n + 1`. -/
theorem C22_reserved_slots_first [DefaultInit T] (p : VectorPool T) (used free : List Nat)
    (hwf : WellFormed p used free) (n : Nat) (hn : p.Size < n) :
    ∃ p1, p.Reserve n = some p1 ∧ p1.Size = n ∧
      (∀ j, j < n - p.Size →
        ((List.range' p.Size (n - p.Size)).reverse)[j]? = some (n - 1 - j)) ∧
      (∀ k, k ≤ n - p.Size →
        ∃ pk, allocList k p1 =
            some (pk, ((List.range' p.Size (n - p.Size)).reverse).take k) ∧
          pk.Size = n) ∧
      (∃ p2, allocList (n - p.Size) p1 = some (p2, (List.range' p.Size (n - p.Size)).reverse) ∧
        p2.Size = n ∧
        WellFormed p2 (List.range' p.Size (n - p.Size) ++ used) free) ∧
      (∃ p3 p4 r, allocList (n - p.Size + free.length) p1 =
          some (p3, (List.range' p.Size (n - p.Size)).reverse ++ free) ∧
        p3.Size = n ∧
        p3.GetNewElement = some (p4, r) ∧ r.index_ = n ∧ p4.Size = n + 1) := by
  obtain ⟨p1, h1, hwf1, hres⟩ := Reserve_spec p used free hwf n
  have hsz1 : p1.Size = n := by
    rw [hres.size_eq]; omega
  have hlen : ((List.range' p.Size (n - p.Size)).reverse ++ free).length =
      n - p.Size + free.length := by simp
  refine ⟨p1, h1, hsz1, ?_, ?_, ?_, ?_⟩
  · intro j hj
    rw [range'_reverse_getElem? _ _ _ hj]
    congr 1
    omega
  · intro k hk
    obtain ⟨pk, hk1, hszk, _⟩ := allocList_take k p1 _ _ hwf1 (by rw [hlen]; omega)
    refine ⟨pk, ?_, by rw [hszk, hsz1]⟩
    rw [hk1, List.take_append_of_le_length (by simp; omega)]
  · obtain ⟨p2, hk2, hsz2, hwf2⟩ := allocList_take (n - p.Size) p1 _ _ hwf1
      (by rw [hlen]; omega)
    have htake : ((List.range' p.Size (n - p.Size)).reverse ++ free).take (n - p.Size) =
        (List.range' p.Size (n - p.Size)).reverse := by
      rw [List.take_append_of_le_length (by simp), List.take_of_length_le (by simp)]
    have hdrop : ((List.range' p.Size (n - p.Size)).reverse ++ free).drop (n - p.Size) =
        free := by
      rw [List.drop_append_of_le_length (by simp), List.drop_of_length_le (by simp)]
      rfl
    rw [htake] at hk2 hwf2
    rw [hdrop, List.reverse_reverse] at hwf2
    exact ⟨p2, hk2, by rw [hsz2, hsz1], hwf2⟩
  · obtain ⟨p3, hk3, hsz3, hwf3⟩ := allocList_take (n - p.Size + free.length) p1 _ _ hwf1
      (by rw [hlen])
    rw [List.take_of_length_le (by rw [hlen])] at hk3 hwf3
    rw [List.drop_of_length_le (by rw [hlen])] at hwf3
    obtain ⟨p4, h4, _, hsz4, _⟩ := GetNewElement_spec p3 _ [] hwf3
    simp only [List.headD_nil, if_true] at h4 hsz4
    refine ⟨p3, p4, _, hk3, by rw [hsz3, hsz1], h4, ?_, ?_⟩
    · show p3.Size = n
      rw [hsz3, hsz1]
    · rw [hsz4, hsz3, hsz1]

theorem C22_reserved_slots_first_witness :
    ∃ p1, exampleFreed.pool.Reserve 9 = some p1 ∧ p1.Size = 9 ∧
      (∀ j, j < 9 - exampleFreed.pool.Size →
        ((List.range' exampleFreed.pool.Size (9 - exampleFreed.pool.Size)).reverse)[j]? =
          some (9 - 1 - j)) ∧
      (∀ k, k ≤ 9 - exampleFreed.pool.Size →
        ∃ pk, allocList k p1 =
            some (pk, ((List.range' exampleFreed.pool.Size
              (9 - exampleFreed.pool.Size)).reverse).take k) ∧
          pk.Size = 9) ∧
      (∃ p2, allocList (9 - exampleFreed.pool.Size) p1 =
          some (p2, (List.range' exampleFreed.pool.Size
            (9 - exampleFreed.pool.Size)).reverse) ∧
        p2.Size = 9 ∧
        WellFormed p2 (List.range' exampleFreed.pool.Size (9 - exampleFreed.pool.Size) ++
          [6, 4]) [5]) ∧
      (∃ p3 p4 r, allocList (9 - exampleFreed.pool.Size + [5].length) p1 =
          some (p3, (List.range' exampleFreed.pool.Size
            (9 - exampleFreed.pool.Size)).reverse ++ [5]) ∧
        p3.Size = 9 ∧
        p3.GetNewElement = some (p4, r) ∧ r.index_ = 9 ∧ p4.Size = 9 + 1) :=
  C22_reserved_slots_first exampleFreed.pool [6, 4] [5] exampleFreed_wellFormed 9 (by decide)

/-- `FreeElement(size_t)` at a slot that is on the free chain of a well-formed
pool: it succeeds, leaves the used chain alone, moves the slot to the head of
the free chain, and still counts `active_count_` down. -/
theorem FreeElement_free_spec (p : VectorPool T) (used free : List Nat)
    (h : WellFormed p used free) (i : Nat) (hi : i ∈ free) :
    ∃ p1, p.FreeElement i = some p1 ∧
      Chains (nxt p1.elements_) (prv p1.elements_) used (i :: free.erase i) ∧
      p1.Size = p.Size ∧ Freed p p1 i := by
  unfold WellFormed at h
  have hi4 : kTotalReserved ≤ i := h.chains.not_reserved i (List.mem_append_right _ hi)
  obtain ⟨q, hq, hqmem⟩ := seg_prev_mem h.chains.free_chain hi
  obtain ⟨n, hn, hnmem⟩ := seg_next_mem h.chains.free_chain hi
  obtain ⟨v1, hv1⟩ := seg_nx_some h.chains.free_chain hqmem
  obtain ⟨v2, hv2⟩ := seg_pv_some h.chains.free_chain hnmem
  have hql := (nxt_isSome_iff _ _).mp ⟨v1, hv1⟩
  have hnl := (prv_isSome_iff _ _).mp ⟨v2, hv2⟩
  have hil : i < p.elements_.length := (prv_isSome_iff _ _).mp ⟨q, hq⟩
  have hndall := h.chains.nodup_free_used
  have hndf : (kFirstFree :: free).Nodup := by
    have := (List.nodup_append.mp hndall).1
    rw [← List.cons_append] at this
    exact (List.nodup_append.mp this).1
  have hqi := seg_prev_ne h.chains.free_chain hndf hi hq
  obtain ⟨p1, h1, e1⟩ := RemoveFromList_spec p i q n hi4 hq hn hql hnl hqi
  have hch1 : Chains (nxt p1.elements_) (prv p1.elements_) used (free.erase i) :=
    (h.chains.detach_free hi hq hn).congr e1.views.nxt_eq e1.views.prv_eq
  have hnd := List.nodup_append.mp h.chains.nodup
  have hi1 : i ∉ used ++ free.erase i := by
    intro hc
    rcases List.mem_append.mp hc with hc | hc
    · exact hnd.2.2 hc hi
    · exact ((hnd.2.1.mem_erase_iff).mp hc).1 rfl
  obtain ⟨hy, v3, hv3⟩ := hch1.first_free
  have hyl := (prv_isSome_iff _ _).mp ⟨v3, hv3⟩
  have hil1 : i < p1.elements_.length := by rw [e1.views.length_eq]; exact hil
  obtain ⟨p2, h2, e2⟩ := AddToList_spec p1 i kFirstFree _ hi4 hil1 hy hyl
  have hch2 : Chains (nxt p2.elements_) (prv p2.elements_) used (i :: free.erase i) :=
    (hch1.attach_free hi4 hi1 hy).congr e2.views.nxt_eq e2.views.prv_eq
  have hil2 : i < p2.elements_.length := by rw [e2.views.length_eq]; exact hil1
  obtain ⟨els3, h3, w3⟩ := setUniqueId_written p2.elements_ i kInvalidId hil2
  have hlen3 : els3.length = p.elements_.length := by
    rw [w3.length_eq, e2.views.length_eq, e1.views.length_eq]
  refine ⟨⟨els3, (p2.active_count_ + (2 ^ 64 - 1)) % 2 ^ 64, p2.next_unique_id_⟩,
    ?_, ?_, hlen3, ?_⟩
  · unfold VectorPool.FreeElement
    simp only [h1, Option.bind_eq_bind, Option.some_bind, h2, h3, Option.pure_def]
  · apply hch2.congr
    · intro j; show nxt els3 j = _; rw [w3.nxt_eq]
    · intro j; show prv els3 j = _; rw [w3.prv_eq]
  · refine ⟨?_, ?_, ?_, ?_⟩
    · show (p2.active_count_ + (2 ^ 64 - 1)) % 2 ^ 64 = _
      rw [e2.count_eq, e1.count_eq]
    · show p2.next_unique_id_ = _
      rw [e2.next_id_eq, e1.next_id_eq]
    · intro j
      show uid els3 j = _
      rw [w3.uid_eq, e2.views.uid_eq, e1.views.uid_eq]
    · intro j
      show dat els3 j = _
      rw [w3.dat_eq, e2.views.dat_eq, e1.views.dat_eq]

/-- C23. On a well-formed pool, `FreeElement(size_t)` at a slot that is not a
sentinel and is already on the free chain succeeds: the used chain, which is
what iteration visits, stays as it is, the slot is moved to the head of the
free chain and keeps the invalid id, and `active_count_` is still counted down
by one, modulo `2 ^ 64`; so `active_count()` is no longer the length of the
used chain. `FreeElement(VectorPoolReference)` with a reference to that slot
that `GetNewElement` returned (its captured id is a valid one) changes
nothing. -/
theorem C23_raw_free_unchecked (p : VectorPool T) (used free : List Nat)
    (hwf : WellFormed p used free) (hsz : p.Size < 2 ^ 64) (i : Nat) (hi : i ∈ free) :
    (kTotalReserved ≤ i ∧ i < p.Size) ∧
    p.active_count = used.length ∧
    (∃ p1, p.FreeElement i = some p1 ∧
      Seg (nxt p1.elements_) (prv p1.elements_) kFirstUsed used kLastUsed ∧
      Seg (nxt p1.elements_) (prv p1.elements_) kFirstFree (i :: free.erase i) kLastFree ∧
      p1.iterate = some used ∧
      uid p1.elements_ i = some kInvalidId ∧
      p1.Size = p.Size ∧
      p1.active_count = (p.active_count + (2 ^ 64 - 1)) % 2 ^ 64 ∧
      (p.active_count = 0 → p1.active_count = 2 ^ 64 - 1) ∧
      (0 < p.active_count → p1.active_count = p.active_count - 1) ∧
      p1.active_count ≠ used.length) ∧
    (∀ r : VectorPoolReference, r.index_ = i → r.unique_id_ ≠ kInvalidId →
      p.IsValid r = some false ∧ p.FreeElementRef r = some p) := by
  have hrange := (hwf.mem_iff i).mp (List.mem_append_right _ hi)
  have hcount := hwf.active_count_eq hsz
  have hlen := hwf.length_used_le
  obtain ⟨p1, h1, hch1, hsz1, hfd⟩ := FreeElement_free_spec p used free hwf i hi
  have hc1 : p1.active_count = (p.active_count + (2 ^ 64 - 1)) % 2 ^ 64 := hfd.count_eq
  have hiter : p1.iterate = some used := by
    obtain ⟨e, he, hen⟩ := getElem?_of_nxt hch1.first_used.1
    have hb : p1.begin = some ⟨(used ++ [kLastUsed]).headD kLastUsed⟩ := by
      unfold VectorPool.begin
      simp only [he, hen]
    unfold VectorPool.iterate
    rw [hb]
    apply collect_seg p1 used kFirstUsed _ hch1.used_chain
    · intro j hj
      have := hch1.not_reserved j (List.mem_append_left _ hj)
      simp only [kTotalReserved, kLastUsed] at *
      omega
    · rw [hsz1]
      omega
  refine ⟨hrange, hcount, ⟨p1, h1, hch1.used_chain, hch1.free_chain, hiter, ?_, hsz1, hc1,
    ?_, ?_, ?_⟩, ?_⟩
  · rw [hfd.uid_eq, if_pos rfl]
  · intro h0
    rw [hc1, h0]
    norm_num
  · intro hpos
    rw [hc1]
    simp only [kTotalReserved] at hlen
    omega
  · rw [hc1, hcount]
    simp only [kTotalReserved] at hlen
    omega
  · intro r hri hid
    have hu := hwf.free_id i hi
    have hv : p.IsValid r = some false := by
      rw [IsValid_false_iff]
      right
      rw [hri]
      exact ⟨_, hu, fun hc => hid hc.symm⟩
    exact ⟨hv, FreeElementRef_of_invalid p r hv⟩

theorem C23_raw_free_unchecked_witness :
    Client.run [.alloc, .free 0] = some exampleEmptied ∧
    (exampleEmptied.pool.FreeElement 4).map VectorPool.active_count = some (2 ^ 64 - 1) ∧
    (exampleEmptied.pool.FreeElement 4).bind VectorPool.iterate = some [] ∧
    (kTotalReserved ≤ 5 ∧ 5 < exampleFreed.pool.Size) ∧
    exampleFreed.pool.active_count = [6, 4].length ∧
    (∃ p1, exampleFreed.pool.FreeElement 5 = some p1 ∧
      Seg (nxt p1.elements_) (prv p1.elements_) kFirstUsed [6, 4] kLastUsed ∧
      Seg (nxt p1.elements_) (prv p1.elements_) kFirstFree (5 :: [5].erase 5) kLastFree ∧
      p1.iterate = some [6, 4] ∧
      uid p1.elements_ 5 = some kInvalidId ∧
      p1.Size = exampleFreed.pool.Size ∧
      p1.active_count = (exampleFreed.pool.active_count + (2 ^ 64 - 1)) % 2 ^ 64 ∧
      (exampleFreed.pool.active_count = 0 → p1.active_count = 2 ^ 64 - 1) ∧
      (0 < exampleFreed.pool.active_count →
        p1.active_count = exampleFreed.pool.active_count - 1) ∧
      p1.active_count ≠ [6, 4].length) ∧
    (∀ r : VectorPoolReference, r.index_ = 5 → r.unique_id_ ≠ kInvalidId →
      exampleFreed.pool.IsValid r = some false ∧
        exampleFreed.pool.FreeElementRef r = some exampleFreed.pool) :=
  ⟨by decide, by decide, by decide,
    C23_raw_free_unchecked exampleFreed.pool [6, 4] [5] exampleFreed_wellFormed (by decide) 5
      (by decide)⟩

end fpl
